import Mathlib

/-!
Verification of `torch/csrc/jit/passes/quantization/insert_quant_dequant.cpp`.

The development shallowly embeds the data model (Graph / Node / Value with
use lists) and the operations of the quantization insertion pass, and proves
the spec claims about them.  Machine-level details that the pass never
inspects (tensor contents, pointer addresses) are abstracted to opaque
payloads; Values and Nodes are addressed by natural-number ids.

Functions that live in `quantization/helper.cpp` (op classification
allow-lists, `isWeight` on plain values, `hitGraphInput`) are not part of the
translated source file; where a claim needs them they are taken as explicit
parameters or modelled from the spec, as noted at each definition.
-/

namespace InsertQDQ

/-- Association-list lookup, used to model the pass's `unordered_map` members
keyed by Graph / Node identity. -/
def alookup {α β : Type} [DecidableEq α] (k : α) : List (α × β) → Option β
  | [] => none
  | (a, b) :: rest => if a = k then some b else alookup k rest

/-- Sets the binding of `k`, keeping the first occurrence's position; appends
when absent (models `map[k] = v`). -/
def aset {α β : Type} [DecidableEq α] (k : α) (v : β) : List (α × β) → List (α × β)
  | [] => [(k, v)]
  | (a, b) :: rest => if a = k then (a, v) :: rest else (a, b) :: aset k v rest

/-- Char-list version of `std::string::compare` against a leading pattern:
`leadsWith need hay` holds when `hay` starts with `need`. -/
def leadsWith : List Char → List Char → Bool
  | [], _ => true
  | _ :: _, [] => false
  | a :: as, b :: bs => a == b && leadsWith as bs

/-- Char-list version of `std::string::find(pat) != npos`: `hasSub need hay`
holds when `need` occurs contiguously inside `hay`. -/
def hasSub (need : List Char) : List Char → Bool
  | [] => leadsWith need []
  | c :: rest => leadsWith need (c :: rest) || hasSub need rest

/-- String wrapper for `hasSub`. -/
def strHasSub (need hay : String) : Bool :=
  hasSub need.data hay.data

/-! ### QScheme model (c10::QScheme) -/

/-- The `c10::QScheme` enum values handled by the pass. -/
inductive CQScheme where
  | perTensorAffine
  | perTensorSymmetric
  | perChannelAffine
  | perChannelSymmetric
  | perChannelAffineFloatQParams
  deriving DecidableEq, Repr

/-- Source `toAffine` (insert_quant_dequant.cpp:24-35): collapses symmetric
schemes to their affine variants, leaving other values unchanged. -/
def toAffine : CQScheme → CQScheme
  | .perTensorAffine => .perTensorAffine
  | .perTensorSymmetric => .perTensorAffine
  | .perChannelAffine => .perChannelAffine
  | .perChannelSymmetric => .perChannelAffine
  | q => q

/-- Source `isPerChannel` (insert_quant_dequant.cpp:37-40). -/
def isPerChannel (q : CQScheme) : Bool :=
  q = CQScheme.perChannelAffine || q = CQScheme.perChannelSymmetric

/-- Error raised (per the spec) when one Graph mixes QSchemes. -/
inductive SchemeErr where
  | schemeConflict (expected got : CQScheme)
  deriving DecidableEq, Repr

/-- Source `InsertQuantDeQuantHelper::checkQScheme`
(insert_quant_dequant.cpp:494-508).  `qschemeForGraph` models the
`qscheme_for_graph_` map keyed by Graph identity.  The C++ guard is

  `TORCH_CHECK(qscheme_for_graph_.at(g) == qscheme || "Quantizing same ...`

the right operand of `||` is a non-null string literal, which converts to the
boolean `true`, so the whole condition is always true and the check can never
fire; the embedding keeps that condition verbatim as `(stored == q) || true`. -/
def checkQScheme (qschemeForGraph : List (Nat × CQScheme)) (g : Nat) (q : CQScheme) :
    Except SchemeErr (List (Nat × CQScheme)) :=
  match alookup g qschemeForGraph with
  | some stored =>
      if (stored == q) || true then .ok qschemeForGraph
      else .error (.schemeConflict stored q)
  | none => .ok (aset g (toAffine q) qschemeForGraph)

/-! ### Parameter extraction (C5) -/

/-- ScalarType values relevant to the dtype check. -/
inductive ScalarType where
  | undefined
  | qint8
  | quint8
  | qint32
  | floatTy
  | intTy
  deriving DecidableEq, Repr

/-- IValue model: the pass only discriminates tuples and tensors; tensor
contents are abstracted to an integer payload, anything else is `other`. -/
inductive IVal where
  | tensor (payload : Int)
  | tup (elems : List IVal)
  | intV (n : Int)
  | other

/-- Source `IValue::isTensor`. -/
def IVal.isTensor : IVal → Bool
  | .tensor _ => true
  | _ => false

/-- Errors of parameter extraction (the TORCH_CHECK messages of
`checkCalculateQParamsResult` and of the dtype check). -/
inductive QPErr where
  | notTuple
  | wrongTupleSize (n : Nat)
  | elemNotTensor (i : Nat)
  | undefinedDtype
  deriving DecidableEq, Repr

/-- Source `checkCalculateQParamsResult` (insert_quant_dequant.cpp:413-434):
the result must be a tuple, of size 2, whose elements 0 and 1 are tensors. -/
def checkCalculateQParamsResult : IVal → Except QPErr Unit
  | .tup [a, b] =>
      if !a.isTensor then .error (.elemNotTensor 0)
      else if !b.isTensor then .error (.elemNotTensor 1)
      else .ok ()
  | .tup elems => .error (.wrongTupleSize elems.length)
  | _ => .error .notTuple

/-- A quantization-parameter value as registered on the module: per-channel
parameters stay tensors, per-tensor parameters are unwrapped to scalars via
`.item()`; payloads stay abstract. -/
inductive QVal where
  | tensorV (payload : Int)
  | floatV (payload : Int)
  | intV (n : Int)
  | scalarTypeV (t : ScalarType)
  deriving DecidableEq, Repr

/-- Source `QParamVector`: ordered (name, value) pairs. -/
abbrev QParamVector := List (String × QVal)

/-- The observer child module's state consumed by
`getQSchemeAndQParamVector`: the value returned by its `calculate_qparams`
method and its `dtype` / `qscheme` / `ch_axis` attributes. -/
structure ObserverModule where
  calcResult : IVal
  dtype : ScalarType
  qscheme : CQScheme
  chAxis : Int

/-- Source `InsertQuantDeQuantHelper::getQSchemeAndQParamVector`
(insert_quant_dequant.cpp:790-830), with the observer-module lookup already
resolved to an `ObserverModule` record.  Validates the `calculate_qparams`
result, rejects an undefined dtype, and assembles the ordered qparam list
(tensor scale / zero_point plus axis for per-channel, scalar forms
otherwise, followed by the scalar type). -/
def getQSchemeAndQParamVector (obs : ObserverModule) :
    Except QPErr (CQScheme × QParamVector) := do
  checkCalculateQParamsResult obs.calcResult
  if obs.dtype = ScalarType.undefined then
    .error .undefinedDtype
  else
    match obs.calcResult with
    | .tup [.tensor s, .tensor z] =>
        let qscheme := obs.qscheme
        let qparams : QParamVector :=
          if isPerChannel qscheme then
            [("_scale", .tensorV s), ("_zero_point", .tensorV z),
             ("_axis", .intV obs.chAxis), ("_scalar_type", .scalarTypeV obs.dtype)]
          else
            [("_scale", .floatV s), ("_zero_point", .intV z),
             ("_scalar_type", .scalarTypeV obs.dtype)]
        .ok (qscheme, qparams)
    | _ =>
        -- unreachable: checkCalculateQParamsResult already succeeded
        .error .notTuple

/-! ### Graph IR model -/

/-- Node kind tags: `prim::CallMethod`, `prim::GetAttr`, other `prim` ops by
name, `aten` ops by name (e.g. `aten "dequantize"`), and `prim::If`. -/
inductive NKind where
  | callMethod
  | getAttr
  | prim (name : String)
  | aten (name : String)
  | ifKind
  deriving DecidableEq, Repr

/-- A graph Node: identity, kind, the `attr::name` string attribute (used by
CallMethod / GetAttr nodes, empty otherwise), and the ordered input / output
Value ids.  A Value is produced by exactly one output slot of one node. -/
structure GNode where
  nid : Nat
  kind : NKind
  attrName : String
  inputs : List Nat
  outputs : List Nat
  deriving DecidableEq, Repr

/-- A Graph block as an ordered node list (topological order).  The claims
proved on this flat representation concern nodes of a single block. -/
abbrev IRGraph := List GNode

/-- Producing node of a Value (`v->node()`); `none` when no node outputs `v`
(then `v` is a graph input, produced by the `prim::Param` pseudo-node). -/
def producerOf (g : IRGraph) (v : Nat) : Option GNode :=
  g.find? (fun n => n.outputs.contains v)

/-- Use list of a Value: the (consumer node id, input slot) pairs, in graph
order (`value->uses()`). -/
def usesOf (g : IRGraph) (v : Nat) : List (Nat × Nat) :=
  g.flatMap (fun n =>
    n.inputs.enum.filterMap (fun p => if p.2 = v then some (n.nid, p.1) else none))

/-- Consumer node ids of a Value (each listed once per consuming node). -/
def userIdsOf (g : IRGraph) (v : Nat) : List Nat :=
  (g.filter (fun n => n.inputs.contains v)).map (fun n => n.nid)

/-- Value substitution on one input slot: `oldV` becomes `newV`. -/
def substV (oldV newV w : Nat) : Nat :=
  if w = oldV then newV else w

/-- Source `Value::replaceAllUsesWith`: every input slot holding `oldV` now
holds `newV`. -/
def replaceAllUsesWith (g : IRGraph) (oldV newV : Nat) : IRGraph :=
  g.map (fun n => { n with inputs := n.inputs.map (substV oldV newV) })

/-- Source `Node::replaceInputWith` on one node: all occurrences of `oldV`
among that node's inputs become `newV`. -/
def replaceInputWithIn (g : IRGraph) (nid oldV newV : Nat) : IRGraph :=
  g.map (fun n =>
    if n.nid = nid then { n with inputs := n.inputs.map (substV oldV newV) } else n)

/-- Source `Node::replaceInput(offset, newV)` on the node `nid`. -/
def replaceInputAt (g : IRGraph) (nid slot newV : Nat) : IRGraph :=
  g.map (fun n => if n.nid = nid then { n with inputs := n.inputs.set slot newV } else n)

/-- Source `Node::removeAllInputs` on the node `nid`. -/
def removeAllInputsIn (g : IRGraph) (nid : Nat) : IRGraph :=
  g.map (fun n => if n.nid = nid then { n with inputs := [] } else n)

/-- Source `Node::destroy` (after inputs are cleared): unlink from the block. -/
def destroyNode (g : IRGraph) (nid : Nat) : IRGraph :=
  g.filter (fun n => n.nid ≠ nid)

/-! ### Observer locator (C10) -/

/-- Source `findObserverName` (insert_quant_dequant.cpp:243-257): the Value
must be produced by a `prim::CallMethod` node named "forward" whose module
operand (input 0) is produced by a `prim::GetAttr` node whose attribute name
contains "_observer_"; that attribute name is returned.  A CallMethod node
always carries its module operand, so `inputs.head?` is `some` there. -/
def findObserverName (g : IRGraph) (v : Nat) : Option String :=
  match producerOf g v with
  | some n =>
      if n.kind = NKind.callMethod ∧ n.attrName = "forward" then
        match n.inputs.head? with
        | some mi =>
            match producerOf g mi with
            | some mn =>
                if mn.kind = NKind.getAttr ∧ strHasSub "_observer_" mn.attrName then
                  some mn.attrName
                else none
            | none => none
        | none => none
      else none
  | none => none

/-! ### Quant/dequant insertion (C2) -/

/-- Result of `insertQuantizationOps`: the rewritten graph together with the
ids the source keeps in locals — the quantize node, the choose_qparams node
(dynamic activations only; the local is uninitialized in the static branch,
modelled as `none`) and the dequantize output Value. -/
structure IQOResult where
  graph : IRGraph
  quantNid : Nat
  chooseNid : Option Nat
  dequantOut : Nat
  deriving DecidableEq, Repr

/-- Source `insertQuantizationOps` (insert_quant_dequant.cpp:193-240).

The C++ branch condition `quant_type == QuantType::DYNAMIC &&
!isWeight(module, observer_out)` depends on helper.cpp's value classifier,
which is outside the translated file; it is passed in as
`dynamicActivation`.  `freshV` / `freshN` are the next unused Value / Node
ids (the IR allocates fresh ids for created values and nodes); insertion
position within the block (the source inserts right after the observer) is
irrelevant to the use-rewiring behavior, so created nodes are appended.

Static / weight branch: one GetAttr node per qparam name (each reading
`self`), then the quantize node reading the observer output plus those
attributes, then one dequantize node.  Dynamic activation branch: a GetAttr
for the dtype (last qparam name), the reduce-range constant, the two-output
`_choose_qparams_per_tensor` node reading the observer output, the quantize
node reading (observer output, scale, zero_point, dtype), then dequantize.

Afterwards `observer_out->replaceAllUsesWith(original_val)` rewires every
use of the observer output (including the just-created quantize and
choose_qparams inputs) to the original value, and the loop over the
snapshotted uses of the original value redirects every user except the
quantize node, the observer and `choose_qparams` to the dequantize output.
In the static branch `choose_qparams` is an uninitialized pointer in the
C++ (compared but never equal to a live node), so only the quantize node
and the observer are exempt there. -/
def insertQuantizationOps (g : IRGraph) (self : Nat) (observer : GNode)
    (isPerChannelFlag : Bool) (qparamNames : List String)
    (dynamicActivation : Bool) (freshV freshN : Nat) : IQOResult :=
  let observerOut := observer.outputs.getD 0 0
  let quantizeFunc := if isPerChannelFlag then "quantize_per_channel" else "quantize_per_tensor"
  let originalVal := observer.inputs.getD 1 0
  if dynamicActivation then
    let dtypeGA : GNode :=
      { nid := freshN, kind := .getAttr, attrName := qparamNames.getLastD "",
        inputs := [self], outputs := [freshV] }
    let rrConst : GNode :=
      { nid := freshN + 1, kind := .prim "Constant", attrName := "",
        inputs := [], outputs := [freshV + 1] }
    let chooseQParams : GNode :=
      { nid := freshN + 2, kind := .aten "_choose_qparams_per_tensor", attrName := "",
        inputs := [observerOut, freshV + 1], outputs := [freshV + 2, freshV + 3] }
    let quant : GNode :=
      { nid := freshN + 3, kind := .aten quantizeFunc, attrName := "",
        inputs := [observerOut, freshV + 2, freshV + 3, freshV], outputs := [freshV + 4] }
    let dequant : GNode :=
      { nid := freshN + 4, kind := .aten "dequantize", attrName := "",
        inputs := [freshV + 4], outputs := [freshV + 5] }
    let g1 := g ++ [dtypeGA, rrConst, chooseQParams, quant, dequant]
    let g2 := replaceAllUsesWith g1 observerOut originalVal
    let uses := usesOf g2 originalVal
    let g3 := uses.foldl (fun acc use =>
      if use.1 ≠ quant.nid ∧ use.1 ≠ observer.nid ∧ use.1 ≠ chooseQParams.nid then
        replaceInputWithIn acc use.1 originalVal (freshV + 5)
      else acc) g2
    ⟨g3, quant.nid, some chooseQParams.nid, freshV + 5⟩
  else
    let getAttrs := qparamNames.enum.map (fun p =>
      ({ nid := freshN + p.1, kind := .getAttr, attrName := p.2,
         inputs := [self], outputs := [freshV + p.1] } : GNode))
    let k := qparamNames.length
    let quant : GNode :=
      { nid := freshN + k, kind := .aten quantizeFunc, attrName := "",
        inputs := observerOut :: getAttrs.map (fun n => n.outputs.getD 0 0),
        outputs := [freshV + k] }
    let dequant : GNode :=
      { nid := freshN + k + 1, kind := .aten "dequantize", attrName := "",
        inputs := [freshV + k], outputs := [freshV + k + 1] }
    let g1 := g ++ getAttrs ++ [quant, dequant]
    let g2 := replaceAllUsesWith g1 observerOut originalVal
    let uses := usesOf g2 originalVal
    let g3 := uses.foldl (fun acc use =>
      if use.1 ≠ quant.nid ∧ use.1 ≠ observer.nid then
        replaceInputWithIn acc use.1 originalVal (freshV + k + 1)
      else acc) g2
    ⟨g3, quant.nid, none, freshV + k + 1⟩

/-! ### Dequantize replication (C8) -/

/-- Node lookup by id (the C++ holds `Node*` pointers; the embedding
addresses nodes by id and reads their current state from the graph). -/
def nodeById (g : IRGraph) (nid : Nat) : Option GNode :=
  g.find? (fun n => n.nid = nid)

/-- The value currently held by input slot `off` of the node `uid`. -/
def slotValueAt (g : IRGraph) (uid off : Nat) : Option Nat :=
  match nodeById g uid with
  | some n => n.inputs[off]?
  | none => none

/-- Source `insertDeQuantForAllUse` (insert_quant_dequant.cpp:116-135):
snapshot the uses of `originalVal`, then for the i-th use create a
dequantize node reading `quantizedVal` (node id `freshN + i`, output
`freshV + i`) and rewire exactly that use's slot to the new output.  The
source inserts each dequantize right before its user and also returns the
created outputs; position and the return value are irrelevant to the
properties proved here, so nodes are appended and only the graph is
returned. -/
def insertDeQuantForAllUse (g : IRGraph) (quantizedVal originalVal : Nat)
    (freshV freshN : Nat) : IRGraph :=
  (usesOf g originalVal).enum.foldl (fun acc p =>
    replaceInputAt (acc ++
      [{ nid := freshN + p.1, kind := .aten "dequantize", attrName := "",
         inputs := [quantizedVal], outputs := [freshV + p.1] }]) p.2.1 p.2.2 (freshV + p.1))
    g

/-- The loop of `insertDeQuantForAllUse` over an arbitrary indexed use
snapshot (the indexed pairs are `(use index, (user node id, slot))`); the
recursion mirrors `List.foldl` so `insertDeQuantForAllUse` unfolds to
`idqFold` definitionally. -/
def idqFold (q fv fn : Nat) : List (Nat × Nat × Nat) → IRGraph → IRGraph
  | [], G => G
  | p :: rest, G =>
      idqFold q fv fn rest
        (replaceInputAt (G ++
          [{ nid := fn + p.1, kind := .aten "dequantize", attrName := "",
             inputs := [q], outputs := [fv + p.1] }]) p.2.1 p.2.2 (fv + p.1))

/-- The match condition of `ReplicateDeQuant`'s collection loop: a
`aten::dequantize` node whose output has more than one use. -/
def IsMatchedNode (g : IRGraph) (n : GNode) : Prop :=
  n.kind = NKind.aten "dequantize" ∧ (usesOf g (n.outputs.getD 0 0)).length > 1

/-- The collected `dequant_nodes_to_rewrite`, as node ids, in block order
(this embedding works on a single flat block; nested blocks are traversed
with identical per-node logic in the source). -/
def rdqMatched (g : IRGraph) : List Nat :=
  (g.filter (fun n =>
    n.kind = NKind.aten "dequantize" ∧ (usesOf g (n.outputs.getD 0 0)).length > 1)).map
    (fun n => n.nid)

/-- One iteration of the rewrite loop: read the node's current input 0
(`quantized_val`) and output (`dequantized_val`), then insert one dequant
per current use.  The state also threads the fresh id counters. -/
def rdqStep (st : IRGraph × Nat × Nat) (nid : Nat) : IRGraph × Nat × Nat :=
  match nodeById st.1 nid with
  | some n =>
      let k := (usesOf st.1 (n.outputs.getD 0 0)).length
      (insertDeQuantForAllUse st.1 (n.inputs.getD 0 0) (n.outputs.getD 0 0)
        st.2.1 st.2.2, st.2.1 + k, st.2.2 + k)
  | none => st

/-- The graph state after `ReplicateDeQuant`'s rewrite loop. -/
def rdqRewritten (g : IRGraph) (freshV freshN : Nat) : IRGraph × Nat × Nat :=
  (rdqMatched g).foldl rdqStep (g, freshV, freshN)

/-- The graph after the `removeAllInputs` loop over the matched nodes. -/
def rdqCleared (g : IRGraph) (freshV freshN : Nat) : IRGraph :=
  (rdqMatched g).foldl (fun acc nid => removeAllInputsIn acc nid) (rdqRewritten g freshV freshN).1

/-- Source `ReplicateDeQuant` (insert_quant_dequant.cpp:1282-1312): collect
the multi-use dequantize nodes, replicate each per use, then clear every
matched node's inputs, then destroy them. -/
def ReplicateDeQuant (g : IRGraph) (freshV freshN : Nat) : IRGraph :=
  (rdqMatched g).foldl (fun acc nid => destroyNode acc nid) (rdqCleared g freshV freshN)

/-- Well-formedness: node ids are pairwise distinct. -/
def NodeIdsUnique (g : IRGraph) : Prop :=
  g.Pairwise (fun n m => n.nid ≠ m.nid)

/-- Well-formedness: distinct nodes produce disjoint output values. -/
def OutputsDisjoint (g : IRGraph) : Prop :=
  g.Pairwise (fun n m => ∀ v ∈ n.outputs, v ∉ m.outputs)

/-- Invariant of the `ReplicateDeQuant` rewrite loop relative to the
original graph `g`: every original matched node is still present verbatim,
node ids stay unique, and all ids / values stay below the running fresh
counters. -/
def RdqInv (g : IRGraph) (st : IRGraph × Nat × Nat) : Prop :=
  (∀ m ∈ g, IsMatchedNode g m → m ∈ st.1) ∧
  NodeIdsUnique st.1 ∧
  (∀ n ∈ st.1, n.nid < st.2.2 ∧ (∀ w ∈ n.inputs, w < st.2.1) ∧
    (∀ w ∈ n.outputs, w < st.2.1))

/-- The facts established once the matched dequantize with input `q` and
output `dout` has been replicated: every original use's slot holds a fresh
value produced by its own fresh dequantize node reading `q`, and distinct
uses hold distinct values. -/
def RdqPost (g : IRGraph) (q dout fv fn : Nat) (st : IRGraph × Nat × Nat) : Prop :=
  (∀ p ∈ usesOf g dout, ∃ w, fv ≤ w ∧ w < st.2.1 ∧
    slotValueAt st.1 p.1 p.2 = some w ∧
    ∃ nd ∈ st.1, nd.kind = NKind.aten "dequantize" ∧ nd.inputs = [q] ∧
      nd.outputs = [w] ∧ fn ≤ nd.nid) ∧
  (∀ p1 ∈ usesOf g dout, ∀ p2 ∈ usesOf g dout, p1 ≠ p2 →
    ∀ w1 w2, slotValueAt st.1 p1.1 p1.2 = some w1 →
      slotValueAt st.1 p2.1 p2.2 = some w2 → w1 ≠ w2)

/-- Before the matched node with output `dout` is processed, every original
use of `dout` still holds `dout` (stated through the current node records). -/
def RdqPre (g : IRGraph) (dout : Nat) (st : IRGraph × Nat × Nat) : Prop :=
  ∀ p ∈ usesOf g dout, ∃ n ∈ st.1, n.nid = p.1 ∧ n.inputs[p.2]? = some dout

/-! ### Weight subgraph extraction (C6, C7) -/

/-- A node as seen by the weight-subgraph walk: its id and input Values. -/
structure WNode where
  nid : Nat
  inputs : List Nat
  deriving DecidableEq, Repr

/-- The graph as a producer map: `producer v = some n` when node `n` outputs
`v`, and `none` when `v` is a graph input (helper.cpp's `hitGraphInput`
tests exactly membership in `graph->inputs()`). -/
structure WGraph where
  producer : Nat → Option WNode

/-- Errors of the subgraph walk: the `TORCH_CHECK(v == self, ...)` failure
naming the offending value, plus exhaustion of the recursion-depth fuel
(the C++ recursion terminates because Graphs are acyclic; the fuel is a
modelling artifact, not a source behavior). -/
inductive SGErr where
  | fuelExhausted
  | unexpectedGraphInput (v : Nat)
  deriving DecidableEq, Repr

/-- Source `InsertQuantDeQuantHelper::findSubgraph`
(insert_quant_dequant.cpp:709-729), processing a worklist of values: for a
value with a producing node, the node is appended first and the walk then
recurses into its inputs in order (pre-order, exactly the C++ push order);
a graph input must be `self`, anything else fails with
`unexpectedGraphInput`.  Fuel decreases on every step. -/
def findSubgraphList (g : WGraph) (self : Nat) : Nat → List Nat → Except SGErr (List WNode)
  | 0, _ => .error .fuelExhausted
  | _ + 1, [] => .ok []
  | fuel + 1, v :: vs =>
      match g.producer v with
      | some node =>
          match findSubgraphList g self fuel node.inputs with
          | .error e => .error e
          | .ok seg =>
              match findSubgraphList g self fuel vs with
              | .error e => .error e
              | .ok rest => .ok ((node :: seg) ++ rest)
      | none =>
          if v = self then findSubgraphList g self fuel vs
          else .error (.unexpectedGraphInput v)

/-- Entry point matching `findSubgraph(self, weight_value, weight_subgraph)`:
the walk starts at the weight-producing Value. -/
def findSubgraph (g : WGraph) (self : Nat) (fuel : Nat) (v : Nat) :
    Except SGErr (List WNode) :=
  findSubgraphList g self fuel [v]

/-- Every collected node's inputs have their producers later in the list
(the orientation produced by the pre-order walk, before the reversal in
`extractAndRunWeightObserver`). -/
def GoodSuffix (g : WGraph) (self : Nat) (l : List WNode) : Prop :=
  ∀ pre n post, l = pre ++ n :: post →
    ∀ v ∈ n.inputs, v = self ∨ ∃ q ∈ post, g.producer v = some q

/-- The claim's validity condition on the reversed list: every node's inputs
are either the root input or produced by a node occurring earlier. -/
def ValidExecOrder (g : WGraph) (self : Nat) (l : List WNode) : Prop :=
  ∀ pre n post, l = pre ++ n :: post →
    ∀ v ∈ n.inputs, v = self ∨ ∃ q ∈ pre, g.producer v = some q

/-- Worklist coverage: every value in `vs` is the root or has its producer in
`l`. -/
def Covers (g : WGraph) (self : Nat) (vs : List Nat) (l : List WNode) : Prop :=
  ∀ v ∈ vs, v = self ∨ ∃ q ∈ l, g.producer v = some q

/-- Well-formedness: no Value is produced by two distinct Nodes. -/
def UniqueProducers (g : IRGraph) : Prop :=
  ∀ n ∈ g, ∀ m ∈ g, ∀ v ∈ n.outputs, v ∈ m.outputs → n = m

/-- Node `n` of graph `g` produces Value `v`. -/
def ProducesIn (g : IRGraph) (n : GNode) (v : Nat) : Prop :=
  n ∈ g ∧ v ∈ n.outputs

/-! ### Concrete instances used by witnesses and counterexamples -/

/-- Weight-subgraph sample: node 1 computes the weight value 10 from value 11
and the root input 0; node 2 computes value 11 from the root input. -/
def wnodeA : WNode := ⟨1, [11, 0]⟩

/-- Second node of the weight-subgraph sample. -/
def wnodeB : WNode := ⟨2, [0]⟩

/-- Producer map of the weight-subgraph sample; value 0 is the root input. -/
def wg1 : WGraph :=
  ⟨fun v => if v = 10 then some wnodeA else if v = 11 then some wnodeB else none⟩

/-- A weight whose computation reads graph input 7, which is not the root. -/
def wnodeC : WNode := ⟨3, [7]⟩

/-- Producer map where the walk from value 12 hits the non-root input 7. -/
def wgBad : WGraph :=
  ⟨fun v => if v = 12 then some wnodeC else none⟩

/-- Observer-pattern sample: GetAttr node fetching the observer module. -/
def gaNode10 : GNode :=
  { nid := 1, kind := .getAttr, attrName := "foo_observer_0", inputs := [0], outputs := [5] }

/-- Observer-pattern sample: the observer's forward CallMethod node. -/
def cmNode10 : GNode :=
  { nid := 2, kind := .callMethod, attrName := "forward", inputs := [5, 4], outputs := [6] }

/-- Graph containing the observer call pattern; value 6 is the observer
output, value 4 the observed value (a graph input here). -/
def g10 : IRGraph := [gaNode10, cmNode10]

/-- An observer record whose `calculate_qparams` result is well-formed. -/
def obs0 : ObserverModule :=
  ⟨IVal.tup [IVal.tensor 1, IVal.tensor 2], ScalarType.qint8, CQScheme.perTensorAffine, 0⟩

/-- Observer-insertion sample: GetAttr fetching the observer module. -/
def c2ga : GNode :=
  { nid := 1, kind := .getAttr, attrName := "x_observer_0", inputs := [0], outputs := [5] }

/-- Observer forward call observing value 4 (a graph input) as value 6. -/
def c2obs : GNode :=
  { nid := 2, kind := .callMethod, attrName := "forward", inputs := [5, 4], outputs := [6] }

/-- A downstream consumer of the observed value. -/
def c2consumer : GNode :=
  { nid := 3, kind := .aten "linear", attrName := "", inputs := [6], outputs := [7] }

/-- Graph before quant/dequant insertion; self is value 0, the raw observed
value is 4, the observer output is 6. -/
def c2g : IRGraph := [c2ga, c2obs, c2consumer]

/-- The dynamic-activation insertion result on `c2g`. -/
def c2dyn : IQOResult :=
  insertQuantizationOps c2g 0 c2obs false ["x_scalar_type_0"] true 10 10

/-- The static-mode insertion result on `c2g`. -/
def c2static : IQOResult :=
  insertQuantizationOps c2g 0 c2obs false ["x_scale_0", "x_zero_point_0", "x_scalar_type_0"]
    false 10 10

/-- Dequantize-replication sample: the multi-use dequantize node. -/
def c8d : GNode :=
  { nid := 2, kind := .aten "dequantize", attrName := "", inputs := [20], outputs := [21] }

/-- First consumer of the dequantized value. -/
def c8u1 : GNode :=
  { nid := 3, kind := .aten "flatten", attrName := "", inputs := [21], outputs := [22] }

/-- Second consumer of the dequantized value. -/
def c8u2 : GNode :=
  { nid := 4, kind := .aten "mean", attrName := "", inputs := [21], outputs := [23] }

/-- Graph whose dequantize output 21 has two uses; 20 is the quantized
input (a graph input here). -/
def c8g : IRGraph := [c8d, c8u1, c8u2]

end InsertQDQ

namespace InsertQDQ

/-! ### Conditional quantize replication (C3) -/

/-- A block of a `prim::If` node: its member nodes and its return values
(`Block::outputs()`). -/
structure QBlock where
  nodes : List GNode
  outputs : List Nat
  deriving DecidableEq, Repr

/-- A top-level node together with its blocks (empty unless `prim::If`). -/
structure QNode where
  node : GNode
  blocks : List QBlock
  deriving DecidableEq, Repr

/-- A graph whose top-level block carries one level of nested blocks (the
source traverses deeper nesting with identical per-node logic). -/
abbrev QGraph := List QNode

/-- Node lookup by id on the nested representation. -/
def qNodeById (g : QGraph) (nid : Nat) : Option QNode :=
  g.find? (fun n => n.node.nid = nid)

/-- Producing top-level node of a Value (`v->node()`). -/
def qProducerOf (g : QGraph) (v : Nat) : Option QNode :=
  g.find? (fun n => n.node.outputs.contains v)

/-- `Value::replaceAllUsesWith` on the nested representation: every input
slot and every block return slot holding `oldV` now holds `newV`. -/
def qReplaceAllUses (g : QGraph) (oldV newV : Nat) : QGraph :=
  g.map (fun n =>
    { node := { n.node with inputs := n.node.inputs.map (substV oldV newV) },
      blocks := n.blocks.map (fun b =>
        { nodes := b.nodes.map (fun m =>
            { m with inputs := m.inputs.map (substV oldV newV) }),
          outputs := b.outputs.map (substV oldV newV) }) })

/-- The collection condition of `ReplicateQuant`: an
`aten::quantize_per_tensor` / `aten::quantize_per_channel` node whose first
input is produced by a `prim::If` node. -/
def rqIsMatched (g : QGraph) (n : QNode) : Bool :=
  (n.node.kind == NKind.aten "quantize_per_tensor" ||
   n.node.kind == NKind.aten "quantize_per_channel") &&
  (match qProducerOf g (n.node.inputs.getD 0 0) with
   | some p => p.node.kind == NKind.ifKind
   | none => false)

/-- The collected `quant_nodes_to_rewrite`, as node ids, in block order. -/
def rqMatched (g : QGraph) : List Nat :=
  (g.filter (fun n => rqIsMatched g n)).map (fun n => n.node.nid)

/-- The fatal error of `ReplicateQuant`'s TORCH_CHECK: a block of the
conditional declares `count` outputs instead of one. -/
inductive RQErr where
  | blockOutputs (count : Nat)
  deriving DecidableEq, Repr

/-- The per-block loop of `ReplicateQuant` (insert_quant_dequant.cpp
1257-1271): for each block of the `prim::If`, TORCH_CHECK that it declares
exactly one output — otherwise the pass aborts fatally — then append a
quantize node of kind `k` whose inputs copy the original quantize node's
inputs with slot 0 replaced by the block's return value, and replace the
block's output with the new node's output.  Fresh value/node ids are
threaded. -/
def rqBlocks (k : NKind) (qin : List Nat) :
    List QBlock → Nat → Nat → Except RQErr (List QBlock × Nat × Nat)
  | [], fv, fnId => .ok ([], fv, fnId)
  | b :: rest, fv, fnId =>
      if b.outputs.length = 1 then
        match rqBlocks k qin rest (fv + 1) (fnId + 1) with
        | .ok (bs, fv2, fn2) =>
            .ok ({ nodes := b.nodes ++
                     [{ nid := fnId, kind := k, attrName := "",
                        inputs := qin.set 0 (b.outputs.getD 0 0),
                        outputs := [fv] }],
                   outputs := [fv] } :: bs, fv2, fn2)
        | .error e => .error e
      else .error (RQErr.blockOutputs b.outputs.length)

/-- One iteration of `ReplicateQuant`'s rewrite loop (lines 1247-1272): the
C++ works on live `Node*` pointers, so after `replaceAllUsesWith` the
quantize node's inputs and the conditional's blocks are re-read from the
updated graph.  The `moveBefore` of the qparam producers only changes node
position, which this order-free embedding does not track. -/
def rqRewriteOne (st : QGraph × Nat × Nat) (nid : Nat) :
    Except RQErr (QGraph × Nat × Nat) :=
  match qNodeById st.1 nid with
  | none => .ok st
  | some n0 =>
      match qProducerOf st.1 (n0.node.inputs.getD 0 0) with
      | none => .ok st
      | some ifn0 =>
          let g1 := qReplaceAllUses st.1 (n0.node.outputs.getD 0 0)
            (ifn0.node.outputs.getD 0 0)
          match qNodeById g1 nid, qNodeById g1 ifn0.node.nid with
          | some n, some ifn =>
              match rqBlocks n.node.kind n.node.inputs ifn.blocks st.2.1 st.2.2 with
              | .ok (bs, fv2, fn2) =>
                  .ok (g1.map (fun m =>
                    if m.node.nid = ifn.node.nid then { m with blocks := bs } else m),
                    fv2, fn2)
              | .error e => .error e
          | _, _ => .ok st

/-- The rewrite loop over the collected node ids; the first TORCH_CHECK
failure aborts the pass. -/
def rqLoop : List Nat → (QGraph × Nat × Nat) → Except RQErr (QGraph × Nat × Nat)
  | [], st => .ok st
  | a :: rest, st =>
      match rqRewriteOne st a with
      | .ok st2 => rqLoop rest st2
      | .error e => .error e

/-- `Node::removeAllInputs` on the nested representation. -/
def qRemoveAllInputsIn (g : QGraph) (nid : Nat) : QGraph :=
  g.map (fun n =>
    if n.node.nid = nid then { n with node := { n.node with inputs := [] } } else n)

/-- `Node::destroy` on the nested representation. -/
def qDestroyNode (g : QGraph) (nid : Nat) : QGraph :=
  g.filter (fun n => n.node.nid ≠ nid)

/-- Source `ReplicateQuant` (insert_quant_dequant.cpp:1228-1280): collect
the quantize-of-If nodes, rewrite each (aborting on the TORCH_CHECK if a
block declares more than one output), then clear the matched nodes' inputs
and destroy them. -/
def ReplicateQuant (g : QGraph) (fv fnId : Nat) : Except RQErr QGraph :=
  match rqLoop (rqMatched g) (g, fv, fnId) with
  | .ok st =>
      .ok ((rqMatched g).foldl (fun acc nid => qDestroyNode acc nid)
        ((rqMatched g).foldl (fun acc nid => qRemoveAllInputsIn acc nid) st.1))
  | .error e => .error e

/-- A two-output conditional: `prim::If` node 1 returns two values from each
branch. -/
def c3ifn : QNode :=
  { node := { nid := 1, kind := .ifKind, attrName := "", inputs := [0],
              outputs := [5, 6] },
    blocks := [⟨[], [10, 11]⟩, ⟨[], [12, 13]⟩] }

/-- A quantize node whose first input is the conditional's first output. -/
def c3q : QNode :=
  { node := { nid := 2, kind := .aten "quantize_per_tensor", attrName := "",
              inputs := [5, 7, 8, 9], outputs := [14] },
    blocks := [] }

/-- Graph on which conditional-quantize replication hits the multi-output
TORCH_CHECK. -/
def c3g : QGraph := [c3ifn, c3q]

/-! ### Pass memoization and repeated runs (C4) -/

/-- A module object: its attribute table (`module._ivalue()` attributes)
and its observer child modules keyed by attribute name. -/
structure ModuleObj where
  attrs : List (String × QVal)
  observers : List (String × ObserverModule)

/-- The helper's per-pass memo tables (`observer_nodes_for_graph_`,
`qparam_name_map_for_node_`, `qscheme_for_graph_`, `nodes_to_destroy_`,
`observer_modules_to_remove_`), keyed by graph / node identity. -/
structure PassState where
  observerNodesForGraph : List (Nat × List Nat)
  qparamNameMapForNode : List (Nat × List (String × String))
  qschemeForGraph : List (Nat × CQScheme)
  nodesToDestroy : List (Nat × List Nat)
  observerModulesToRemove : List (Nat × List String)

/-- Failure modes of one `run` invocation: propagated extraction errors and
the TORCH_INTERNAL_ASSERT / `map::at` aborts of the source. -/
inductive RunErr where
  | qparams (e : QPErr)
  | scheme (e : SchemeErr)
  | noNode (nid : Nat)
  | noObserverName (nid : Nat)
  | noObserverModule (name : String)
  | noQParamNameMap (nid : Nat)
  | missingAttr (name : String)
  | freshNameSearch
  deriving DecidableEq, Repr

/-- Source `getQSchemeAndQParamVector(module, n)` (lines 790-830): reads the
observer node's output value, finds the observer attribute name on it,
fetches the observer child module by that name (`module.attr(name)`), and
defers to the record-level extraction.  The TORCH_INTERNAL_ASSERTs (node /
observer-name / observer-module missing) become explicit errors. -/
def getQSchemeAndQParamVectorM (module : ModuleObj) (g : IRGraph) (nid : Nat) :
    Except RunErr (CQScheme × QParamVector) :=
  match nodeById g nid with
  | none => .error (.noNode nid)
  | some n =>
      match findObserverName g (n.outputs.getD 0 0) with
      | none => .error (.noObserverName nid)
      | some name =>
          match alookup name module.observers with
          | none => .error (.noObserverModule name)
          | some obs =>
              match getQSchemeAndQParamVector obs with
              | .ok tp => .ok tp
              | .error e => .error (.qparams e)

/-- `module._ivalue()->setAttr(name, v)`: writes an existing attribute slot;
a missing slot is a fatal lookup failure. -/
def setAttrE (m : ModuleObj) (k : String) (v : QVal) : Except RunErr ModuleObj :=
  match alookup k m.attrs with
  | some _ => .ok { m with attrs := aset k v m.attrs }
  | none => .error (.missingAttr k)

/-- The attribute re-registration loop of `run`'s memoized branch (lines
1131-1136): each extracted qparam is written to the attribute name recorded
for it in `qparam_name_map` (`at(name)` failing fatally when absent). -/
def setRecordedQParams (nameMap : List (String × String)) :
    QParamVector → ModuleObj → Except RunErr ModuleObj
  | [], m => .ok m
  | (name, q) :: rest, m =>
      match alookup name nameMap with
      | none => .error (.missingAttr name)
      | some attrName =>
          match setAttrE m attrName q with
          | .ok m2 => setRecordedQParams nameMap rest m2
          | .error e => .error e

/-- The memoized branch of `run` (lines 1122-1139): for each recorded
observer node of this graph, re-extract the calibration parameters,
re-check the scheme, and re-set the recorded attribute names.  The graph is
never touched — the branch returns before any insertion. -/
def runMemoLoop (g : IRGraph) (gid : Nat) :
    List Nat → ModuleObj → PassState → Except RunErr (ModuleObj × PassState)
  | [], m, st => .ok (m, st)
  | nid :: rest, m, st =>
      match getQSchemeAndQParamVectorM m g nid with
      | .error e => .error e
      | .ok (qscheme, qparamMap) =>
          match checkQScheme st.qschemeForGraph gid qscheme with
          | .error e => .error (.scheme e)
          | .ok qmap2 =>
              match alookup nid st.qparamNameMapForNode with
              | none => .error (.noQParamNameMap nid)
              | some nameMap =>
                  match setRecordedQParams nameMap qparamMap m with
                  | .error e => .error e
                  | .ok m2 =>
                      runMemoLoop g gid rest m2 { st with qschemeForGraph := qmap2 }

/-- Appends to the list stored under `k` (models `map[k].push_back(v)`). -/
def apush {α β : Type} [DecidableEq α] (k : α) (v : β)
    (l : List (α × List β)) : List (α × List β) :=
  match alookup k l with
  | some vs => aset k (vs ++ [v]) l
  | none => aset k [v] l

/-- Source `collectObserverNodesAndValueToQuantize` (lines 578-600) for one
output value `v` of node `n`: when `v` carries an observer, record the
observer module name for removal, mark the observer call and its GetAttr
producer for destruction, and record the observer node for the graph.  (The
TORCH_INTERNAL_ASSERT restates the pattern `findObserverName` just matched,
see the C10 characterization.) -/
def collectOne (g : IRGraph) (gid : Nat) (st : PassState) (n : GNode)
    (v : Nat) : PassState :=
  match findObserverName g v with
  | none => st
  | some name =>
      let destroyIds := match producerOf g (n.inputs.getD 0 0) with
        | some ga => [n.nid, ga.nid]
        | none => [n.nid]
      { st with
        observerModulesToRemove := apush gid name st.observerModulesToRemove,
        nodesToDestroy := destroyIds.foldl (fun acc i => apush gid i acc)
          st.nodesToDestroy,
        observerNodesForGraph := apush gid n.nid st.observerNodesForGraph }

/-- The block walk of `run`'s first-visit branch (lines 1150-1170): collect
from every output of every node (this embedding has no value types; the
source skips non-tensor values, and the separate loop over graph inputs is
a no-op because a graph input has no producer and so no observer). -/
def collectLoop (g : IRGraph) (gid : Nat) : List GNode → PassState → PassState
  | [], st => st
  | n :: rest, st =>
      collectLoop g gid rest (n.outputs.foldl (fun s v => collectOne g gid s n v) st)

/-- The `while (module.hasattr(qparam_name))` fresh-name search of
`quantizeTensors` (lines 772-778), fuel-bounded: candidate names are
`base ++ "_" ++ uid` for increasing `uid`. -/
def freshQParamName (attrs : List (String × QVal)) (base : String) :
    Nat → Nat → Option String
  | 0, _ => none
  | fuel + 1, uid =>
      let cand := base ++ "_" ++ toString uid
      match alookup cand attrs with
      | none => some cand
      | some _ => freshQParamName attrs base fuel (uid + 1)

/-- The qparam registration loop of `quantizeTensors` (lines 768-783): for
each extracted qparam pick a fresh attribute name, record it in the node's
name map, register the attribute on the module, and collect the name. -/
def registerQParams (base : String) (fuel : Nat) :
    QParamVector → ModuleObj → List (String × String) → List String →
    Except RunErr (ModuleObj × List (String × String) × List String)
  | [], m, nmap, names => .ok (m, nmap, names)
  | (name, q) :: rest, m, nmap, names =>
      match freshQParamName m.attrs (base ++ name) fuel 0 with
      | none => .error .freshNameSearch
      | some qpn =>
          registerQParams base fuel rest { m with attrs := aset qpn q m.attrs }
            (aset name qpn nmap) (names ++ [qpn])

/-- Source `quantizeTensors` (lines 757-788) looping over the recorded
observer nodes: extract qparams, check the scheme, register fresh
attributes, and insert the quant/dequant ops.  Fresh value/node ids are an
artifact of this id-based embedding and advance by a stride covering both
insertion shapes. -/
def quantizeTensorsLoop (gid self : Nat) (dyn : Bool) (fuel : Nat) :
    List Nat → IRGraph → ModuleObj → PassState → Nat → Nat →
    Except RunErr (IRGraph × ModuleObj × PassState)
  | [], g, m, st, _, _ => .ok (g, m, st)
  | nid :: rest, g, m, st, fv, fnId =>
      match nodeById g nid with
      | none => .error (.noNode nid)
      | some n =>
          match getQSchemeAndQParamVectorM m g nid with
          | .error e => .error e
          | .ok (qscheme, qparamMap) =>
              match checkQScheme st.qschemeForGraph gid qscheme with
              | .error e => .error (.scheme e)
              | .ok qmap2 =>
                  match registerQParams (toString (n.inputs.getD 1 0)) fuel
                      qparamMap m [] [] with
                  | .error e => .error e
                  | .ok (m2, nmap, names) =>
                      quantizeTensorsLoop gid self dyn fuel rest
                        (insertQuantizationOps g self n (isPerChannel qscheme)
                          names dyn fv fnId).graph
                        m2
                        { st with qschemeForGraph := qmap2,
                                  qparamNameMapForNode :=
                                    aset nid nmap st.qparamNameMapForNode }
                        (fv + names.length + 8) (fnId + names.length + 8)

/-- Source `InsertQuantDeQuantHelper::run` (lines 1107-1178) on one graph;
the recursion over invoked methods visits other graphs and is outside this
single-graph embedding.  A memoized graph takes the re-registration branch
and returns with the graph untouched; a first visit collects the observer
nodes and runs `quantizeTensors`. -/
def runOnGraph (st : PassState) (m : ModuleObj) (gid : Nat) (g : IRGraph)
    (self : Nat) (dyn : Bool) (fv fnId fuel : Nat) :
    Except RunErr (IRGraph × ModuleObj × PassState) :=
  match alookup gid st.observerNodesForGraph with
  | some obsNodes =>
      match runMemoLoop g gid obsNodes m st with
      | .ok (m2, st2) => .ok (g, m2, st2)
      | .error e => .error e
  | none =>
      let st1 := collectLoop g gid g st
      match alookup gid st1.observerNodesForGraph with
      | none => .ok (g, m, st1)
      | some l => quantizeTensorsLoop gid self dyn fuel l g m st1 fv fnId

/-- Memoized pass state for the observer graph `g10` (graph id 7, observer
node 2) with the qparam attribute names recorded by the first run. -/
def c4st : PassState :=
  { observerNodesForGraph := [(7, [2])],
    qparamNameMapForNode :=
      [(2, [("_scale", "x_scale_0"), ("_zero_point", "x_zero_point_0"),
            ("_scalar_type", "x_scalar_type_0")])],
    qschemeForGraph := [(7, CQScheme.perTensorAffine)],
    nodesToDestroy := [(7, [2, 1])],
    observerModulesToRemove := [(7, ["foo_observer_0"])] }

/-- Module whose attribute table already carries the registered qparam
attributes and an unrelated attribute, plus the observer child module. -/
def c4m : ModuleObj :=
  { attrs := [("x_scale_0", QVal.floatV 0), ("x_zero_point_0", QVal.intV 0),
              ("x_scalar_type_0", QVal.scalarTypeV ScalarType.quint8),
              ("bias", QVal.tensorV 9)],
    observers := [("foo_observer_0", obs0)] }

/-! ### Quantization propagation engine (C9)

`propagateQuantizationOps` (insert_quant_dequant.cpp:987-1063) walks the
block and dispatches on classifiers defined in `helper.cpp`, which is not
part of this repository's sources; those classifiers
(`isSingleInputGeneralValueAtenFunction`, `getFixedQParams`, `isClamp`,
`getPassThroughInputs`) are therefore abstract parameters here.  The live
block iterator also reaches nodes inserted during the walk; the embedding
models this with a worklist that starts with the block's node ids and is
extended by the ids of inserted nodes, consuming fuel. -/

/-- The `helper.cpp` classifiers consumed by the propagation engine. -/
structure EngCfg where
  isSIGV : GNode → Bool
  fixedQP : GNode → Option (CQScheme × QParamVector)
  isClampN : GNode → Bool
  passThrough : IRGraph → Nat → List Nat

/-- The propagation engine state: the graph, the fresh value / node id
counters, the per-invocation `quantized_values_` set, and the audit list of
values wrapped by an inserted quantize node, in insertion order. -/
structure PropState where
  g : IRGraph
  freshV : Nat
  freshN : Nat
  quantizedValues : List Nat
  wraps : List Nat

/-- Source `getDequantizedInputs` (lines 968-984): the pass-through inputs
of the output, provided there is at least one and every one is produced by
an `aten::dequantize` node. -/
def dequantizedInputs (cfg : EngCfg) (g : IRGraph) (o : Nat) : Option (List Nat) :=
  let ins := cfg.passThrough g o
  if ins.length > 0 then
    if ins.all (fun i =>
        match producerOf g i with
        | some p => p.kind == NKind.aten "dequantize"
        | none => false) then some ins
    else none
  else none

/-- Core of `propagateQParams` (lines 870-950) after the optional
scalar-to-tensor conversion: assert the single pass-through input, read its
dequantize producer, build the quantize node over `target` (the qparam
argument values are modeled as fresh value ids; their producer nodes —
constants in the fixed-qparam case, `q_scale` / `q_zero_point` / `dtype`
readers otherwise — carry no quantize semantics and are elided), replace
the uses of `target` with the quantize output, and give every redirected
use its own fresh dequantize via `insertDeQuantForAllUse`; the dequantize
outputs enter `quantized_values_` and `target` is recorded as wrapped. -/
def qpArgCount : Option (CQScheme × QParamVector) → Nat
  | some (_, qps) => qps.length
  | none => 3

def qpQuantKind : Option (CQScheme × QParamVector) → NKind
  | some (qs, _) =>
      if isPerChannel qs then NKind.aten "quantize_per_channel"
      else NKind.aten "quantize_per_tensor"
  | none => NKind.aten "quantize_per_tensor"

/-- The quantize node built by `propagateQParams` over `target`. -/
def qpQN (st : PropState) (target : Nat)
    (qpOpt : Option (CQScheme × QParamVector)) : GNode :=
  { nid := st.freshN, kind := qpQuantKind qpOpt, attrName := "",
    inputs := target :: (List.range (qpArgCount qpOpt)).map (fun i => st.freshV + i),
    outputs := [st.freshV + qpArgCount qpOpt] }

/-- The graph after `target`'s uses are redirected to the quantize output
and the quantize node is inserted. -/
def qpG2 (st : PropState) (target : Nat)
    (qpOpt : Option (CQScheme × QParamVector)) : IRGraph :=
  replaceAllUsesWith st.g target (st.freshV + qpArgCount qpOpt) ++
    [qpQN st target qpOpt]

/-- The number of uses of the quantize output (= the redirected uses of
`target`), each getting its own fresh dequantize. -/
def qpK (st : PropState) (target : Nat)
    (qpOpt : Option (CQScheme × QParamVector)) : Nat :=
  (usesOf (qpG2 st target qpOpt) (st.freshV + qpArgCount qpOpt)).length

def propQPCore (st : PropState) (target : Nat) (ins : List Nat)
    (qpOpt : Option (CQScheme × QParamVector)) : Option (PropState × List Nat) :=
  if ins.length = 1 then
    match producerOf st.g (ins.getD 0 0) with
    | none => none
    | some _ =>
        some ({ g := insertDeQuantForAllUse (qpG2 st target qpOpt)
                  (st.freshV + qpArgCount qpOpt) (st.freshV + qpArgCount qpOpt)
                  (st.freshV + qpArgCount qpOpt + 1) (st.freshN + 1),
                freshV := st.freshV + qpArgCount qpOpt + 1 + qpK st target qpOpt,
                freshN := st.freshN + 1 + qpK st target qpOpt,
                quantizedValues := st.quantizedValues ++
                  (List.range (qpK st target qpOpt)).map
                    (fun i => st.freshV + qpArgCount qpOpt + 1 + i),
                wraps := st.wraps ++ [target] },
              st.freshN :: (List.range (qpK st target qpOpt)).map
                (fun i => st.freshN + 1 + i))
  else none

/-- Source `propagateQParams`: in the scalar case first insert an
`aten::scalar_tensor` conversion node (its constant arguments are elided)
whose fresh output replaces the scalar's uses and becomes the wrap target;
the `aten::item` re-conversion after the fresh dequants is a further
non-quantize side node and is elided, the dequantize outputs entering
`quantized_values_` directly. -/
def propagateQParamsE (st : PropState) (originalOutput : Nat) (ins : List Nat)
    (isScalar : Bool) (qpOpt : Option (CQScheme × QParamVector)) :
    Option (PropState × List Nat) :=
  if isScalar then
    let sN : GNode := { nid := st.freshN, kind := NKind.aten "scalar_tensor",
                        attrName := "", inputs := [originalOutput],
                        outputs := [st.freshV] }
    let st1 : PropState :=
      { st with g := replaceAllUsesWith st.g originalOutput st.freshV ++ [sN],
                freshV := st.freshV + 1, freshN := st.freshN + 1 }
    match propQPCore st1 st.freshV ins qpOpt with
    | some (st2, ids) => some (st2, st.freshN :: ids)
    | none => none
  else propQPCore st originalOutput ins qpOpt

/-- The guarded per-output loop shared by the first two branches of
`propagateQuantizationOps` (lines 1002-1026): an output already in
`quantized_values_` is skipped, otherwise an output with dequantized
pass-through inputs is propagated; in the clamp case the two scalar
arguments are propagated as well. -/
def propOutputsLoop (cfg : EngCfg) (n : GNode) (useClamp : Bool)
    (qpOpt : Option (CQScheme × QParamVector)) :
    List Nat → PropState → Option (PropState × List Nat)
  | [], st => some (st, [])
  | o :: rest, st =>
      if o ∈ st.quantizedValues then propOutputsLoop cfg n useClamp qpOpt rest st
      else
        match dequantizedInputs cfg st.g o with
        | none => propOutputsLoop cfg n useClamp qpOpt rest st
        | some ins =>
            match propagateQParamsE st o ins false qpOpt with
            | none => none
            | some (st2, ids1) =>
                if useClamp then
                  match propagateQParamsE st2 (n.inputs.getD 1 0) ins true none with
                  | none => none
                  | some (st3, ids2) =>
                      match propagateQParamsE st3 (n.inputs.getD 2 0) ins true none with
                      | none => none
                      | some (st4, ids3) =>
                          match propOutputsLoop cfg n useClamp qpOpt rest st4 with
                          | none => none
                          | some (st5, ids4) =>
                              some (st5, ids1 ++ ids2 ++ ids3 ++ ids4)
                else
                  match propOutputsLoop cfg n useClamp qpOpt rest st2 with
                  | none => none
                  | some (st5, ids4) => some (st5, ids1 ++ ids4)

/-- Collection step of the third branch (lines 1040-1048): the dequantized
pass-through inputs and the outputs to re-dequantize, over the guarded
outputs. -/
def collectB3 (cfg : EngCfg) (g : IRGraph) (qvs : List Nat) :
    List Nat → List Nat × List Nat
  | [] => ([], [])
  | o :: rest =>
      let pr := collectB3 cfg g qvs rest
      if o ∈ qvs then pr
      else
        match dequantizedInputs cfg g o with
        | some ins => (ins ++ pr.1, o :: pr.2)
        | none => pr

/-- Source `removeDequantizeFromInputs` (lines 951-965): each dequantized
value must have exactly one use (TORCH_INTERNAL_ASSERT), its uses are
redirected to the dequantize node's input and the dequantize node is
destroyed. -/
def removeDequants : List Nat → IRGraph → Option IRGraph
  | [], g => some g
  | dv :: rest, g =>
      if (usesOf g dv).length = 1 then
        match producerOf g dv with
        | some dqn =>
            removeDequants rest
              (destroyNode (replaceAllUsesWith g dv (dqn.inputs.getD 0 0)) dqn.nid)
        | none => none
      else none

/-- Step 3 of the third branch (lines 1057-1060): insert a fresh dequantize
for every use of each collected output. -/
def insertDeqForOutputs : List Nat → PropState → PropState × List Nat
  | [], st => (st, [])
  | o :: rest, st =>
      let k := (usesOf st.g o).length
      let st2 : PropState :=
        { st with g := insertDeQuantForAllUse st.g o o st.freshV st.freshN,
                  freshV := st.freshV + k, freshN := st.freshN + k }
      let pr := insertDeqForOutputs rest st2
      (pr.1, (List.range k).map (fun i => st.freshN + i) ++ pr.2)

/-- One iteration of `propagateQuantizationOps` on the node `nid`: a
conditional with zero or several outputs is skipped (nested blocks are
walked with the same per-node logic), otherwise the three classifier
branches run; the third branch collects, removes the input dequantizes and
re-dequantizes the outputs without inserting any quantize node. -/
def propStep (cfg : EngCfg) (st : PropState) (nid : Nat) :
    Option (PropState × List Nat) :=
  match nodeById st.g nid with
  | none => some (st, [])
  | some n =>
      if n.kind = NKind.ifKind ∧ n.outputs.length ≠ 1 then some (st, [])
      else if cfg.isSIGV n then
        propOutputsLoop cfg n (cfg.isClampN n) none n.outputs st
      else
        match cfg.fixedQP n with
        | some qp => propOutputsLoop cfg n false (some qp) n.outputs st
        | none =>
            let pr := collectB3 cfg st.g st.quantizedValues n.outputs
            match removeDequants pr.1 st.g with
            | none => none
            | some g2 =>
                some (insertDeqForOutputs pr.2 { st with g := g2 })

/-- The fuel-bounded worklist run of the propagation engine: the block's
node ids first, then the inserted nodes as the live iterator reaches
them. -/
def propRun (cfg : EngCfg) : Nat → List Nat → PropState → Option PropState
  | 0, _, _ => none
  | _ + 1, [], st => some st
  | fuel + 1, nid :: rest, st =>
      match propStep cfg st nid with
      | none => none
      | some (st2, newIds) => propRun cfg fuel (rest ++ newIds) st2

/-- Graph well-formedness for the propagation engine: node ids below `fn`,
values below `fv`, per-node duplicate-free outputs, and distinct nodes (by
id) producing disjoint outputs. -/
def GWF (g : IRGraph) (fv fn : Nat) : Prop :=
  (∀ n ∈ g, n.nid < fn ∧ (∀ w ∈ n.inputs, w < fv) ∧ (∀ w ∈ n.outputs, w < fv) ∧
    n.outputs.Nodup) ∧
  (∀ n ∈ g, ∀ m ∈ g, n.nid ≠ m.nid → ∀ o ∈ n.outputs, o ∉ m.outputs)

/-- Loop invariant of the propagation run: the wrap audit is duplicate-free
and fresh-bounded, the graph is well-formed, the worklist ids are distinct
and bounded, and no pending node other than an inserted `scalar_tensor`
conversion outputs an already-wrapped value. -/
def PropInv (wl : List Nat) (st : PropState) : Prop :=
  st.wraps.Nodup ∧ (∀ w ∈ st.wraps, w < st.freshV) ∧
  0 < st.freshV ∧
  GWF st.g st.freshV st.freshN ∧
  wl.Nodup ∧ (∀ a ∈ wl, a < st.freshN) ∧
  (∀ w ∈ st.wraps, ∀ a ∈ wl, ∀ n ∈ st.g, n.nid = a →
    n.kind ≠ NKind.aten "scalar_tensor" → w ∉ n.outputs)

/-- Graph evolution contract between two engine states: nodes with old ids
keep their kind and outputs, nodes with new ids output only fresh values. -/
def GTrans (stA stB : PropState) : Prop :=
  (∀ n2 ∈ stB.g, n2.nid < stA.freshN →
    ∃ n1 ∈ stA.g, n1.nid = n2.nid ∧ n1.kind = n2.kind ∧ n1.outputs = n2.outputs) ∧
  (∀ n2 ∈ stB.g, stA.freshN ≤ n2.nid → ∀ o ∈ n2.outputs, stA.freshV ≤ o)

/-- C9 sample: a dequantize feeding a pass-through-quantizable consumer. -/
def c9d : GNode :=
  { nid := 1, kind := .aten "dequantize", attrName := "", inputs := [30],
    outputs := [31] }

/-- C9 sample: the consumer whose output gets propagated. -/
def c9f : GNode :=
  { nid := 2, kind := .aten "flatten", attrName := "", inputs := [31],
    outputs := [32] }

/-- C9 sample graph. -/
def c9g : IRGraph := [c9d, c9f]

/-- C9 sample classifiers: `flatten` is the single-input general-value
function, pass-through inputs are the producing node's inputs. -/
def c9cfg : EngCfg :=
  { isSIGV := fun n => n.kind == NKind.aten "flatten",
    fixedQP := fun _ => none,
    isClampN := fun _ => false,
    passThrough := fun g o =>
      match producerOf g o with
      | some p => p.inputs
      | none => [] }

end InsertQDQ

namespace InsertQDQ

/-! ## Theorems -/

/-- C1: the claim says a scheme mismatch aborts the pass with a fatal
scheme-conflict error, and the surrounding code (the check's own error
message and the purpose comment on `qscheme_for_graph_`) shows that is the
intent — but the TORCH_CHECK condition `stored == qscheme || "..."` is
always true because the string literal converts to `true`, so the check
never fires.  Evaluated at a graph recorded with the affine-collapsed scheme
`perTensorAffine` while the observer yields `perChannelAffine` (a different
affine collapse), `checkQScheme` returns success and leaves the map
unchanged instead of aborting. -/
theorem c1_checkQScheme_conflict_not_fatal :
    checkQScheme [(0, CQScheme.perTensorAffine)] 0 CQScheme.perChannelAffine
      = Except.ok [(0, CQScheme.perTensorAffine)]
    ∧ toAffine CQScheme.perChannelAffine ≠ toAffine CQScheme.perTensorSymmetric
    ∧ (∀ st g q, ∀ e : SchemeErr, checkQScheme st g q ≠ Except.error e) := by
  refine ⟨rfl, by decide, ?_⟩
  intro st g q e
  unfold checkQScheme
  cases alookup g st <;> simp

/-- Splitting a cons decomposition of an appended list. -/
theorem append_eq_append_cons_split {α : Type} {l1 l2 pre post : List α} {n : α}
    (h : l1 ++ l2 = pre ++ n :: post) :
    (∃ post1, l1 = pre ++ n :: post1 ∧ post = post1 ++ l2) ∨
    (∃ pre2, l2 = pre2 ++ n :: post ∧ pre = l1 ++ pre2) := by
  induction l1 generalizing pre with
  | nil =>
      right
      exact ⟨pre, h, rfl⟩
  | cons a t ih =>
      cases pre with
      | nil =>
          simp only [List.nil_append, List.cons_append] at h ⊢
          obtain ⟨rfl, rfl⟩ := List.cons.inj h
          left
          exact ⟨t, rfl, rfl⟩
      | cons b pt =>
          simp only [List.cons_append] at h
          obtain ⟨rfl, h2⟩ := List.cons.inj h
          rcases ih h2 with ⟨post1, hEq, hPost⟩ | ⟨pre2, hEq, hPre⟩
          · left
            exact ⟨post1, by simp [hEq], hPost⟩
          · right
            exact ⟨pre2, hEq, by simp [hPre]⟩

/-- The empty list trivially satisfies `GoodSuffix`. -/
theorem goodSuffix_nil (g : WGraph) (self : Nat) : GoodSuffix g self [] := by
  intro pre n post h
  exact absurd h (by simp)

/-- `GoodSuffix` is closed under concatenation. -/
theorem goodSuffix_append {g : WGraph} {self : Nat} {l1 l2 : List WNode}
    (h1 : GoodSuffix g self l1) (h2 : GoodSuffix g self l2) :
    GoodSuffix g self (l1 ++ l2) := by
  intro pre n post heq v hv
  rcases append_eq_append_cons_split heq with ⟨post1, hEq, hPost⟩ | ⟨pre2, hEq, _⟩
  · rcases h1 pre n post1 hEq v hv with h | ⟨q, hq, hpq⟩
    · exact Or.inl h
    · exact Or.inr ⟨q, by simp [hPost, hq], hpq⟩
  · exact h2 pre2 n post hEq v hv

/-- Prepending a node whose inputs are covered by the tail preserves
`GoodSuffix`. -/
theorem goodSuffix_cons {g : WGraph} {self : Nat} {nd : WNode} {l : List WNode}
    (hcov : Covers g self nd.inputs l) (hl : GoodSuffix g self l) :
    GoodSuffix g self (nd :: l) := by
  intro pre n post heq v hv
  cases pre with
  | nil =>
      simp only [List.nil_append] at heq
      obtain ⟨rfl, rfl⟩ := List.cons.inj heq
      exact hcov v hv
  | cons a pt =>
      simp only [List.cons_append] at heq
      obtain ⟨rfl, h2⟩ := List.cons.inj heq
      exact hl pt n post h2 v hv

/-- Key invariant of the weight-subgraph walk: a successful walk returns a
pre-order list whose every node has its inputs produced later in the list
(or equal to the root), and which covers the whole worklist. -/
theorem findSubgraphList_good (g : WGraph) (self : Nat) :
    ∀ fuel vs l, findSubgraphList g self fuel vs = .ok l →
      GoodSuffix g self l ∧ Covers g self vs l := by
  intro fuel
  induction fuel with
  | zero =>
      intro vs l h
      simp [findSubgraphList] at h
  | succ f ih =>
      intro vs l h
      cases vs with
      | nil =>
          simp only [findSubgraphList] at h
          obtain rfl := (Except.ok.inj h).symm
          exact ⟨goodSuffix_nil g self, by intro v hv; simp at hv⟩
      | cons v vs =>
          simp only [findSubgraphList] at h
          split at h
          case _ node hp =>
            split at h
            case _ e hseg => exact absurd h (by simp)
            case _ seg hseg =>
              split at h
              case _ e hrest => exact absurd h (by simp)
              case _ rest hrest =>
                obtain rfl := (Except.ok.inj h).symm
                obtain ⟨gseg, cseg⟩ := ih _ _ hseg
                obtain ⟨grest, crest⟩ := ih _ _ hrest
                constructor
                · exact goodSuffix_append (goodSuffix_cons cseg gseg) grest
                · intro w hw
                  rcases List.mem_cons.mp hw with rfl | hw2
                  · exact Or.inr ⟨node, by simp, hp⟩
                  · rcases crest w hw2 with h | ⟨q, hq, hpq⟩
                    · exact Or.inl h
                    · exact Or.inr ⟨q, by simp [hq], hpq⟩
          case _ hp =>
            split at h
            case isTrue hv =>
              obtain ⟨gl, cl⟩ := ih _ _ h
              refine ⟨gl, ?_⟩
              intro w hw
              rcases List.mem_cons.mp hw with rfl | hw2
              · exact Or.inl hv
              · exact cl w hw2
            case isFalse hv => exact absurd h (by simp)

/-- C6: for every weight-producing Value whose backward traversal succeeds,
the collected node list, once reversed, is a valid execution order — every
node in the reversed list has each input either equal to the root input or
produced by a node occurring earlier in the reversed list. -/
theorem c6_findSubgraph_reverse_valid (g : WGraph) (self fuel w : Nat)
    (l : List WNode) (h : findSubgraph g self fuel w = .ok l) :
    ValidExecOrder g self l.reverse := by
  have hg := (findSubgraphList_good g self fuel [w] l h).1
  intro pre n post heq v hv
  have hl : l = post.reverse ++ n :: pre.reverse := by
    have h2 := congrArg List.reverse heq
    simpa using h2
  rcases hg post.reverse n pre.reverse hl v hv with h1 | ⟨q, hq, hpq⟩
  · exact Or.inl h1
  · exact Or.inr ⟨q, by simpa using hq, hpq⟩

/-- Witness for C6 at the concrete graph `wg1`: the walk from weight value
10 collects `[wnodeA, wnodeB]`, whose reversal is a valid execution order. -/
theorem c6_witness :
    findSubgraph wg1 0 5 10 = Except.ok [wnodeA, wnodeB] ∧
    ValidExecOrder wg1 0 ([wnodeA, wnodeB]).reverse :=
  ⟨rfl, c6_findSubgraph_reverse_valid wg1 0 5 10 [wnodeA, wnodeB] rfl⟩

/-- Propagated errors of the walk pinpoint a non-root graph input. -/
theorem findSubgraphList_error_input (g : WGraph) (self : Nat) :
    ∀ fuel vs u, findSubgraphList g self fuel vs = .error (.unexpectedGraphInput u) →
      g.producer u = none ∧ u ≠ self := by
  intro fuel
  induction fuel with
  | zero =>
      intro vs u h
      simp [findSubgraphList] at h
  | succ f ih =>
      intro vs u h
      cases vs with
      | nil => simp [findSubgraphList] at h
      | cons v vs =>
          simp only [findSubgraphList] at h
          split at h
          case _ node hp =>
            split at h
            case _ e hseg =>
              obtain rfl := (Except.error.inj h).symm
              exact ih _ _ hseg
            case _ seg hseg =>
              split at h
              case _ e hrest =>
                obtain rfl := (Except.error.inj h).symm
                exact ih _ _ hrest
              case _ rest hrest => exact absurd h (by simp)
          case _ hp =>
            split at h
            case isTrue hv => exact ih _ _ h
            case isFalse hv =>
              have h2 := Except.error.inj h
              obtain rfl := (SGErr.unexpectedGraphInput.inj h2).symm
              exact ⟨hp, hv⟩

/-- C7: the weight-subgraph walk never silently incorporates a non-root
graph input — on success every graph-input value read by a collected node is
the root `self`, and the `unexpectedGraphInput` failure names a value that
really is a graph input different from the root. -/
theorem c7_findSubgraph_root_only (g : WGraph) (self fuel w : Nat) :
    (∀ l, findSubgraph g self fuel w = .ok l →
      ∀ n ∈ l, ∀ v ∈ n.inputs, g.producer v = none → v = self) ∧
    (∀ u, findSubgraph g self fuel w = .error (.unexpectedGraphInput u) →
      g.producer u = none ∧ u ≠ self) := by
  constructor
  · intro l h n hn v hv hnone
    have hg := (findSubgraphList_good g self fuel [w] l h).1
    obtain ⟨pre, post, rfl⟩ := List.append_of_mem hn
    rcases hg pre n post rfl v hv with h1 | ⟨q, _, hpq⟩
    · exact h1
    · rw [hnone] at hpq
      exact absurd hpq (by simp)
  · intro u h
    exact findSubgraphList_error_input g self fuel [w] u h

/-- Witness for C7: the success half applied at `wg1` and the failure half
applied at `wgBad`, where the walk from value 12 reaches graph input 7. -/
theorem c7_witness :
    (∀ n ∈ [wnodeA, wnodeB], ∀ v ∈ n.inputs, wg1.producer v = none → v = 0) ∧
    (wgBad.producer 7 = none ∧ 7 ≠ 0) :=
  ⟨(c7_findSubgraph_root_only wg1 0 5 10).1 [wnodeA, wnodeB] rfl,
   (c7_findSubgraph_root_only wgBad 0 5 12).2 7 rfl⟩

/-- Characterization of `leadsWith` as list prefix decomposition. -/
theorem leadsWith_iff (need hay : List Char) :
    leadsWith need hay = true ↔ ∃ rest, hay = need ++ rest := by
  induction need generalizing hay with
  | nil => simp [leadsWith]
  | cons a as ih =>
      cases hay with
      | nil => simp [leadsWith]
      | cons b bs =>
          simp only [leadsWith, Bool.and_eq_true, beq_iff_eq, List.cons_append]
          constructor
          · rintro ⟨rfl, h⟩
            obtain ⟨rest, rfl⟩ := (ih bs).mp h
            exact ⟨rest, rfl⟩
          · rintro ⟨rest, heq⟩
            obtain ⟨rfl, h2⟩ := List.cons.inj heq
            exact ⟨rfl, (ih bs).mpr ⟨rest, h2⟩⟩

/-- Characterization of `hasSub` as contiguous-substring decomposition. -/
theorem hasSub_iff (need hay : List Char) :
    hasSub need hay = true ↔ ∃ s t, hay = s ++ need ++ t := by
  induction hay with
  | nil =>
      simp only [hasSub, leadsWith_iff]
      constructor
      · rintro ⟨rest, h⟩
        have h2 := List.append_eq_nil.mp h.symm
        exact ⟨[], [], by simp [h2.1]⟩
      · rintro ⟨s, t, h⟩
        have h2 := List.append_eq_nil.mp h.symm
        have h3 := List.append_eq_nil.mp h2.1
        exact ⟨[], by simp [h3.2]⟩
  | cons c rest ih =>
      simp only [hasSub, Bool.or_eq_true, leadsWith_iff, ih]
      constructor
      · rintro (⟨r, h⟩ | ⟨s, t, h⟩)
        · exact ⟨[], r, by simp [h]⟩
        · exact ⟨c :: s, t, by simp [h]⟩
      · rintro ⟨s, t, h⟩
        cases s with
        | nil => exact Or.inl ⟨t, by simpa using h⟩
        | cons x xs =>
            obtain ⟨rfl, h2⟩ := List.cons.inj (by simpa using h)
            exact Or.inr ⟨xs, t, by simpa [List.append_assoc] using h2⟩

/-- A `producerOf` hit really is a producing node. -/
theorem producesIn_of_producerOf {g : IRGraph} {n : GNode} {v : Nat}
    (h : producerOf g v = some n) : ProducesIn g n v := by
  unfold producerOf at h
  refine ⟨List.mem_of_find?_eq_some h, ?_⟩
  have h2 := List.find?_some h
  simpa using h2

/-- With unique producers, `producerOf` finds exactly the producing node. -/
theorem producerOf_eq_of_producesIn {g : IRGraph} {n : GNode} {v : Nat}
    (hU : UniqueProducers g) (h : ProducesIn g n v) : producerOf g v = some n := by
  obtain ⟨hn, hv⟩ := h
  cases hfind : producerOf g v with
  | none =>
      unfold producerOf at hfind
      have h2 := List.find?_eq_none.mp hfind n hn
      simp at h2
      exact absurd hv h2
  | some m =>
      obtain ⟨hm, hvm⟩ := producesIn_of_producerOf hfind
      rw [hU m hm n hn v hvm hv]

/-- C10: the observer locator returns a name exactly when the Value is
produced by a `forward` CallMethod whose module operand comes from a GetAttr
node whose attribute name contains "_observer_", and the returned name is
that attribute name.  The well-formedness hypotheses state the IR invariants
the locator relies on: unique value producers, and CallMethod nodes always
carrying their module operand as input 0. -/
theorem c10_findObserverName_characterization (g : IRGraph) (v : Nat)
    (hU : UniqueProducers g)
    (hArity : ∀ n ∈ g, n.kind = NKind.callMethod → n.inputs ≠ []) :
    ∀ nm, findObserverName g v = some nm ↔
      ∃ cm mi ga, ProducesIn g cm v ∧ cm.kind = NKind.callMethod ∧
        cm.attrName = "forward" ∧ cm.inputs.head? = some mi ∧
        ProducesIn g ga mi ∧ ga.kind = NKind.getAttr ∧
        (∃ s t, ga.attrName.data = s ++ "_observer_".data ++ t) ∧
        nm = ga.attrName := by
  intro nm
  constructor
  · intro h
    unfold findObserverName at h
    split at h
    case _ n hp =>
      split at h
      case isTrue hcond =>
        split at h
        case _ mi hmi =>
          split at h
          case _ mn hpmi =>
            split at h
            case isTrue hcond2 =>
              obtain rfl := (Option.some.inj h).symm
              refine ⟨n, mi, mn, producesIn_of_producerOf hp, hcond.1, hcond.2, hmi,
                producesIn_of_producerOf hpmi, hcond2.1, ?_, rfl⟩
              exact (hasSub_iff _ _).mp hcond2.2
            case isFalse _ => exact absurd h (by simp)
          case _ _ => exact absurd h (by simp)
        case _ _ => exact absurd h (by simp)
      case isFalse _ => exact absurd h (by simp)
    case _ hp => exact absurd h (by simp)
  · rintro ⟨cm, mi, ga, hcm, hk, hf, hhead, hga, hgk, hsub, rfl⟩
    have h1 : producerOf g v = some cm := producerOf_eq_of_producesIn hU hcm
    have h2 : producerOf g mi = some ga := producerOf_eq_of_producesIn hU hga
    have h3 : strHasSub "_observer_" ga.attrName = true := (hasSub_iff _ _).mpr hsub
    simp [findObserverName, h1, h2, hhead, hk, hf, hgk, h3]

/-- Witness for C10 at the concrete graph `g10`: value 6 is produced by the
forward call on the `foo_observer_0` attribute, and the locator returns that
name. -/
theorem c10_witness :
    UniqueProducers g10 ∧
    (∃ cm mi ga, ProducesIn g10 cm 6 ∧ cm.kind = NKind.callMethod ∧
      cm.attrName = "forward" ∧ cm.inputs.head? = some mi ∧
      ProducesIn g10 ga mi ∧ ga.kind = NKind.getAttr ∧
      (∃ s t, ga.attrName.data = s ++ "_observer_".data ++ t) ∧
      "foo_observer_0" = ga.attrName) :=
  ⟨by unfold UniqueProducers; decide,
   (c10_findObserverName_characterization g10 6 (by unfold UniqueProducers; decide) (by decide)
     "foo_observer_0").mp rfl⟩

/-- C5: parameter extraction fails exactly when the `calculate_qparams`
result is not a two-element tuple of tensors or the observer's dtype is
undefined; on success it returns the observer's qscheme together with the
qparam list in quantize-argument order (tensor scale / zero point and the
axis for per-channel schemes, scalar forms otherwise, then the scalar
type). -/
theorem c5_getQSchemeAndQParamVector_spec (obs : ObserverModule) :
    ((∃ e, getQSchemeAndQParamVector obs = .error e) ↔
      (¬ ∃ a b, obs.calcResult = IVal.tup [a, b] ∧ a.isTensor = true ∧ b.isTensor = true) ∨
        obs.dtype = ScalarType.undefined) ∧
    (∀ q qp, getQSchemeAndQParamVector obs = .ok (q, qp) →
      q = obs.qscheme ∧
      qp.map Prod.fst =
        (if isPerChannel obs.qscheme then ["_scale", "_zero_point", "_axis", "_scalar_type"]
         else ["_scale", "_zero_point", "_scalar_type"])) := by
  obtain ⟨res, dt, qs, ax⟩ := obs
  by_cases hdt : dt = ScalarType.undefined
  · subst hdt
    match res with
    | .tensor p => simp [getQSchemeAndQParamVector, checkCalculateQParamsResult, Bind.bind, Except.bind]
    | .intV n => simp [getQSchemeAndQParamVector, checkCalculateQParamsResult, Bind.bind, Except.bind]
    | .other => simp [getQSchemeAndQParamVector, checkCalculateQParamsResult, Bind.bind, Except.bind]
    | .tup [] => simp [getQSchemeAndQParamVector, checkCalculateQParamsResult, Bind.bind, Except.bind]
    | .tup [a] => simp [getQSchemeAndQParamVector, checkCalculateQParamsResult, Bind.bind, Except.bind]
    | .tup (a :: b :: c :: rest) =>
        simp [getQSchemeAndQParamVector, checkCalculateQParamsResult, Bind.bind, Except.bind]
    | .tup [a, b] =>
        cases ha : a.isTensor <;> cases hb : b.isTensor <;>
          simp [getQSchemeAndQParamVector, checkCalculateQParamsResult, Bind.bind, Except.bind,
            ha, hb]
  · match res with
    | .tensor p =>
        simp [getQSchemeAndQParamVector, checkCalculateQParamsResult, Bind.bind, Except.bind, hdt]
    | .intV n =>
        simp [getQSchemeAndQParamVector, checkCalculateQParamsResult, Bind.bind, Except.bind, hdt]
    | .other =>
        simp [getQSchemeAndQParamVector, checkCalculateQParamsResult, Bind.bind, Except.bind, hdt]
    | .tup [] =>
        simp [getQSchemeAndQParamVector, checkCalculateQParamsResult, Bind.bind, Except.bind, hdt]
    | .tup [a] =>
        simp [getQSchemeAndQParamVector, checkCalculateQParamsResult, Bind.bind, Except.bind, hdt]
    | .tup (a :: b :: c :: rest) =>
        simp [getQSchemeAndQParamVector, checkCalculateQParamsResult, Bind.bind, Except.bind, hdt]
    | .tup [a, b] =>
        match a, b with
        | .tensor pa, .tensor pb =>
            by_cases hpc : isPerChannel qs = true <;>
              simp [getQSchemeAndQParamVector, checkCalculateQParamsResult, Bind.bind,
                Except.bind, hdt, IVal.isTensor, hpc]
        | .tensor pa, .tup l =>
            simp [getQSchemeAndQParamVector, checkCalculateQParamsResult, Bind.bind, Except.bind,
              hdt, IVal.isTensor]
        | .tensor pa, .intV nb =>
            simp [getQSchemeAndQParamVector, checkCalculateQParamsResult, Bind.bind, Except.bind,
              hdt, IVal.isTensor]
        | .tensor pa, .other =>
            simp [getQSchemeAndQParamVector, checkCalculateQParamsResult, Bind.bind, Except.bind,
              hdt, IVal.isTensor]
        | .tup l, bb =>
            simp [getQSchemeAndQParamVector, checkCalculateQParamsResult, Bind.bind, Except.bind,
              hdt, IVal.isTensor]
        | .intV na, bb =>
            simp [getQSchemeAndQParamVector, checkCalculateQParamsResult, Bind.bind, Except.bind,
              hdt, IVal.isTensor]
        | .other, bb =>
            simp [getQSchemeAndQParamVector, checkCalculateQParamsResult, Bind.bind, Except.bind,
              hdt, IVal.isTensor]

/-- Substitution is idempotent on a slot. -/
theorem substV_idem (a b w : Nat) : substV a b (substV a b w) = substV a b w := by
  unfold substV
  split_ifs <;> simp_all

/-- Substitution is idempotent on an input list. -/
theorem map_substV_idem (l : List Nat) (a b : Nat) :
    (l.map (substV a b)).map (substV a b) = l.map (substV a b) := by
  rw [List.map_map]
  exact List.map_congr_left (fun x _ => substV_idem a b x)

/-- After substituting `a` away, `a` no longer occurs (when `a ≠ b`). -/
theorem not_mem_map_substV (l : List Nat) {a b : Nat} (h : a ≠ b) :
    a ∉ l.map (substV a b) := by
  intro hmem
  obtain ⟨x, _, heq⟩ := List.mem_map.mp hmem
  unfold substV at heq
  by_cases hxa : x = a
  · rw [if_pos hxa] at heq
    exact h heq.symm
  · rw [if_neg hxa] at heq
    exact hxa heq

/-- Substitution does not introduce values other than the replacement. -/
theorem not_mem_map_substV_of {l : List Nat} {c a b : Nat}
    (h1 : c ∉ l) (h2 : c ≠ b) : c ∉ l.map (substV a b) := by
  intro hmem
  obtain ⟨x, hx, heq⟩ := List.mem_map.mp hmem
  unfold substV at heq
  by_cases hxa : x = a
  · rw [if_pos hxa] at heq
    exact h2 heq.symm
  · rw [if_neg hxa] at heq
    exact h1 (heq ▸ hx)

/-- The use-redirecting loop of `insertQuantizationOps` is a pointwise graph
map: a node is rewired exactly when some snapshotted use names its id and
the id is not exempt. -/
theorem foldl_redirect (P : Nat → Prop) [DecidablePred P] (ov dq : Nat) :
    ∀ (uses : List (Nat × Nat)) (G : IRGraph),
      uses.foldl (fun acc u => if P u.1 then replaceInputWithIn acc u.1 ov dq else acc) G
        = G.map (fun n =>
            if ∃ u ∈ uses, u.1 = n.nid ∧ P u.1 then
              { n with inputs := n.inputs.map (substV ov dq) }
            else n) := by
  intro uses
  induction uses with
  | nil =>
      intro G
      simp
  | cons u us ih =>
      intro G
      rw [List.foldl_cons]
      by_cases hp : P u.1
      · rw [if_pos hp, ih]
        unfold replaceInputWithIn
        rw [List.map_map]
        refine List.map_congr_left ?_
        intro n _
        simp only [Function.comp]
        by_cases hid : n.nid = u.1
        · rw [if_pos hid]
          have hx : ∃ v ∈ u :: us, v.1 = n.nid ∧ P v.1 :=
            ⟨u, List.mem_cons_self u us, hid.symm, hp⟩
          rw [if_pos hx]
          by_cases htr : ∃ v ∈ us,
              v.1 = ({ n with inputs := n.inputs.map (substV ov dq) } : GNode).nid ∧ P v.1
          · rw [if_pos htr]
            simp [map_substV_idem, substV_idem]
          · rw [if_neg htr]
        · rw [if_neg hid]
          by_cases htr : ∃ v ∈ us, v.1 = n.nid ∧ P v.1
          · have hx : ∃ v ∈ u :: us, v.1 = n.nid ∧ P v.1 := by
              obtain ⟨v, hv, h1, h2⟩ := htr
              exact ⟨v, List.mem_cons_of_mem _ hv, h1, h2⟩
            rw [if_pos htr, if_pos hx]
          · have hx : ¬ ∃ v ∈ u :: us, v.1 = n.nid ∧ P v.1 := by
              rintro ⟨v, hv, h1, h2⟩
              rcases List.mem_cons.mp hv with rfl | hv2
              · exact hid h1.symm
              · exact htr ⟨v, hv2, h1, h2⟩
            rw [if_neg htr, if_neg hx]
      · rw [if_neg hp, ih]
        refine List.map_congr_left ?_
        intro n _
        by_cases htr : ∃ v ∈ us, v.1 = n.nid ∧ P v.1
        · have hx : ∃ v ∈ u :: us, v.1 = n.nid ∧ P v.1 := by
            obtain ⟨v, hv, h1, h2⟩ := htr
            exact ⟨v, List.mem_cons_of_mem _ hv, h1, h2⟩
          rw [if_pos htr, if_pos hx]
        · have hx : ¬ ∃ v ∈ u :: us, v.1 = n.nid ∧ P v.1 := by
            rintro ⟨v, hv, h1, h2⟩
            rcases List.mem_cons.mp hv with rfl | hv2
            · exact hp h2
            · exact htr ⟨v, hv2, h1, h2⟩
          rw [if_neg htr, if_neg hx]

/-- Every node input really appears in the use list. -/
theorem usesOf_complete {G : IRGraph} {n : GNode} {v : Nat}
    (hn : n ∈ G) (hv : v ∈ n.inputs) :
    ∃ off, (n.nid, off) ∈ usesOf G v := by
  obtain ⟨i, hlt, hi⟩ := List.mem_iff_getElem.mp hv
  refine ⟨i, ?_⟩
  unfold usesOf
  rw [List.mem_flatMap]
  refine ⟨n, hn, ?_⟩
  rw [List.mem_filterMap]
  refine ⟨(i, v), ?_, by simp⟩
  rw [List.mk_mem_enum_iff_getElem?]
  simp [List.getElem?_eq_getElem, hlt, hi]

/-- Core behavior of the insertion rewiring pipeline
(`replaceAllUsesWith(observer_out, original_val)` followed by the redirect
loop over the snapshotted uses, with exemption predicate `P` negated — `P`
holds of the node ids that get redirected): the observer output is no longer
used anywhere, the original value is consumed only by exempt nodes, and
every node that used the observer output or the original value and is not
exempt now reads the dequantize output `dq` in all those slots. -/
theorem pipeline_spec (g0 : IRGraph) (oo ov dq : Nat) (P : Nat → Prop)
    [DecidablePred P] (hneq : oo ≠ ov) (hdq1 : dq ≠ oo) (hdq2 : dq ≠ ov) :
    ∀ R, R = (usesOf (replaceAllUsesWith g0 oo ov) ov).foldl
          (fun acc u => if P u.1 then replaceInputWithIn acc u.1 ov dq else acc)
          (replaceAllUsesWith g0 oo ov) →
      (∀ n ∈ R, oo ∉ n.inputs) ∧
      (∀ n ∈ R, ov ∈ n.inputs → ¬ P n.nid) ∧
      (∀ n ∈ g0, P n.nid → (oo ∈ n.inputs ∨ ov ∈ n.inputs) →
        ∃ n2 ∈ R, n2.nid = n.nid ∧
          n2.inputs = n.inputs.map (fun w => if w = oo ∨ w = ov then dq else w)) := by
  intro R hR
  rw [foldl_redirect] at hR
  refine ⟨?_, ?_, ?_⟩
  · intro n hn
    rw [hR] at hn
    obtain ⟨m, hm, rfl⟩ := List.mem_map.mp hn
    obtain ⟨m1, _, rfl⟩ := List.mem_map.mp hm
    have hoo : oo ∉ m1.inputs.map (substV oo ov) := not_mem_map_substV _ hneq
    by_cases htr : ∃ u ∈ usesOf (replaceAllUsesWith g0 oo ov) ov,
        u.1 = ({ m1 with inputs := m1.inputs.map (substV oo ov) } : GNode).nid ∧ P u.1
    · rw [if_pos htr]
      exact not_mem_map_substV_of hoo (fun h => hdq1 h.symm)
    · rw [if_neg htr]
      exact hoo
  · intro n hn hov
    rw [hR] at hn
    obtain ⟨m, hm, rfl⟩ := List.mem_map.mp hn
    by_cases htr : ∃ u ∈ usesOf (replaceAllUsesWith g0 oo ov) ov, u.1 = m.nid ∧ P u.1
    · rw [if_pos htr] at hov ⊢
      exact absurd hov (not_mem_map_substV _ (fun h => hdq2 h.symm))
    · rw [if_neg htr] at hov ⊢
      intro hPm
      obtain ⟨off, huse⟩ := usesOf_complete hm hov
      exact htr ⟨(m.nid, off), huse, rfl, hPm⟩
  · intro n hn hP hor
    have hm : ({ n with inputs := n.inputs.map (substV oo ov) } : GNode)
        ∈ replaceAllUsesWith g0 oo ov := List.mem_map_of_mem _ hn
    have hovm : ov ∈ n.inputs.map (substV oo ov) := by
      rcases hor with h | h
      · exact List.mem_map.mpr ⟨oo, h, by simp [substV]⟩
      · exact List.mem_map.mpr ⟨ov, h, by simp [substV, hneq.symm]⟩
    obtain ⟨off, huse⟩ := usesOf_complete hm hovm
    have htr : ∃ u ∈ usesOf (replaceAllUsesWith g0 oo ov) ov,
        u.1 = ({ n with inputs := n.inputs.map (substV oo ov) } : GNode).nid ∧ P u.1 :=
      ⟨(n.nid, off), huse, rfl, hP⟩
    refine ⟨{ n with inputs := (n.inputs.map (substV oo ov)).map (substV ov dq) },
      ?_, rfl, ?_⟩
    · rw [hR]
      refine List.mem_map.mpr ⟨{ n with inputs := n.inputs.map (substV oo ov) }, hm, ?_⟩
      rw [if_pos htr]
    · rw [List.map_map]
      refine List.map_congr_left ?_
      intro w _
      simp only [Function.comp, substV]
      by_cases hwo : w = oo
      · simp [hwo, hneq.symm]
      · by_cases hwv : w = ov
        · simp [hwo, hwv]
        · simp [hwo, hwv]

/-- C2 (amended): after quant/dequant insertion the observer output has no
remaining uses, every original consumer of the observer output or of the
original value — other than the observer call, the inserted quantize node
and, in the dynamic activation branch, the inserted choose_qparams node —
reads the dequantize output in all affected slots, and those exempt nodes
are the only consumers of the raw value.  (The claim as frozen says the
observer and the quantize node are the *only* consumers in both modes; in
dynamic mode the choose_qparams node also reads the raw value, see the
counterexample.) -/
theorem c2_insertQuantizationOps_consumers
    (g : IRGraph) (self : Nat) (observer : GNode) (ipc : Bool) (names : List String)
    (dyn : Bool) (freshV freshN : Nat) (attrIn ov oo : Nat)
    (hobs : observer ∈ g)
    (hin : observer.inputs = [attrIn, ov])
    (hout : observer.outputs = [oo])
    (hneq : oo ≠ ov)
    (hself1 : self ≠ oo) (hself2 : self ≠ ov)
    (hfresh : ∀ n ∈ g, n.nid < freshN ∧ (∀ w ∈ n.inputs, w < freshV) ∧
      (∀ w ∈ n.outputs, w < freshV)) :
    (∀ n ∈ (insertQuantizationOps g self observer ipc names dyn freshV freshN).graph,
      oo ∉ n.inputs) ∧
    (∀ n ∈ (insertQuantizationOps g self observer ipc names dyn freshV freshN).graph,
      ov ∈ n.inputs → n.nid = observer.nid ∨
        n.nid = (insertQuantizationOps g self observer ipc names dyn freshV freshN).quantNid ∨
        (insertQuantizationOps g self observer ipc names dyn freshV freshN).chooseNid
          = some n.nid) ∧
    (∀ n ∈ g, n.nid ≠ observer.nid → (oo ∈ n.inputs ∨ ov ∈ n.inputs) →
      ∃ n2 ∈ (insertQuantizationOps g self observer ipc names dyn freshV freshN).graph,
        n2.nid = n.nid ∧
        n2.inputs = n.inputs.map (fun w =>
          if w = oo ∨ w = ov then
            (insertQuantizationOps g self observer ipc names dyn freshV freshN).dequantOut
          else w)) := by
  have hov : ov < freshV := (hfresh observer hobs).2.1 ov (by rw [hin]; simp)
  have hoo2 : oo < freshV := (hfresh observer hobs).2.2 oo (by rw [hout]; simp)
  cases dyn
  case false =>
    simp only [insertQuantizationOps, hin, hout, List.getD_cons_zero, List.getD_cons_succ,
      Bool.false_eq_true, if_false]
    obtain ⟨P1, P2, P3⟩ := pipeline_spec
      (g ++ names.enum.map (fun p =>
        ({ nid := freshN + p.1, kind := .getAttr, attrName := p.2,
           inputs := [self], outputs := [freshV + p.1] } : GNode)) ++
        [{ nid := freshN + names.length,
           kind := .aten (if ipc = true then "quantize_per_channel" else "quantize_per_tensor"),
           attrName := "",
           inputs := oo :: (names.enum.map (fun p =>
             ({ nid := freshN + p.1, kind := .getAttr, attrName := p.2,
                inputs := [self], outputs := [freshV + p.1] } : GNode))).map
             (fun n => n.outputs.getD 0 0),
           outputs := [freshV + names.length] },
         { nid := freshN + names.length + 1, kind := .aten "dequantize", attrName := "",
           inputs := [freshV + names.length], outputs := [freshV + names.length + 1] }])
      oo ov (freshV + names.length + 1)
      (fun nid => nid ≠ freshN + names.length ∧ nid ≠ observer.nid)
      hneq (by omega) (by omega) _ rfl
    refine ⟨P1, ?_, ?_⟩
    · intro n hn hovn
      have hnotP := P2 n hn hovn
      by_cases h1 : n.nid = freshN + names.length
      · exact Or.inr (Or.inl h1)
      · by_cases h2 : n.nid = observer.nid
        · exact Or.inl h2
        · exact absurd ⟨h1, h2⟩ hnotP
    · intro n hn hne hor
      have hP : n.nid ≠ freshN + names.length ∧ n.nid ≠ observer.nid := by
        have := (hfresh n hn).1
        exact ⟨by omega, hne⟩
      exact P3 n (List.mem_append_left _ (List.mem_append_left _ hn)) hP hor
  case true =>
    simp only [insertQuantizationOps, hin, hout, List.getD_cons_zero, List.getD_cons_succ,
      if_true]
    obtain ⟨P1, P2, P3⟩ := pipeline_spec
      (g ++ [{ nid := freshN, kind := .getAttr, attrName := names.getLastD "",
               inputs := [self], outputs := [freshV] },
             { nid := freshN + 1, kind := .prim "Constant", attrName := "",
               inputs := [], outputs := [freshV + 1] },
             { nid := freshN + 2, kind := .aten "_choose_qparams_per_tensor", attrName := "",
               inputs := [oo, freshV + 1], outputs := [freshV + 2, freshV + 3] },
             { nid := freshN + 3,
               kind := .aten (if ipc = true then "quantize_per_channel"
                 else "quantize_per_tensor"),
               attrName := "",
               inputs := [oo, freshV + 2, freshV + 3, freshV], outputs := [freshV + 4] },
             { nid := freshN + 4, kind := .aten "dequantize", attrName := "",
               inputs := [freshV + 4], outputs := [freshV + 5] }])
      oo ov (freshV + 5)
      (fun nid => nid ≠ freshN + 3 ∧ nid ≠ observer.nid ∧ nid ≠ freshN + 2)
      hneq (by omega) (by omega) _ rfl
    refine ⟨P1, ?_, ?_⟩
    · intro n hn hovn
      have hnotP := P2 n hn hovn
      by_cases h1 : n.nid = freshN + 3
      · exact Or.inr (Or.inl h1)
      · by_cases h2 : n.nid = observer.nid
        · exact Or.inl h2
        · by_cases h3 : n.nid = freshN + 2
          · exact Or.inr (Or.inr (by rw [h3]))
          · exact absurd ⟨h1, h2, h3⟩ hnotP
    · intro n hn hne hor
      have hP : n.nid ≠ freshN + 3 ∧ n.nid ≠ observer.nid ∧ n.nid ≠ freshN + 2 := by
        have := (hfresh n hn).1
        exact ⟨by omega, hne, by omega⟩
      exact P3 n (List.mem_append_left _ hn) hP hor

/-- C2 counterexample: in dynamic activation mode the inserted
choose_qparams node (nid 12) also consumes the raw observed value 4, so the
observer and the quantize node are not the only consumers of the raw value,
contradicting the claim as stated. -/
theorem c2_counterexample_choose_consumes_raw :
    ∃ n ∈ c2dyn.graph, 4 ∈ n.inputs ∧ n.nid ≠ c2obs.nid ∧ n.nid ≠ c2dyn.quantNid := by
  decide

/-- Witness for C2 at the concrete static insertion on `c2g`: the observer
output 6 has no remaining uses. -/
theorem c2_witness :
    ((insertQuantizationOps c2g 0 c2obs false
      ["x_scale_0", "x_zero_point_0", "x_scalar_type_0"] false 10 10).graph.all
      (fun n => !(n.inputs.contains 6))) = true := by
  have h := (c2_insertQuantizationOps_consumers c2g 0 c2obs false
    ["x_scale_0", "x_zero_point_0", "x_scalar_type_0"] false 10 10 5 4 6
    (by decide) rfl rfl (by decide) (by decide) (by decide) (by decide)).1
  rw [List.all_eq_true]
  intro n hn
  simpa using h n hn

/-- `insertDeQuantForAllUse` is `idqFold` over the enumerated use snapshot. -/
theorem insertDeQuantForAllUse_eq (g : IRGraph) (q ov fv fn : Nat) :
    insertDeQuantForAllUse g q ov fv fn = idqFold q fv fn (usesOf g ov).enum g := by
  unfold insertDeQuantForAllUse
  generalize (usesOf g ov).enum = ps
  induction ps generalizing g with
  | nil => rfl
  | cons p rest ih => exact ih _

/-- Membership characterization of the use list. -/
theorem mem_usesOf {g : IRGraph} {v uid off : Nat} :
    (uid, off) ∈ usesOf g v ↔ ∃ n ∈ g, n.nid = uid ∧ n.inputs[off]? = some v := by
  unfold usesOf
  rw [List.mem_flatMap]
  constructor
  · rintro ⟨n, hn, hmem⟩
    obtain ⟨p, hp, heq⟩ := List.mem_filterMap.mp hmem
    by_cases hv : p.2 = v
    · rw [if_pos hv] at heq
      obtain ⟨h1, h2⟩ := Prod.mk.inj (Option.some.inj heq)
      refine ⟨n, hn, h1, ?_⟩
      have h3 := List.mem_enum_iff_getElem?.mp hp
      rw [← h2, h3, hv]
    · rw [if_neg hv] at heq
      exact absurd heq (by simp)
  · rintro ⟨n, hn, h1, h2⟩
    refine ⟨n, hn, List.mem_filterMap.mpr ⟨(off, v), ?_, by simp [h1]⟩⟩
    rw [List.mk_mem_enum_iff_getElem?]
    exact h2

/-- With unique node ids, `nodeById` finds exactly the member node. -/
theorem nodeById_eq_of_mem {g : IRGraph} {n : GNode}
    (hU : NodeIdsUnique g) (hn : n ∈ g) : nodeById g n.nid = some n := by
  unfold nodeById
  cases hfind : g.find? (fun m => m.nid = n.nid) with
  | none =>
      have h2 := List.find?_eq_none.mp hfind n hn
      simp at h2
  | some m =>
      have hmem := List.mem_of_find?_eq_some hfind
      have hpred : m.nid = n.nid := by simpa using List.find?_some hfind
      have hforall : ∀ a ∈ g, ∀ b ∈ g, a ≠ b → a.nid ≠ b.nid := by
        intro a ha b hb hab
        unfold NodeIdsUnique at hU
        have hsymm : Symmetric (fun a b : GNode => a.nid ≠ b.nid) := by
          intro x y h heq
          exact h heq.symm
        exact List.Pairwise.forall hsymm hU ha hb hab
      by_cases hmn : m = n
      · rw [hmn]
      · exact absurd hpred (hforall m hmem n hn hmn)

/-- A node whose id differs survives `replaceInputAt` unchanged. -/
theorem mem_replaceInputAt_of_ne {G : IRGraph} {n : GNode} {nid slot v : Nat}
    (hn : n ∈ G) (hne : n.nid ≠ nid) : n ∈ replaceInputAt G nid slot v := by
  unfold replaceInputAt
  refine List.mem_map.mpr ⟨n, hn, ?_⟩
  simp [hne]

/-- Per-node image of `replaceInputAt`: identity, kind and outputs are
preserved, and only the targeted slot may change, to the written value. -/
theorem replaceInputAt_image {G : IRGraph} {n : GNode} (hn : n ∈ G) (nid slot v : Nat) :
    ∃ n1 ∈ replaceInputAt G nid slot v, n1.nid = n.nid ∧ n1.kind = n.kind ∧
      n1.attrName = n.attrName ∧ n1.outputs = n.outputs ∧
      n1.inputs.length = n.inputs.length ∧
      (∀ j : Nat, n1.inputs[j]? = n.inputs[j]? ∨
        (n.nid = nid ∧ slot = j ∧ n1.inputs[j]? = some v)) ∧
      (n.nid = nid → slot < n.inputs.length → n1.inputs[slot]? = some v) := by
  by_cases hid : n.nid = nid
  · refine ⟨{ n with inputs := n.inputs.set slot v }, ?_, rfl, rfl, rfl, rfl, by simp, ?_, ?_⟩
    · unfold replaceInputAt
      refine List.mem_map.mpr ⟨n, hn, ?_⟩
      simp [hid]
    · intro j
      by_cases hj : slot = j
      · subst hj
        by_cases hlen : slot < n.inputs.length
        · exact Or.inr ⟨hid, rfl, by simp [List.getElem?_set_eq hlen]⟩
        · left
          simp [List.set_eq_of_length_le (Nat.le_of_not_lt hlen)]
      · left
        simp [List.getElem?_set_ne hj]
    · intro _ hlen
      simp [List.getElem?_set_eq hlen]
  · exact ⟨n, mem_replaceInputAt_of_ne hn hid, rfl, rfl, rfl, rfl, rfl,
      fun j => Or.inl rfl, fun h => absurd h hid⟩

/-- Nodes never named by a snapshot use survive `idqFold` untouched. -/
theorem idq_mem_preserve (q fv fn : Nat) :
    ∀ (ps : List (Nat × Nat × Nat)) (G : IRGraph) (n : GNode),
      n ∈ G → (∀ p ∈ ps, p.2.1 ≠ n.nid) → n ∈ idqFold q fv fn ps G := by
  intro ps
  induction ps with
  | nil =>
      intro G n hn _
      exact hn
  | cons p rest ih =>
      intro G n hn hne
      exact ih _ n
        (mem_replaceInputAt_of_ne (List.mem_append_left _ hn)
          (hne p (List.mem_cons_self p rest)).symm)
        (fun a ha => hne a (List.mem_cons_of_mem _ ha))

/-- Per-node image of `idqFold`: identity, kind and outputs are preserved;
a slot is either untouched or holds the fresh dequant output assigned to
the use naming that (node, slot). -/
theorem idq_image (q fv fn : Nat) :
    ∀ (ps : List (Nat × Nat × Nat)) (G : IRGraph) (n : GNode), n ∈ G →
      ∃ n2 ∈ idqFold q fv fn ps G, n2.nid = n.nid ∧ n2.kind = n.kind ∧
        n2.attrName = n.attrName ∧ n2.outputs = n.outputs ∧
        n2.inputs.length = n.inputs.length ∧
        ∀ j : Nat, n2.inputs[j]? = n.inputs[j]? ∨
          ∃ p ∈ ps, p.2.1 = n.nid ∧ p.2.2 = j ∧ n2.inputs[j]? = some (fv + p.1) := by
  intro ps
  induction ps with
  | nil =>
      intro G n hn
      exact ⟨n, hn, rfl, rfl, rfl, rfl, rfl, fun j => Or.inl rfl⟩
  | cons p rest ih =>
      intro G n hn
      obtain ⟨n1, hn1, f1, f2, f3, f4, f5, f6, _⟩ :=
        replaceInputAt_image (List.mem_append_left
          ([{ nid := fn + p.1, kind := .aten "dequantize", attrName := "",
              inputs := [q], outputs := [fv + p.1] }]) hn) p.2.1 p.2.2 (fv + p.1)
      obtain ⟨n2, hn2, e1, e2, e3, e4, e5, e6⟩ := ih _ n1 hn1
      refine ⟨n2, hn2, e1.trans f1, e2.trans f2, e3.trans f3, e4.trans f4,
        e5.trans f5, ?_⟩
      intro j
      rcases e6 j with h | ⟨pr, hpr, g1, g2, g3⟩
      · rcases f6 j with h2 | ⟨hid, hsl, h2⟩
        · exact Or.inl (h.trans h2)
        · exact Or.inr ⟨p, List.mem_cons_self _ _, hid.symm, hsl, h.trans h2⟩
      · exact Or.inr ⟨pr, List.mem_cons_of_mem _ hpr, g1.trans f1, g2, g3⟩

/-- The use at `p` really gets its slot rewired to its own fresh dequant
output, provided the snapshot's (node, slot) pairs are distinct. -/
theorem idq_slot_set (q fv fn : Nat) :
    ∀ (ps : List (Nat × Nat × Nat)) (G : IRGraph) (p : Nat × Nat × Nat),
      p ∈ ps → ps.Pairwise (fun a b => a.2 ≠ b.2) →
      (∃ n ∈ G, n.nid = p.2.1 ∧ p.2.2 < n.inputs.length) →
      ∃ n2 ∈ idqFold q fv fn ps G, n2.nid = p.2.1 ∧
        n2.inputs[p.2.2]? = some (fv + p.1) := by
  intro ps
  induction ps with
  | nil =>
      intro G p hp
      exact absurd hp (List.not_mem_nil p)
  | cons p0 rest ih =>
      rintro G p hp hpw ⟨n, hn, hnid, hlen⟩
      rcases List.mem_cons.mp hp with rfl | hpr
      · obtain ⟨n1, hn1, f1, _, _, _, f5, _, f7⟩ :=
          replaceInputAt_image (List.mem_append_left
            ([{ nid := fn + p.1, kind := .aten "dequantize", attrName := "",
                inputs := [q], outputs := [fv + p.1] }]) hn) p.2.1 p.2.2 (fv + p.1)
        have hslot : n1.inputs[p.2.2]? = some (fv + p.1) := f7 hnid hlen
        obtain ⟨n2, hn2, e1, _, _, _, _, e6⟩ := idq_image q fv fn rest _ n1 hn1
        refine ⟨n2, hn2, e1.trans (f1.trans hnid), ?_⟩
        rcases e6 p.2.2 with h | ⟨pr, hpr2, g1, g2, _⟩
        · exact h.trans hslot
        · exfalso
          have hne := (List.pairwise_cons.mp hpw).1 pr hpr2
          apply hne
          have : pr.2.1 = p.2.1 := by rw [g1, f1, hnid]
          exact Prod.ext this.symm g2.symm
      · obtain ⟨n1, hn1, f1, _, _, _, f5, _, _⟩ :=
          replaceInputAt_image (List.mem_append_left
            ([{ nid := fn + p0.1, kind := .aten "dequantize", attrName := "",
                inputs := [q], outputs := [fv + p0.1] }]) hn) p0.2.1 p0.2.2 (fv + p0.1)
        exact ih _ p hpr (List.Pairwise.of_cons hpw)
          ⟨n1, hn1, f1.trans hnid, by rw [f5]; exact hlen⟩

/-- The fresh dequant node for the use `p` is present in the result. -/
theorem idq_new_mem (q fv fn : Nat) :
    ∀ (ps : List (Nat × Nat × Nat)) (G : IRGraph) (p : Nat × Nat × Nat),
      p ∈ ps → (∀ a ∈ ps, a.2.1 ≠ fn + p.1) →
      ({ nid := fn + p.1, kind := .aten "dequantize", attrName := "",
         inputs := [q], outputs := [fv + p.1] } : GNode) ∈ idqFold q fv fn ps G := by
  intro ps
  induction ps with
  | nil =>
      intro G p hp
      exact absurd hp (List.not_mem_nil p)
  | cons p0 rest ih =>
      intro G p hp hne
      rcases List.mem_cons.mp hp with rfl | hpr
      · refine idq_mem_preserve q fv fn rest _ _ ?_ ?_
        · apply mem_replaceInputAt_of_ne
          · exact List.mem_append_right _ (List.mem_singleton.mpr rfl)
          · exact (hne p (List.mem_cons_self p rest)).symm
        · intro a ha
          exact hne a (List.mem_cons_of_mem _ ha)
      · exact ih _ p hpr (fun a ha => hne a (List.mem_cons_of_mem _ ha))

/-- Shape of the `idqFold` result: every node is either the image of an
initial node (same identity, kind, outputs; slots untouched or rewired to a
fresh output by a use naming that node) or one of the fresh dequants. -/
theorem idq_shape (q fv fn : Nat) :
    ∀ (ps : List (Nat × Nat × Nat)) (G : IRGraph),
      (∀ a ∈ ps, ∀ b ∈ ps, a.2.1 ≠ fn + b.1) →
      ∀ n2 ∈ idqFold q fv fn ps G,
        (∃ n ∈ G, n2.nid = n.nid ∧ n2.kind = n.kind ∧ n2.attrName = n.attrName ∧
          n2.outputs = n.outputs ∧ n2.inputs.length = n.inputs.length ∧
          ∀ j : Nat, n2.inputs[j]? = n.inputs[j]? ∨
            ∃ p ∈ ps, p.2.1 = n.nid ∧ n2.inputs[j]? = some (fv + p.1)) ∨
        (∃ p ∈ ps, n2.nid = fn + p.1 ∧ n2.kind = NKind.aten "dequantize" ∧
          n2.attrName = "" ∧ n2.inputs = [q] ∧ n2.outputs = [fv + p.1]) := by
  intro ps
  induction ps with
  | nil =>
      intro G _ n2 hn2
      exact Or.inl ⟨n2, hn2, rfl, rfl, rfl, rfl, rfl, fun j => Or.inl rfl⟩
  | cons p0 rest ih =>
      intro G hnd n2 hn2
      have hrec := ih _ (fun a ha b hb =>
        hnd a (List.mem_cons_of_mem _ ha) b (List.mem_cons_of_mem _ hb)) n2 hn2
      rcases hrec with ⟨n1, hn1, e1, e2, e3, e4, e5, e6⟩ | ⟨pr, hpr, g1, g2, g3, g4, g5⟩
      · unfold replaceInputAt at hn1
        obtain ⟨m, hm, hfm⟩ := List.mem_map.mp hn1
        rcases List.mem_append.mp hm with hmG | hmD
        · left
          by_cases hid : m.nid = p0.2.1
          · rw [if_pos hid] at hfm
            refine ⟨m, hmG, by rw [e1, ← hfm], by rw [e2, ← hfm], by rw [e3, ← hfm],
              by rw [e4, ← hfm], by rw [e5, ← hfm]; simp, ?_⟩
            intro j
            rcases e6 j with h | ⟨pr, hpr2, g1, g3⟩
            · rw [← hfm] at h
              simp only at h
              by_cases hj : p0.2.2 = j
              · subst hj
                by_cases hlen : p0.2.2 < m.inputs.length
                · rw [List.getElem?_set_eq hlen] at h
                  exact Or.inr ⟨p0, List.mem_cons_self _ _, hid.symm, h⟩
                · rw [List.set_eq_of_length_le (Nat.le_of_not_lt hlen)] at h
                  exact Or.inl h
              · rw [List.getElem?_set_ne hj] at h
                exact Or.inl h
            · refine Or.inr ⟨pr, List.mem_cons_of_mem _ hpr2, ?_, g3⟩
              rw [g1, ← hfm]
          · rw [if_neg hid] at hfm
            subst hfm
            refine ⟨m, hmG, e1, e2, e3, e4, e5, ?_⟩
            intro j
            rcases e6 j with h | ⟨pr, hpr2, g1, g3⟩
            · exact Or.inl h
            · exact Or.inr ⟨pr, List.mem_cons_of_mem _ hpr2, g1, g3⟩
        · have hmd := List.mem_singleton.mp hmD
          have hne : ¬ (m.nid = p0.2.1) := by
            rw [hmd]
            intro h
            exact hnd p0 (List.mem_cons_self p0 rest) p0 (List.mem_cons_self p0 rest) h.symm
          rw [if_neg hne] at hfm
          rw [hmd] at hfm
          right
          refine ⟨p0, List.mem_cons_self _ _, by rw [e1, ← hfm], by rw [e2, ← hfm],
            by rw [e3, ← hfm], ?_, by rw [e4, ← hfm]⟩
          have hq0 : n2.inputs[0]? = some q := by
            rcases e6 0 with h | ⟨pr, hpr2, g1, _⟩
            · rw [h, ← hfm]
              rfl
            · exfalso
              rw [← hfm] at g1
              exact hnd pr (List.mem_cons_of_mem _ hpr2) p0 (List.mem_cons_self p0 rest) g1
          have hlen1 : n2.inputs.length = 1 := by
            rw [e5, ← hfm]
            rfl
          apply List.ext_getElem?
          intro i
          match i with
          | 0 => exact hq0
          | i + 1 =>
              rw [List.getElem?_eq_none (by omega), List.getElem?_eq_none (by simp)]
      · exact Or.inr ⟨pr, List.mem_cons_of_mem _ hpr, g1, g2, g3, g4, g5⟩

/-- Mapping a nid-preserving function preserves id uniqueness. -/
theorem nodeIdsUnique_map {G : IRGraph} {f : GNode → GNode}
    (hf : ∀ n, (f n).nid = n.nid) (h : NodeIdsUnique G) : NodeIdsUnique (G.map f) := by
  unfold NodeIdsUnique at *
  rw [List.pairwise_map]
  refine h.imp ?_
  intro a b hab
  rw [hf a, hf b]
  exact hab

/-- Uses contributed by a node carry that node's id. -/
theorem usesOf_contrib_fst {n : GNode} {v : Nat} {x : Nat × Nat}
    (hx : x ∈ n.inputs.enum.filterMap
      (fun p => if p.2 = v then some (n.nid, p.1) else none)) : x.1 = n.nid := by
  obtain ⟨p, _, heq⟩ := List.mem_filterMap.mp hx
  by_cases hv : p.2 = v
  · rw [if_pos hv] at heq
    rw [← Option.some.inj heq]
  · rw [if_neg hv] at heq
    exact absurd heq (by simp)

/-- Enumeration has pairwise-distinct indices. -/
theorem enum_pairwise_fst_ne {α : Type} (l : List α) :
    l.enum.Pairwise (fun a b => a.1 ≠ b.1) := by
  have h : (l.enum.map Prod.fst).Nodup := by
    rw [List.enum_map_fst]
    exact List.nodup_range _
  unfold List.Nodup at h
  rw [List.pairwise_map] at h
  exact h

/-- Enumerating a duplicate-free list gives pairwise-distinct payloads. -/
theorem enum_pairwise_snd_ne {α : Type} {l : List α} (h : l.Nodup) :
    l.enum.Pairwise (fun a b => a.2 ≠ b.2) := by
  have h2 : (l.enum.map Prod.snd).Nodup := by
    rw [List.enum_map_snd]
    exact h
  unfold List.Nodup at h2
  rw [List.pairwise_map] at h2
  exact h2

/-- The payload of an enumeration entry belongs to the list. -/
theorem snd_mem_of_mem_enum {α : Type} {l : List α} {p : Nat × α} (h : p ∈ l.enum) :
    p.2 ∈ l :=
  List.getElem?_mem (List.mem_enum_iff_getElem?.mp h)

/-- With unique node ids the use list has no duplicate (user, slot) pairs. -/
theorem usesOf_nodup {G : IRGraph} (h : NodeIdsUnique G) (v : Nat) :
    (usesOf G v).Nodup := by
  unfold usesOf
  rw [List.nodup_flatMap]
  constructor
  · intro n _
    refine List.Nodup.filterMap ?_ ?_
    · intro a a2 b hb hb2
      by_cases h1 : a.2 = v
      · rw [if_pos h1] at hb
        by_cases h2 : a2.2 = v
        · rw [if_pos h2] at hb2
          have e1 : (n.nid, a.1) = b := by simpa using hb
          have e2 : (n.nid, a2.1) = b := by simpa using hb2
          have e3 : a.1 = a2.1 := by
            have := e1.trans e2.symm
            exact (Prod.mk.inj this).2
          exact Prod.ext e3 (h1.trans h2.symm)
        · rw [if_neg h2] at hb2
          exact absurd hb2 (by simp)
      · rw [if_neg h1] at hb
        exact absurd hb (by simp)
    · have henum : (n.inputs.enum.map Prod.fst).Nodup := by
        rw [List.enum_map_fst]
        exact List.nodup_range _
      exact henum.of_map _
  · unfold NodeIdsUnique at h
    refine h.imp ?_
    intro a b hab x hxa hxb
    exact hab ((usesOf_contrib_fst hxa).symm.trans (usesOf_contrib_fst hxb))

/-- `idqFold` preserves id uniqueness when the fresh node ids are really
fresh and pairwise distinct. -/
theorem idq_nids_unique (q fv fn : Nat) :
    ∀ (ps : List (Nat × Nat × Nat)) (G : IRGraph),
      NodeIdsUnique G → (∀ p ∈ ps, ∀ n ∈ G, n.nid ≠ fn + p.1) →
      ps.Pairwise (fun a b => a.1 ≠ b.1) →
      NodeIdsUnique (idqFold q fv fn ps G) := by
  intro ps
  induction ps with
  | nil =>
      intro G h _ _
      exact h
  | cons p0 rest ih =>
      intro G h hb hpw
      refine ih _ ?_ ?_ (List.Pairwise.of_cons hpw)
      · unfold replaceInputAt
        apply nodeIdsUnique_map
        · intro n
          by_cases hid : n.nid = p0.2.1 <;> simp [hid]
        · unfold NodeIdsUnique
          rw [List.pairwise_append]
          refine ⟨h, List.pairwise_singleton _ _, ?_⟩
          intro a ha b hb2
          rw [List.mem_singleton.mp hb2]
          exact hb p0 (List.mem_cons_self _ _) a ha
      · intro p hp n hn
        unfold replaceInputAt at hn
        obtain ⟨m, hm, hfm⟩ := List.mem_map.mp hn
        have hnid : n.nid = m.nid := by
          rw [← hfm]
          by_cases hid : m.nid = p0.2.1 <;> simp [hid]
        rw [hnid]
        rcases List.mem_append.mp hm with hmG | hmD
        · exact hb p (List.mem_cons_of_mem _ hp) m hmG
        · rw [List.mem_singleton.mp hmD]
          have hne01 := (List.pairwise_cons.mp hpw).1 p hp
          simp only []
          omega

/-- `idqFold` keeps all node ids below `C` and all values below `B` when
the initial graph does and the fresh ids stay below the bounds. -/
theorem idq_bounds (q fv fn : Nat) :
    ∀ (ps : List (Nat × Nat × Nat)) (G : IRGraph) (B C : Nat),
      (∀ n ∈ G, n.nid < C ∧ (∀ w ∈ n.inputs, w < B) ∧ (∀ w ∈ n.outputs, w < B)) →
      (∀ p ∈ ps, fn + p.1 < C ∧ fv + p.1 < B) → q < B →
      ∀ n ∈ idqFold q fv fn ps G,
        n.nid < C ∧ (∀ w ∈ n.inputs, w < B) ∧ (∀ w ∈ n.outputs, w < B) := by
  intro ps
  induction ps with
  | nil =>
      intro G B C hG _ _ n hn
      exact hG n hn
  | cons p0 rest ih =>
      intro G B C hG hp hq n hn
      refine ih _ B C ?_ (fun p hpr => hp p (List.mem_cons_of_mem _ hpr)) hq n hn
      intro m hm
      unfold replaceInputAt at hm
      obtain ⟨m0, hm0, hfm⟩ := List.mem_map.mp hm
      rcases List.mem_append.mp hm0 with hmG | hmD
      · obtain ⟨b1, b2, b3⟩ := hG m0 hmG
        by_cases hid : m0.nid = p0.2.1
        · rw [if_pos hid] at hfm
          rw [← hfm]
          refine ⟨b1, ?_, b3⟩
          intro w hw
          simp only at hw
          rcases List.mem_or_eq_of_mem_set hw with hw2 | rfl
          · exact b2 w hw2
          · exact (hp p0 (List.mem_cons_self _ _)).2
        · rw [if_neg hid] at hfm
          rw [← hfm]
          exact ⟨b1, b2, b3⟩
      · have hmd := List.mem_singleton.mp hmD
        subst hmd
        rw [← hfm]
        have h1 := (hp p0 (List.mem_cons_self p0 rest)).1
        have h2 := (hp p0 (List.mem_cons_self p0 rest)).2
        refine ⟨?_, ?_, ?_⟩
        · split <;> exact h1
        · split
          · intro w hw
            simp only at hw
            rcases List.mem_or_eq_of_mem_set hw with hw2 | rfl
            · rw [List.mem_singleton.mp hw2]
              exact hq
            · exact h2
          · intro w hw
            rw [List.mem_singleton.mp hw]
            exact hq
        · split <;> (intro w hw; rw [List.mem_singleton.mp hw]; exact h2)

/-- Witness for C5: extraction on the well-formed observer `obs0` succeeds
and produces the per-tensor qparam name list. -/
theorem c5_witness :
    CQScheme.perTensorAffine = obs0.qscheme ∧
    ([("_scale", QVal.floatV 1), ("_zero_point", QVal.intV 2),
      ("_scalar_type", QVal.scalarTypeV ScalarType.qint8)] : QParamVector).map Prod.fst =
      (if isPerChannel obs0.qscheme then ["_scale", "_zero_point", "_axis", "_scalar_type"]
       else ["_scale", "_zero_point", "_scalar_type"]) :=
  (c5_getQSchemeAndQParamVector_spec obs0).2 CQScheme.perTensorAffine _ rfl

/-- Any slot read returning a value witnesses that the index is in range. -/
theorem lt_of_getElem?_some {α : Type} {l : List α} {i : Nat} {a : α}
    (h : l[i]? = some a) : i < l.length := by
  have h2 := List.getElem?_eq_some.mp h
  exact h2.1

/-- Unique ids make node identity determined by the id. -/
theorem eq_of_mem_of_nid_eq {g : IRGraph} (hU : NodeIdsUnique g) {n m : GNode}
    (hn : n ∈ g) (hm : m ∈ g) (h : n.nid = m.nid) : n = m := by
  by_contra hne
  unfold NodeIdsUnique at hU
  have hsymm : Symmetric (fun a b : GNode => a.nid ≠ b.nid) := by
    intro x y h2 heq
    exact h2 heq.symm
  exact List.Pairwise.forall hsymm hU hn hm hne h

/-- Distinct nodes of an outputs-disjoint graph have disjoint outputs. -/
theorem outputs_disjoint_forall {g : IRGraph} (hOD : OutputsDisjoint g) {n m : GNode}
    (hn : n ∈ g) (hm : m ∈ g) (hne : n ≠ m) : ∀ v ∈ n.outputs, v ∉ m.outputs := by
  unfold OutputsDisjoint at hOD
  have hsymm : Symmetric (fun a b : GNode => ∀ v ∈ a.outputs, v ∉ b.outputs) := by
    intro x y h2 v hv hvy
    exact h2 v hvy hv
  exact List.Pairwise.forall hsymm hOD hn hm hne

/-- A length-one list is the singleton of its default head. -/
theorem eq_singleton_getD {l : List Nat} (h : l.length = 1) : l = [l.getD 0 0] := by
  cases l with
  | nil => simp at h
  | cons a t =>
      cases t with
      | nil => rfl
      | cons b t2 => simp at h

/-- The default head of a length-one list is its member. -/
theorem getD0_mem {l : List Nat} (h : l.length = 1) : l.getD 0 0 ∈ l := by
  cases l with
  | nil => simp at h
  | cons a t => exact List.mem_cons_self a t

/-- Reading any slot of a singleton list pins the index and the value. -/
theorem singleton_getElem?_eq {x v : Nat} {j : Nat}
    (h : ([x] : List Nat)[j]? = some v) : j = 0 ∧ v = x := by
  match j with
  | 0 => exact ⟨rfl, (Option.some.inj h).symm⟩
  | j + 1 => simp at h

/-- Membership characterization of the matched-node id list. -/
theorem mem_rdqMatched {g : IRGraph} {a : Nat} :
    a ∈ rdqMatched g ↔ ∃ m ∈ g, m.nid = a ∧ IsMatchedNode g m := by
  unfold rdqMatched IsMatchedNode
  constructor
  · intro h
    obtain ⟨m, hm, hma⟩ := List.mem_map.mp h
    have h2 := List.mem_filter.mp hm
    exact ⟨m, h2.1, hma, of_decide_eq_true h2.2⟩
  · rintro ⟨m, hm, hma, hmm⟩
    exact List.mem_map.mpr ⟨m, List.mem_filter.mpr ⟨hm, decide_eq_true hmm⟩, hma⟩

/-- With unique ids the matched-id list has no duplicates. -/
theorem rdqMatched_nodup {g : IRGraph} (hU : NodeIdsUnique g) :
    (rdqMatched g).Nodup := by
  unfold NodeIdsUnique at hU
  unfold rdqMatched List.Nodup
  rw [List.pairwise_map]
  exact List.Pairwise.sublist (List.filter_sublist g) hU

/-- A successful slot read names a member node holding that value. -/
theorem slotValueAt_mem {G : IRGraph} {uid off w : Nat}
    (h : slotValueAt G uid off = some w) :
    ∃ n ∈ G, n.nid = uid ∧ n.inputs[off]? = some w := by
  unfold slotValueAt at h
  cases hnb : nodeById G uid with
  | none => rw [hnb] at h; simp at h
  | some n =>
      rw [hnb] at h
      unfold nodeById at hnb
      exact ⟨n, List.mem_of_find?_eq_some hnb, by simpa using List.find?_some hnb, h⟩

/-- With unique ids a member node's slot determines the slot read. -/
theorem slotValueAt_of_mem {G : IRGraph} (hU : NodeIdsUnique G) {n : GNode}
    {uid off w : Nat} (hn : n ∈ G) (hnid : n.nid = uid)
    (hslot : n.inputs[off]? = some w) : slotValueAt G uid off = some w := by
  subst hnid
  simp only [slotValueAt, nodeById_eq_of_mem hU hn]
  exact hslot

/-- With the matched node still present verbatim and ids unique, one rewrite
step reads exactly that node and runs the per-use insertion loop on the
current graph. -/
theorem rdqStep_unfold {st : IRGraph × Nat × Nat} {e : GNode}
    (hU : NodeIdsUnique st.1) (he : e ∈ st.1) :
    rdqStep st e.nid =
      (idqFold (e.inputs.getD 0 0) st.2.1 st.2.2
         (usesOf st.1 (e.outputs.getD 0 0)).enum st.1,
       st.2.1 + (usesOf st.1 (e.outputs.getD 0 0)).length,
       st.2.2 + (usesOf st.1 (e.outputs.getD 0 0)).length) := by
  simp only [rdqStep, nodeById_eq_of_mem hU he, insertDeQuantForAllUse_eq]

/-- One rewrite step on any matched node: the loop invariant is preserved,
the counters only grow, nodes never reading the processed node's output
survive verbatim, and slots holding a different value keep it. -/
theorem rdqStep_preserve (g : IRGraph) (fv fn : Nat)
    (hshape : ∀ m ∈ g, IsMatchedNode g m → m.inputs.length = 1 ∧ m.outputs.length = 1)
    (hchain : ∀ m ∈ g, IsMatchedNode g m → ∀ e ∈ g, IsMatchedNode g e →
      m.inputs.getD 0 0 ∉ e.outputs)
    (st : IRGraph × Nat × Nat) (e : GNode)
    (he : e ∈ g) (hem : IsMatchedNode g e)
    (hinv : RdqInv g st) (hfv : fv ≤ st.2.1) (hfn : fn ≤ st.2.2) :
    RdqInv g (rdqStep st e.nid) ∧
    st.2.1 ≤ (rdqStep st e.nid).2.1 ∧ st.2.2 ≤ (rdqStep st e.nid).2.2 ∧
    (∀ nd ∈ st.1, (∀ j : Nat, nd.inputs[j]? ≠ some (e.outputs.getD 0 0)) →
      nd ∈ (rdqStep st e.nid).1) ∧
    (∀ uid off w : Nat, w ≠ e.outputs.getD 0 0 →
      (∃ n ∈ st.1, n.nid = uid ∧ n.inputs[off]? = some w) →
      ∃ n2 ∈ (rdqStep st e.nid).1, n2.nid = uid ∧ n2.inputs[off]? = some w) := by
  obtain ⟨hm1, hU, hbnd⟩ := hinv
  have heSt : e ∈ st.1 := hm1 e he hem
  have hstep := rdqStep_unfold hU heSt
  have hovout : e.outputs.getD 0 0 ∈ e.outputs := getD0_mem (hshape e he hem).2
  have hnotname : ∀ nd ∈ st.1, (∀ j : Nat, nd.inputs[j]? ≠ some (e.outputs.getD 0 0)) →
      ∀ p ∈ (usesOf st.1 (e.outputs.getD 0 0)).enum, p.2.1 ≠ nd.nid := by
    intro nd hnd hno p hp hpe
    obtain ⟨n', hn', hnid', hslot'⟩ := mem_usesOf.mp (snd_mem_of_mem_enum hp)
    have heq : n' = nd := eq_of_mem_of_nid_eq hU hn' hnd (by rw [hnid', hpe])
    subst heq
    exact hno p.2.2 hslot'
  have hmno : ∀ m ∈ g, IsMatchedNode g m →
      ∀ j : Nat, m.inputs[j]? ≠ some (e.outputs.getD 0 0) := by
    intro m hm hmm j hj
    rw [eq_singleton_getD (hshape m hm hmm).1] at hj
    obtain ⟨_, hveq⟩ := singleton_getElem?_eq hj
    exact hchain m hm hmm e he hem (hveq ▸ hovout)
  refine ⟨⟨?_, ?_, ?_⟩, ?_, ?_, ?_, ?_⟩
  · intro m hm hmm
    rw [hstep]
    exact idq_mem_preserve _ _ _ _ _ m (hm1 m hm hmm)
      (hnotname m (hm1 m hm hmm) (hmno m hm hmm))
  · rw [hstep]
    apply idq_nids_unique _ _ _ _ _ hU
    · intro p _ n hn
      have := (hbnd n hn).1
      omega
    · exact enum_pairwise_fst_ne _
  · rw [hstep]
    refine idq_bounds _ _ _ _ _
      (st.2.1 + (usesOf st.1 (e.outputs.getD 0 0)).length)
      (st.2.2 + (usesOf st.1 (e.outputs.getD 0 0)).length) ?_ ?_ ?_
    · intro n hn
      obtain ⟨b1, b2, b3⟩ := hbnd n hn
      exact ⟨by omega, fun w hw => by have := b2 w hw; omega,
        fun w hw => by have := b3 w hw; omega⟩
    · intro p hp
      have := List.fst_lt_of_mem_enum hp
      omega
    · have hqe : e.inputs.getD 0 0 ∈ e.inputs := getD0_mem (hshape e he hem).1
      have := (hbnd e heSt).2.1 _ hqe
      omega
  · rw [hstep]
    exact Nat.le_add_right _ _
  · rw [hstep]
    exact Nat.le_add_right _ _
  · intro nd hnd hno
    rw [hstep]
    exact idq_mem_preserve _ _ _ _ _ nd hnd (hnotname nd hnd hno)
  · rintro uid off w hwne ⟨n, hn, hnid, hslot⟩
    rw [hstep]
    obtain ⟨n2, hn2, e1, _, _, _, _, e6⟩ := idq_image (e.inputs.getD 0 0) st.2.1 st.2.2
      (usesOf st.1 (e.outputs.getD 0 0)).enum st.1 n hn
    refine ⟨n2, hn2, e1.trans hnid, ?_⟩
    rcases e6 off with h | ⟨p, hp, g1, g2, _⟩
    · exact h.trans hslot
    · exfalso
      obtain ⟨n', hn', hnid', hslot'⟩ := mem_usesOf.mp (snd_mem_of_mem_enum hp)
      have heq : n' = n := eq_of_mem_of_nid_eq hU hn' hn (by rw [hnid', g1])
      subst heq
      rw [g2] at hslot'
      exact hwne (Option.some.inj (hslot.symm.trans hslot'))

/-- Replicating any matched node keeps the replication record of the node
`d` intact: the per-use fresh values stay in place and the fresh dequants
survive verbatim. -/
theorem rdqStep_post_preserve (g : IRGraph) (fv fn : Nat) (d : GNode)
    (hbound : ∀ n ∈ g, n.nid < fn ∧ (∀ w ∈ n.inputs, w < fv) ∧ (∀ w ∈ n.outputs, w < fv))
    (hshape : ∀ m ∈ g, IsMatchedNode g m → m.inputs.length = 1 ∧ m.outputs.length = 1)
    (hchain : ∀ m ∈ g, IsMatchedNode g m → ∀ e ∈ g, IsMatchedNode g e →
      m.inputs.getD 0 0 ∉ e.outputs)
    (hd : d ∈ g) (hdm : IsMatchedNode g d)
    (st : IRGraph × Nat × Nat) (e : GNode)
    (he : e ∈ g) (hem : IsMatchedNode g e)
    (hinv : RdqInv g st) (hfv : fv ≤ st.2.1) (hfn : fn ≤ st.2.2)
    (hpost : RdqPost g (d.inputs.getD 0 0) (d.outputs.getD 0 0) fv fn st) :
    RdqPost g (d.inputs.getD 0 0) (d.outputs.getD 0 0) fv fn (rdqStep st e.nid) := by
  obtain ⟨hpost1, hpost2⟩ := hpost
  obtain ⟨hinv', hm1, hm2, hndp, hslotp⟩ :=
    rdqStep_preserve g fv fn hshape hchain st e he hem hinv hfv hfn
  have hovout : e.outputs.getD 0 0 ∈ e.outputs := getD0_mem (hshape e he hem).2
  have hovlt : e.outputs.getD 0 0 < fv := (hbound e he).2.2 _ hovout
  have key : ∀ p ∈ usesOf g (d.outputs.getD 0 0), ∃ w, fv ≤ w ∧
      w < (rdqStep st e.nid).2.1 ∧
      slotValueAt st.1 p.1 p.2 = some w ∧
      slotValueAt (rdqStep st e.nid).1 p.1 p.2 = some w ∧
      ∃ nd ∈ (rdqStep st e.nid).1, nd.kind = NKind.aten "dequantize" ∧
        nd.inputs = [d.inputs.getD 0 0] ∧ nd.outputs = [w] ∧ fn ≤ nd.nid := by
    intro p hp
    obtain ⟨w, hw1, hw2, hw3, nd, hnd, hk, hi, ho, hn5⟩ := hpost1 p hp
    obtain ⟨n, hnSt, hnid, hslot⟩ := slotValueAt_mem hw3
    have hwne : w ≠ e.outputs.getD 0 0 := by omega
    obtain ⟨n2, hn2, hnid2, hslot2⟩ := hslotp p.1 p.2 w hwne ⟨n, hnSt, hnid, hslot⟩
    refine ⟨w, hw1, by omega, hw3,
      slotValueAt_of_mem hinv'.2.1 hn2 hnid2 hslot2, nd, hndp nd hnd ?_, hk, hi, ho, hn5⟩
    intro j hj
    rw [hi] at hj
    obtain ⟨_, hqe⟩ := singleton_getElem?_eq hj
    exact hchain d hd hdm e he hem (hqe ▸ hovout)
  constructor
  · intro p hp
    obtain ⟨w, k1, k2, _, k4, k5⟩ := key p hp
    exact ⟨w, k1, k2, k4, k5⟩
  · intro p1 hp1 p2 hp2 hne w1 w2 hs1 hs2
    obtain ⟨v1, _, _, ho1, hq1, _⟩ := key p1 hp1
    obtain ⟨v2, _, _, ho2, hq2, _⟩ := key p2 hp2
    rw [Option.some.inj (hs1.symm.trans hq1), Option.some.inj (hs2.symm.trans hq2)]
    exact hpost2 p1 hp1 p2 hp2 hne v1 v2 ho1 ho2

/-- The rewrite loop before the node `d` is reached: the invariant holds
and every original use of `d`'s output still holds that output. -/
theorem rdq_loopA (g : IRGraph) (fv fn dout : Nat)
    (hshape : ∀ m ∈ g, IsMatchedNode g m → m.inputs.length = 1 ∧ m.outputs.length = 1)
    (hchain : ∀ m ∈ g, IsMatchedNode g m → ∀ e ∈ g, IsMatchedNode g e →
      m.inputs.getD 0 0 ∉ e.outputs) :
    ∀ (l : List Nat) (st : IRGraph × Nat × Nat),
      (∀ a ∈ l, ∃ e ∈ g, e.nid = a ∧ IsMatchedNode g e ∧ dout ∉ e.outputs) →
      RdqInv g st → fv ≤ st.2.1 → fn ≤ st.2.2 → RdqPre g dout st →
      RdqInv g (l.foldl rdqStep st) ∧ fv ≤ (l.foldl rdqStep st).2.1 ∧
        fn ≤ (l.foldl rdqStep st).2.2 ∧ RdqPre g dout (l.foldl rdqStep st) := by
  intro l
  induction l with
  | nil =>
      intro st _ h1 h2 h3 h4
      exact ⟨h1, h2, h3, h4⟩
  | cons a rest ih =>
      intro st hl hinv hfv hfn hpre
      obtain ⟨e, he, hea, hem, hdo⟩ := hl a (List.mem_cons_self a rest)
      subst hea
      obtain ⟨hinv', hm1, hm2, _, hslotp⟩ :=
        rdqStep_preserve g fv fn hshape hchain st e he hem hinv hfv hfn
      rw [List.foldl_cons]
      refine ih _ (fun b hb => hl b (List.mem_cons_of_mem _ hb)) hinv'
        (le_trans hfv hm1) (le_trans hfn hm2) ?_
      intro p hp
      obtain ⟨n, hn, hnid, hslot⟩ := hpre p hp
      have hne : dout ≠ e.outputs.getD 0 0 := by
        intro hx
        exact hdo (hx ▸ getD0_mem (hshape e he hem).2)
      exact hslotp p.1 p.2 dout hne ⟨n, hn, hnid, hslot⟩

/-- The rewrite loop after the node `d` has been processed: the invariant
and `d`'s replication record both persist. -/
theorem rdq_loopC (g : IRGraph) (fv fn : Nat) (d : GNode)
    (hbound : ∀ n ∈ g, n.nid < fn ∧ (∀ w ∈ n.inputs, w < fv) ∧ (∀ w ∈ n.outputs, w < fv))
    (hshape : ∀ m ∈ g, IsMatchedNode g m → m.inputs.length = 1 ∧ m.outputs.length = 1)
    (hchain : ∀ m ∈ g, IsMatchedNode g m → ∀ e ∈ g, IsMatchedNode g e →
      m.inputs.getD 0 0 ∉ e.outputs)
    (hd : d ∈ g) (hdm : IsMatchedNode g d) :
    ∀ (l : List Nat) (st : IRGraph × Nat × Nat),
      (∀ a ∈ l, ∃ e ∈ g, e.nid = a ∧ IsMatchedNode g e) →
      RdqInv g st → fv ≤ st.2.1 → fn ≤ st.2.2 →
      RdqPost g (d.inputs.getD 0 0) (d.outputs.getD 0 0) fv fn st →
      RdqInv g (l.foldl rdqStep st) ∧
        RdqPost g (d.inputs.getD 0 0) (d.outputs.getD 0 0) fv fn (l.foldl rdqStep st) := by
  intro l
  induction l with
  | nil =>
      intro st _ h1 _ _ h2
      exact ⟨h1, h2⟩
  | cons a rest ih =>
      intro st hl hinv hfv hfn hpost
      obtain ⟨e, he, hea, hem⟩ := hl a (List.mem_cons_self a rest)
      subst hea
      obtain ⟨hinv', hm1, hm2, _, _⟩ :=
        rdqStep_preserve g fv fn hshape hchain st e he hem hinv hfv hfn
      rw [List.foldl_cons]
      exact ih _ (fun b hb => hl b (List.mem_cons_of_mem _ hb)) hinv'
        (le_trans hfv hm1) (le_trans hfn hm2)
        (rdqStep_post_preserve g fv fn d hbound hshape hchain hd hdm st e he hem
          hinv hfv hfn hpost)

/-- Processing the matched node `d` itself: every original use of its output
is rewired to the output of its own fresh dequantize node reading `d`'s
quantized input, and distinct uses receive distinct values. -/
theorem rdqStep_establish (g : IRGraph) (fv fn : Nat) (d : GNode)
    (hshape : ∀ m ∈ g, IsMatchedNode g m → m.inputs.length = 1 ∧ m.outputs.length = 1)
    (hchain : ∀ m ∈ g, IsMatchedNode g m → ∀ e ∈ g, IsMatchedNode g e →
      m.inputs.getD 0 0 ∉ e.outputs)
    (hd : d ∈ g) (hdm : IsMatchedNode g d)
    (st : IRGraph × Nat × Nat)
    (hinv : RdqInv g st) (hfv : fv ≤ st.2.1) (hfn : fn ≤ st.2.2)
    (hpre : RdqPre g (d.outputs.getD 0 0) st) :
    RdqInv g (rdqStep st d.nid) ∧ st.2.1 ≤ (rdqStep st d.nid).2.1 ∧
      st.2.2 ≤ (rdqStep st d.nid).2.2 ∧
      RdqPost g (d.inputs.getD 0 0) (d.outputs.getD 0 0) fv fn (rdqStep st d.nid) := by
  obtain ⟨hinv', hm1, hm2, _, _⟩ :=
    rdqStep_preserve g fv fn hshape hchain st d hd hdm hinv hfv hfn
  refine ⟨hinv', hm1, hm2, ?_⟩
  have hU := hinv.2.1
  have hdSt : d ∈ st.1 := hinv.1 d hd hdm
  have hstep := rdqStep_unfold hU hdSt
  have hU2 : NodeIdsUnique (idqFold (d.inputs.getD 0 0) st.2.1 st.2.2
      (usesOf st.1 (d.outputs.getD 0 0)).enum st.1) := by
    have h2 := hinv'.2.1
    rw [hstep] at h2
    exact h2
  have key : ∀ p ∈ usesOf g (d.outputs.getD 0 0), ∃ i,
      i < (usesOf st.1 (d.outputs.getD 0 0)).length ∧
      (usesOf st.1 (d.outputs.getD 0 0))[i]? = some p ∧
      slotValueAt (rdqStep st d.nid).1 p.1 p.2 = some (st.2.1 + i) ∧
      ({ nid := st.2.2 + i, kind := .aten "dequantize", attrName := "",
         inputs := [d.inputs.getD 0 0], outputs := [st.2.1 + i] } : GNode)
        ∈ (rdqStep st d.nid).1 := by
    intro p hp
    obtain ⟨n, hnSt, hnid, hslot⟩ := hpre p hp
    have hpmem : p ∈ usesOf st.1 (d.outputs.getD 0 0) :=
      mem_usesOf.mpr ⟨n, hnSt, hnid, hslot⟩
    obtain ⟨i, hi, hgi⟩ := List.mem_iff_getElem.mp hpmem
    have hgi2 : (usesOf st.1 (d.outputs.getD 0 0))[i]? = some p := by
      rw [List.getElem?_eq_getElem hi, hgi]
    have henum : (i, p) ∈ (usesOf st.1 (d.outputs.getD 0 0)).enum :=
      List.mk_mem_enum_iff_getElem?.mpr hgi2
    obtain ⟨n2, hn2, hnid2, hslot2⟩ :=
      idq_slot_set (d.inputs.getD 0 0) st.2.1 st.2.2 _ st.1 (i, p) henum
        (enum_pairwise_snd_ne (usesOf_nodup hU _))
        ⟨n, hnSt, hnid, lt_of_getElem?_some hslot⟩
    have hnew := idq_new_mem (d.inputs.getD 0 0) st.2.1 st.2.2 _ st.1 (i, p) henum ?_
    · refine ⟨i, hi, hgi2, ?_, ?_⟩
      · rw [hstep]
        exact slotValueAt_of_mem hU2 hn2 hnid2 hslot2
      · rw [hstep]
        exact hnew
    · intro a ha
      obtain ⟨n', hn', hnid', _⟩ := mem_usesOf.mp (snd_mem_of_mem_enum ha)
      have h3 := (hinv.2.2 n' hn').1
      rw [← hnid']
      show n'.nid ≠ st.2.2 + i
      omega
  constructor
  · intro p hp
    obtain ⟨i, hik, _, hslot, hnew⟩ := key p hp
    refine ⟨st.2.1 + i, by omega, ?_, hslot, _, hnew, rfl, rfl, rfl, ?_⟩
    · rw [hstep]
      show st.2.1 + i < st.2.1 + (usesOf st.1 (d.outputs.getD 0 0)).length
      omega
    · show fn ≤ st.2.2 + i
      omega
  · intro p1 hp1 p2 hp2 hne w1 w2 hs1 hs2
    obtain ⟨i1, _, hg1, hA1, _⟩ := key p1 hp1
    obtain ⟨i2, _, hg2, hA2, _⟩ := key p2 hp2
    have hi12 : i1 ≠ i2 := by
      intro hx
      rw [hx] at hg1
      exact hne (Option.some.inj (hg1.symm.trans hg2))
    rw [Option.some.inj (hs1.symm.trans hA1), Option.some.inj (hs2.symm.trans hA2)]
    omega

/-- After the whole rewrite loop of `ReplicateDeQuant`, the invariant holds
and the matched node `d`'s replication record is in force. -/
theorem rdq_rewritten_spec (g : IRGraph) (fv fn : Nat) (d : GNode)
    (hU : NodeIdsUnique g) (hOD : OutputsDisjoint g)
    (hbound : ∀ n ∈ g, n.nid < fn ∧ (∀ w ∈ n.inputs, w < fv) ∧ (∀ w ∈ n.outputs, w < fv))
    (hshape : ∀ m ∈ g, IsMatchedNode g m → m.inputs.length = 1 ∧ m.outputs.length = 1)
    (hchain : ∀ m ∈ g, IsMatchedNode g m → ∀ e ∈ g, IsMatchedNode g e →
      m.inputs.getD 0 0 ∉ e.outputs)
    (hd : d ∈ g) (hdm : IsMatchedNode g d) :
    RdqInv g (rdqRewritten g fv fn) ∧
    RdqPost g (d.inputs.getD 0 0) (d.outputs.getD 0 0) fv fn (rdqRewritten g fv fn) := by
  have hdIn : d.nid ∈ rdqMatched g := mem_rdqMatched.mpr ⟨d, hd, rfl, hdm⟩
  obtain ⟨L1, L2, hsplit⟩ := List.append_of_mem hdIn
  have hnd : (rdqMatched g).Nodup := rdqMatched_nodup hU
  rw [hsplit] at hnd
  have hdis := (List.nodup_append.mp hnd).2.2
  have hdL1 : d.nid ∉ L1 := fun h => hdis h (List.mem_cons_self _ _)
  unfold rdqRewritten
  rw [hsplit, List.foldl_append, List.foldl_cons]
  have hA := rdq_loopA g fv fn (d.outputs.getD 0 0) hshape hchain L1 (g, fv, fn)
    ?_ ⟨fun m hm _ => hm, hU, hbound⟩ (Nat.le_refl fv) (Nat.le_refl fn) ?_
  · obtain ⟨hinvA, hfvA, hfnA, hpreA⟩ := hA
    obtain ⟨hinvD, hfvD, hfnD, hpostD⟩ :=
      rdqStep_establish g fv fn d hshape hchain hd hdm _ hinvA hfvA hfnA hpreA
    refine rdq_loopC g fv fn d hbound hshape hchain hd hdm L2 _
      ?_ hinvD (le_trans hfvA hfvD) (le_trans hfnA hfnD) hpostD
    intro a ha
    have haM : a ∈ rdqMatched g := by
      rw [hsplit]
      exact List.mem_append_right _ (List.mem_cons_of_mem _ ha)
    obtain ⟨e, he, hea, hem⟩ := mem_rdqMatched.mp haM
    exact ⟨e, he, hea, hem⟩
  · intro a ha
    have haM : a ∈ rdqMatched g := by
      rw [hsplit]
      exact List.mem_append_left _ ha
    obtain ⟨e, he, hea, hem⟩ := mem_rdqMatched.mp haM
    refine ⟨e, he, hea, hem, ?_⟩
    have hne : d ≠ e := by
      intro hx
      apply hdL1
      rw [hx, hea]
      exact ha
    exact outputs_disjoint_forall hOD hd he hne _ (getD0_mem (hshape d hd hdm).2)
  · intro p hp
    exact mem_usesOf.mp hp

/-- Clearing a different node's inputs keeps a node verbatim. -/
theorem removeAll_mem_of_ne {G : IRGraph} {n : GNode} {nid : Nat}
    (hn : n ∈ G) (hne : n.nid ≠ nid) : n ∈ removeAllInputsIn G nid := by
  unfold removeAllInputsIn
  refine List.mem_map.mpr ⟨n, hn, ?_⟩
  simp [hne]

/-- Clearing a node's inputs puts its emptied record into the graph. -/
theorem removeAll_cleared {G : IRGraph} {n : GNode} {nid : Nat}
    (hn : n ∈ G) (h : n.nid = nid) :
    ({ n with inputs := [] } : GNode) ∈ removeAllInputsIn G nid := by
  unfold removeAllInputsIn
  refine List.mem_map.mpr ⟨n, hn, ?_⟩
  simp [h]

/-- Clearing inputs preserves id uniqueness. -/
theorem removeAll_unique {G : IRGraph} {nid : Nat} (hU : NodeIdsUnique G) :
    NodeIdsUnique (removeAllInputsIn G nid) := by
  unfold removeAllInputsIn
  refine nodeIdsUnique_map ?_ hU
  intro n
  by_cases h : n.nid = nid <;> simp [h]

/-- A node whose id is never cleared survives the clearing loop verbatim. -/
theorem clearFold_preserve : ∀ (l : List Nat) (G : IRGraph) (n : GNode),
    n ∈ G → n.nid ∉ l →
    n ∈ l.foldl (fun acc nid => removeAllInputsIn acc nid) G := by
  intro l
  induction l with
  | nil =>
      intro G n hn _
      exact hn
  | cons a rest ih =>
      intro G n hn hnl
      obtain ⟨hne, hnr⟩ := List.ne_and_not_mem_of_not_mem_cons hnl
      rw [List.foldl_cons]
      exact ih _ n (removeAll_mem_of_ne hn hne) hnr

/-- The clearing loop preserves id uniqueness. -/
theorem clearFold_unique : ∀ (l : List Nat) (G : IRGraph), NodeIdsUnique G →
    NodeIdsUnique (l.foldl (fun acc nid => removeAllInputsIn acc nid) G) := by
  intro l
  induction l with
  | nil =>
      intro G h
      exact h
  | cons a rest ih =>
      intro G h
      rw [List.foldl_cons]
      exact ih _ (removeAll_unique h)

/-- A node whose id is cleared ends the clearing loop with empty inputs. -/
theorem clearFold_cleared : ∀ (l : List Nat) (G : IRGraph) (n : GNode),
    n ∈ G → n.nid ∈ l →
    ∃ n2 ∈ l.foldl (fun acc nid => removeAllInputsIn acc nid) G,
      n2.nid = n.nid ∧ n2.inputs = [] := by
  intro l
  induction l with
  | nil =>
      intro G n _ h
      exact absurd h (List.not_mem_nil _)
  | cons a rest ih =>
      intro G n hn hl
      rw [List.foldl_cons]
      by_cases ha : n.nid = a
      · have h1 : ({ n with inputs := [] } : GNode) ∈ removeAllInputsIn G a :=
          removeAll_cleared hn ha
        by_cases hr : n.nid ∈ rest
        · obtain ⟨n2, hn2, e1, e2⟩ := ih _ _ h1 hr
          exact ⟨n2, hn2, e1, e2⟩
        · exact ⟨{ n with inputs := [] }, clearFold_preserve rest _ _ h1 hr, rfl, rfl⟩
      · rcases List.mem_cons.mp hl with h | h
        · exact absurd h ha
        · exact ih _ n (removeAll_mem_of_ne hn ha) h

/-- Everything left by the destruction loop was already present and has an
id different from every destroyed id. -/
theorem destroyFold_mem : ∀ (l : List Nat) (G : IRGraph) (n : GNode),
    n ∈ l.foldl (fun acc nid => destroyNode acc nid) G →
    n ∈ G ∧ ∀ a ∈ l, n.nid ≠ a := by
  intro l
  induction l with
  | nil =>
      intro G n h
      exact ⟨h, fun a ha => absurd ha (List.not_mem_nil a)⟩
  | cons a rest ih =>
      intro G n h
      rw [List.foldl_cons] at h
      obtain ⟨h1, h2⟩ := ih _ n h
      unfold destroyNode at h1
      have h3 := List.mem_filter.mp h1
      refine ⟨h3.1, ?_⟩
      intro b hb
      rcases List.mem_cons.mp hb with rfl | hb2
      · exact of_decide_eq_true h3.2
      · exact h2 b hb2

/-- A node whose id is never destroyed survives the destruction loop. -/
theorem destroyFold_preserve : ∀ (l : List Nat) (G : IRGraph) (n : GNode),
    n ∈ G → (∀ a ∈ l, n.nid ≠ a) →
    n ∈ l.foldl (fun acc nid => destroyNode acc nid) G := by
  intro l
  induction l with
  | nil =>
      intro G n hn _
      exact hn
  | cons a rest ih =>
      intro G n hn hne
      rw [List.foldl_cons]
      refine ih _ n ?_ (fun b hb => hne b (List.mem_cons_of_mem _ hb))
      unfold destroyNode
      exact List.mem_filter.mpr ⟨hn, decide_eq_true (hne a (List.mem_cons_self a rest))⟩

/-- The destruction loop preserves id uniqueness. -/
theorem destroyFold_unique : ∀ (l : List Nat) (G : IRGraph), NodeIdsUnique G →
    NodeIdsUnique (l.foldl (fun acc nid => destroyNode acc nid) G) := by
  intro l
  induction l with
  | nil =>
      intro G h
      exact h
  | cons a rest ih =>
      intro G h
      rw [List.foldl_cons]
      refine ih _ ?_
      unfold destroyNode NodeIdsUnique at *
      exact List.Pairwise.sublist (List.filter_sublist G) h

/-- C8: for a `dequantize` node `d` whose output has more than one use when
`ReplicateDeQuant` runs (`IsMatchedNode`), after the pass (i) no node with
`d`'s id remains — the original is destroyed; (ii) at the point right before
destruction (after the `removeAllInputs` loop, `rdqCleared`) the original's
record has empty inputs; (iii) every original use's input slot now holds a
fresh value produced by its own fresh `dequantize` node reading `d`'s
quantized input value; and (iv) distinct uses hold distinct values, so the
fresh dequantize nodes are exactly one per original use.  Well-formedness
hypotheses: node ids unique, outputs disjoint, `fn`/`fv` strict upper bounds
on the original ids/values, matched nodes unary (a dequantize has one input
and one output), and no matched node reads a matched node's output (a
dequantize consumes a quantized value, never a dequantize output). -/
theorem c8_ReplicateDeQuant_per_use (g : IRGraph) (fv fn : Nat) (d : GNode)
    (hU : NodeIdsUnique g) (hOD : OutputsDisjoint g)
    (hbound : ∀ n ∈ g, n.nid < fn ∧ (∀ w ∈ n.inputs, w < fv) ∧ (∀ w ∈ n.outputs, w < fv))
    (hshape : ∀ m ∈ g, IsMatchedNode g m → m.inputs.length = 1 ∧ m.outputs.length = 1)
    (hchain : ∀ m ∈ g, IsMatchedNode g m → ∀ e ∈ g, IsMatchedNode g e →
      m.inputs.getD 0 0 ∉ e.outputs)
    (hd : d ∈ g) (hdm : IsMatchedNode g d) :
    (∀ n ∈ ReplicateDeQuant g fv fn, n.nid ≠ d.nid) ∧
    (∃ n ∈ rdqCleared g fv fn, n.nid = d.nid ∧ n.inputs = []) ∧
    (∀ p ∈ usesOf g (d.outputs.getD 0 0), ∃ w, fv ≤ w ∧
      slotValueAt (ReplicateDeQuant g fv fn) p.1 p.2 = some w ∧
      ∃ nd ∈ ReplicateDeQuant g fv fn, nd.kind = NKind.aten "dequantize" ∧
        nd.inputs = [d.inputs.getD 0 0] ∧ nd.outputs = [w] ∧ fn ≤ nd.nid) ∧
    (∀ p1 ∈ usesOf g (d.outputs.getD 0 0), ∀ p2 ∈ usesOf g (d.outputs.getD 0 0),
      p1 ≠ p2 → ∀ w1 w2 : Nat,
      slotValueAt (ReplicateDeQuant g fv fn) p1.1 p1.2 = some w1 →
      slotValueAt (ReplicateDeQuant g fv fn) p2.1 p2.2 = some w2 → w1 ≠ w2) := by
  obtain ⟨hinvR, hpostR⟩ :=
    rdq_rewritten_spec g fv fn d hU hOD hbound hshape hchain hd hdm
  obtain ⟨hmatR, hUR, _⟩ := hinvR
  obtain ⟨hpost1, hpost2⟩ := hpostR
  have hdIn : d.nid ∈ rdqMatched g := mem_rdqMatched.mpr ⟨d, hd, rfl, hdm⟩
  have hMlt : ∀ a ∈ rdqMatched g, a < fn := by
    intro a ha
    obtain ⟨m, hm, hmid, _⟩ := mem_rdqMatched.mp ha
    have := (hbound m hm).1
    omega
  have huserNot : ∀ p ∈ usesOf g (d.outputs.getD 0 0), p.1 ∉ rdqMatched g := by
    intro p hp hinM
    obtain ⟨m, hm, hmid, hmm⟩ := mem_rdqMatched.mp hinM
    obtain ⟨u, hu, huid, huslot⟩ := mem_usesOf.mp hp
    have heq : u = m := eq_of_mem_of_nid_eq hU hu hm (by rw [huid, hmid])
    have hum : IsMatchedNode g u := by
      rw [heq]
      exact hmm
    rw [eq_singleton_getD (hshape u hu hum).1] at huslot
    obtain ⟨_, hveq⟩ := singleton_getElem?_eq huslot
    exact hchain u hu hum d hd hdm (hveq ▸ getD0_mem (hshape d hd hdm).2)
  have hUF : NodeIdsUnique (ReplicateDeQuant g fv fn) := by
    unfold ReplicateDeQuant
    refine destroyFold_unique _ _ ?_
    unfold rdqCleared
    exact clearFold_unique _ _ hUR
  have keyR : ∀ p ∈ usesOf g (d.outputs.getD 0 0), ∃ w, fv ≤ w ∧
      slotValueAt (rdqRewritten g fv fn).1 p.1 p.2 = some w ∧
      slotValueAt (ReplicateDeQuant g fv fn) p.1 p.2 = some w ∧
      ∃ nd ∈ ReplicateDeQuant g fv fn, nd.kind = NKind.aten "dequantize" ∧
        nd.inputs = [d.inputs.getD 0 0] ∧ nd.outputs = [w] ∧ fn ≤ nd.nid := by
    intro p hp
    obtain ⟨w, hw1, hw2, hw3, nd, hnd, hk, hi, ho, hn5⟩ := hpost1 p hp
    obtain ⟨n, hnR, hnid, hslot⟩ := slotValueAt_mem hw3
    have hnNot : n.nid ∉ rdqMatched g := by
      rw [hnid]
      exact huserNot p hp
    have hnC : n ∈ rdqCleared g fv fn := by
      unfold rdqCleared
      exact clearFold_preserve _ _ _ hnR hnNot
    have hnF : n ∈ ReplicateDeQuant g fv fn := by
      unfold ReplicateDeQuant
      exact destroyFold_preserve _ _ _ hnC
        (fun a ha hx => hnNot (by rw [hx]; exact ha))
    have hndNot : nd.nid ∉ rdqMatched g := by
      intro h
      have := hMlt _ h
      omega
    have hndC : nd ∈ rdqCleared g fv fn := by
      unfold rdqCleared
      exact clearFold_preserve _ _ _ hnd hndNot
    have hndF : nd ∈ ReplicateDeQuant g fv fn := by
      unfold ReplicateDeQuant
      exact destroyFold_preserve _ _ _ hndC
        (fun a ha hx => hndNot (by rw [hx]; exact ha))
    exact ⟨w, hw1, hw3, slotValueAt_of_mem hUF hnF hnid hslot,
      nd, hndF, hk, hi, ho, hn5⟩
  refine ⟨?_, ?_, ?_, ?_⟩
  · intro n hn
    unfold ReplicateDeQuant at hn
    exact (destroyFold_mem _ _ _ hn).2 d.nid hdIn
  · have hdR : d ∈ (rdqRewritten g fv fn).1 := hmatR d hd hdm
    unfold rdqCleared
    exact clearFold_cleared _ _ _ hdR hdIn
  · intro p hp
    obtain ⟨w, k1, _, k3, k4⟩ := keyR p hp
    exact ⟨w, k1, k3, k4⟩
  · intro p1 hp1 p2 hp2 hne w1 w2 hs1 hs2
    obtain ⟨v1, _, ho1, hq1, _⟩ := keyR p1 hp1
    obtain ⟨v2, _, ho2, hq2, _⟩ := keyR p2 hp2
    rw [Option.some.inj (hs1.symm.trans hq1), Option.some.inj (hs2.symm.trans hq2)]
    exact hpost2 p1 hp1 p2 hp2 hne v1 v2 ho1 ho2

/-- Witness for C8: the hypotheses hold at the concrete graph `c8g` (whose
dequantize node `c8d` has two uses), and the replication destroys the
original node. -/
theorem c8_witness :
    (NodeIdsUnique c8g ∧ OutputsDisjoint c8g ∧
      (∀ n ∈ c8g, n.nid < 10 ∧ (∀ w ∈ n.inputs, w < 100) ∧ (∀ w ∈ n.outputs, w < 100)) ∧
      (∀ m ∈ c8g, IsMatchedNode c8g m → m.inputs.length = 1 ∧ m.outputs.length = 1) ∧
      (∀ m ∈ c8g, IsMatchedNode c8g m → ∀ e ∈ c8g, IsMatchedNode c8g e →
        m.inputs.getD 0 0 ∉ e.outputs) ∧
      c8d ∈ c8g ∧ IsMatchedNode c8g c8d) ∧
    (∀ n ∈ ReplicateDeQuant c8g 100 10, n.nid ≠ c8d.nid) :=
  have h1 : NodeIdsUnique c8g := by unfold NodeIdsUnique; decide
  have h2 : OutputsDisjoint c8g := by unfold OutputsDisjoint; decide
  have h3 : ∀ n ∈ c8g, n.nid < 10 ∧ (∀ w ∈ n.inputs, w < 100) ∧
      (∀ w ∈ n.outputs, w < 100) := by decide
  have h4 : ∀ m ∈ c8g, IsMatchedNode c8g m →
      m.inputs.length = 1 ∧ m.outputs.length = 1 := by unfold IsMatchedNode; decide
  have h5 : ∀ m ∈ c8g, IsMatchedNode c8g m → ∀ e ∈ c8g, IsMatchedNode c8g e →
      m.inputs.getD 0 0 ∉ e.outputs := by unfold IsMatchedNode; decide
  have h6 : c8d ∈ c8g := by decide
  have h7 : IsMatchedNode c8g c8d := by unfold IsMatchedNode; decide
  ⟨⟨h1, h2, h3, h4, h5, h6, h7⟩,
    (c8_ReplicateDeQuant_per_use c8g 100 10 c8d h1 h2 h3 h4 h5 h6 h7).1⟩

/-- If any block of the conditional declares a number of outputs other than
one, the per-block loop of `ReplicateQuant` aborts with the TORCH_CHECK
error naming the first offending output count. -/
theorem rqBlocks_error (k : NKind) (qin : List Nat) :
    ∀ (bs : List QBlock) (fv fnId : Nat), (∃ b ∈ bs, b.outputs.length ≠ 1) →
    ∃ c, rqBlocks k qin bs fv fnId = .error (RQErr.blockOutputs c) ∧ c ≠ 1 := by
  intro bs
  induction bs with
  | nil =>
      rintro fv fnId ⟨b, hb, _⟩
      exact absurd hb (List.not_mem_nil b)
  | cons b rest ih =>
      rintro fv fnId ⟨b0, hb0, hlen⟩
      rcases List.mem_cons.mp hb0 with rfl | hmem
      · refine ⟨b0.outputs.length, ?_, hlen⟩
        unfold rqBlocks
        rw [if_neg hlen]
      · by_cases hb : b.outputs.length = 1
        · obtain ⟨c, hc, hc1⟩ := ih (fv + 1) (fnId + 1) ⟨b0, hmem, hlen⟩
          refine ⟨c, ?_, hc1⟩
          unfold rqBlocks
          rw [if_pos hb]
          rw [hc]
        · exact ⟨b.outputs.length, by unfold rqBlocks; rw [if_neg hb], hb⟩

/-- The rewrite loop propagates the first failing step's error. -/
theorem rqLoop_append_error :
    ∀ (l1 : List Nat) (st st1 : QGraph × Nat × Nat) (a : Nat) (l2 : List Nat)
      (e : RQErr), rqLoop l1 st = .ok st1 → rqRewriteOne st1 a = .error e →
    rqLoop (l1 ++ a :: l2) st = .error e := by
  intro l1
  induction l1 with
  | nil =>
      intro st st1 a l2 e h1 h2
      have hst : st1 = st := by
        unfold rqLoop at h1
        exact (Except.ok.inj h1).symm
      subst hst
      rw [List.nil_append]
      unfold rqLoop
      rw [h2]
  | cons x rest ih =>
      intro st st1 a l2 e h1 h2
      unfold rqLoop at h1
      rw [List.cons_append]
      unfold rqLoop
      cases hx : rqRewriteOne st x with
      | ok st2 =>
          rw [hx] at h1
          exact ih st2 st1 a l2 e h1 h2
      | error e2 =>
          rw [hx] at h1
          simp at h1

/-- Node lookup after `replaceAllUsesWith` returns the substituted image of
the original record (ids are untouched). -/
theorem qNodeById_replace (g : QGraph) (oldV newV nid : Nat) :
    qNodeById (qReplaceAllUses g oldV newV) nid =
      (qNodeById g nid).map (fun n =>
        { node := { n.node with inputs := n.node.inputs.map (substV oldV newV) },
          blocks := n.blocks.map (fun b =>
            { nodes := b.nodes.map (fun m =>
                { m with inputs := m.inputs.map (substV oldV newV) }),
              outputs := b.outputs.map (substV oldV newV) }) }) := by
  unfold qNodeById qReplaceAllUses
  rw [List.find?_map]
  rfl

/-- C3 (amended): the claim and the spec say a multi-output conditional is
a skipped policy case — replication continues, leaving the conditional
unmodified.  The code instead TORCH_CHECKs `if_block->outputs().size() == 1`
inside the rewrite, so once the rewrite loop reaches a quantize node whose
`prim::If` producer has a block declaring more than one output (or zero),
`ReplicateQuant` aborts fatally with the block-output error naming the
offending output count — it is an error, not a skip. -/
theorem c3_ReplicateQuant_multi_output_fatal (g : QGraph) (fv fnId : Nat)
    (l1 l2 : List Nat) (a : Nat) (st1 : QGraph × Nat × Nat)
    (n0 ifn0 : QNode) (blk : QBlock)
    (hsplit : rqMatched g = l1 ++ a :: l2)
    (hloop : rqLoop l1 (g, fv, fnId) = .ok st1)
    (hn : qNodeById st1.1 a = some n0)
    (hif : qProducerOf st1.1 (n0.node.inputs.getD 0 0) = some ifn0)
    (hifById : qNodeById st1.1 ifn0.node.nid = some ifn0)
    (hblk : blk ∈ ifn0.blocks) (hbad : blk.outputs.length ≠ 1) :
    ∃ c, ReplicateQuant g fv fnId = .error (RQErr.blockOutputs c) ∧ c ≠ 1 := by
  have hg1n := qNodeById_replace st1.1 (n0.node.outputs.getD 0 0)
    (ifn0.node.outputs.getD 0 0) a
  rw [hn] at hg1n
  have hg1if := qNodeById_replace st1.1 (n0.node.outputs.getD 0 0)
    (ifn0.node.outputs.getD 0 0) ifn0.node.nid
  rw [hifById] at hg1if
  obtain ⟨c, hc, hc1⟩ := rqBlocks_error n0.node.kind
    (n0.node.inputs.map (substV (n0.node.outputs.getD 0 0) (ifn0.node.outputs.getD 0 0)))
    (ifn0.blocks.map (fun b =>
      { nodes := b.nodes.map (fun m =>
          { m with inputs := m.inputs.map (substV (n0.node.outputs.getD 0 0)
            (ifn0.node.outputs.getD 0 0)) }),
        outputs := b.outputs.map (substV (n0.node.outputs.getD 0 0)
          (ifn0.node.outputs.getD 0 0)) }))
    st1.2.1 st1.2.2
    ⟨_, List.mem_map.mpr ⟨blk, hblk, rfl⟩, by simpa using hbad⟩
  have hstep : rqRewriteOne st1 a = .error (RQErr.blockOutputs c) := by
    simp only [rqRewriteOne, hn, hif, hg1n, hg1if, Option.map_some', hc]
  have hfull : rqLoop (rqMatched g) (g, fv, fnId) = .error (RQErr.blockOutputs c) := by
    rw [hsplit]
    exact rqLoop_append_error l1 _ st1 a l2 _ hloop hstep
  exact ⟨c, by simp only [ReplicateQuant, hfull], hc1⟩

/-- C3 counterexample: on the concrete graph `c3g` the quantize node reads
the first output of a conditional whose branches declare two outputs; the
claim says replication skips such a conditional and continues, but
`ReplicateQuant` evaluates to the fatal TORCH_CHECK block-output error. -/
theorem c3_counterexample_multi_output_throws :
    ReplicateQuant c3g 100 10 = .error (RQErr.blockOutputs 2) := rfl

/-- Witness for C3: the amended theorem's hypotheses hold concretely on
`c3g` (matched list `[2]`, empty successful prefix, the two-output block),
and the pass aborts with a block-output error whose count is not one. -/
theorem c3_witness :
    (rqMatched c3g = [] ++ 2 :: [] ∧
     rqLoop [] (c3g, 100, 10) = .ok (c3g, 100, 10) ∧
     qNodeById c3g 2 = some c3q ∧
     qProducerOf c3g (c3q.node.inputs.getD 0 0) = some c3ifn ∧
     qNodeById c3g c3ifn.node.nid = some c3ifn ∧
     (⟨[], [10, 11]⟩ : QBlock) ∈ c3ifn.blocks ∧
     (⟨[], [10, 11]⟩ : QBlock).outputs.length ≠ 1) ∧
    ∃ c, ReplicateQuant c3g 100 10 = .error (RQErr.blockOutputs c) ∧ c ≠ 1 :=
  have h1 : rqMatched c3g = [] ++ 2 :: [] := rfl
  have h2 : rqLoop [] (c3g, 100, 10) = .ok (c3g, 100, 10) := rfl
  have h3 : qNodeById c3g 2 = some c3q := rfl
  have h4 : qProducerOf c3g (c3q.node.inputs.getD 0 0) = some c3ifn := rfl
  have h5 : qNodeById c3g c3ifn.node.nid = some c3ifn := rfl
  have h6 : (⟨[], [10, 11]⟩ : QBlock) ∈ c3ifn.blocks := by decide
  have h7 : (⟨[], [10, 11]⟩ : QBlock).outputs.length ≠ 1 := by decide
  ⟨⟨h1, h2, h3, h4, h5, h6, h7⟩,
    c3_ReplicateQuant_multi_output_fatal c3g 100 10 [] [] 2 (c3g, 100, 10)
      c3q c3ifn ⟨[], [10, 11]⟩ h1 h2 h3 h4 h5 h6 h7⟩

/-- A successful association lookup witnesses membership. -/
theorem alookup_mem {α β : Type} [DecidableEq α] {k : α} {v : β} :
    ∀ {l : List (α × β)}, alookup k l = some v → (k, v) ∈ l := by
  intro l
  induction l with
  | nil =>
      intro h
      simp [alookup] at h
  | cons p rest ih =>
      intro h
      obtain ⟨a, b⟩ := p
      unfold alookup at h
      by_cases ha : a = k
      · rw [if_pos ha] at h
        have hb := Option.some.inj h
        rw [← ha, ← hb]
        exact List.mem_cons_self _ _
      · rw [if_neg ha] at h
        exact List.mem_cons_of_mem _ (ih h)

/-- Setting a key that is present does not change the key sequence. -/
theorem aset_map_fst {α β : Type} [DecidableEq α] (k : α) (v : β) :
    ∀ (l : List (α × β)), alookup k l ≠ none →
    (aset k v l).map Prod.fst = l.map Prod.fst := by
  intro l
  induction l with
  | nil =>
      intro h
      exact absurd rfl h
  | cons p rest ih =>
      intro h
      obtain ⟨a, b⟩ := p
      unfold aset
      by_cases ha : a = k
      · rw [if_pos ha]
        rfl
      · rw [if_neg ha]
        unfold alookup at h
        rw [if_neg ha] at h
        simp only [List.map_cons]
        rw [ih h]

/-- Setting one key leaves every other key's binding unchanged. -/
theorem alookup_aset_ne {α β : Type} [DecidableEq α] (k k2 : α) (v : β)
    (hne : k2 ≠ k) : ∀ (l : List (α × β)),
    alookup k2 (aset k v l) = alookup k2 l := by
  intro l
  induction l with
  | nil =>
      simp only [aset, alookup]
      rw [if_neg (fun h => hne h.symm)]
  | cons p rest ih =>
      obtain ⟨a, b⟩ := p
      simp only [aset]
      by_cases ha : a = k
      · rw [if_pos ha]
        simp only [alookup]
        by_cases h2 : a = k2
        · exact absurd (ha.symm.trans h2).symm hne
        · rw [if_neg h2, if_neg h2]
      · rw [if_neg ha]
        simp only [alookup]
        by_cases h2 : a = k2
        · rw [if_pos h2, if_pos h2]
        · rw [if_neg h2, if_neg h2]
          exact ih

/-- The recorded-name re-registration loop updates only the attribute names
appearing in the name map, and never changes the attribute key sequence. -/
theorem setRecordedQParams_spec (nameMap : List (String × String)) :
    ∀ (qps : QParamVector) (m m2 : ModuleObj),
      setRecordedQParams nameMap qps m = .ok m2 →
      m2.attrs.map Prod.fst = m.attrs.map Prod.fst ∧
      (∀ k : String, (∀ pr ∈ nameMap, pr.2 ≠ k) →
        alookup k m2.attrs = alookup k m.attrs) := by
  intro qps
  induction qps with
  | nil =>
      intro m m2 h
      unfold setRecordedQParams at h
      rw [← Except.ok.inj h]
      exact ⟨rfl, fun k _ => rfl⟩
  | cons pr rest ih =>
      intro m m2 h
      obtain ⟨name, q⟩ := pr
      unfold setRecordedQParams at h
      split at h
      next hl => simp at h
      next attrName hl =>
        split at h
        next m1 hs =>
          obtain ⟨e1, e2⟩ := ih m1 m2 h
          unfold setAttrE at hs
          split at hs
          next v0 ha =>
            have hm1 : m1 = { m with attrs := aset attrName q m.attrs } :=
              (Except.ok.inj hs).symm
            subst hm1
            constructor
            · rw [e1]
              exact aset_map_fst attrName q m.attrs (by rw [ha]; simp)
            · intro k hk
              rw [e2 k hk]
              have hnm : attrName ≠ k := hk (name, attrName) (alookup_mem hl)
              exact alookup_aset_ne attrName k q hnm.symm m.attrs
          next ha => simp at hs
        next e hs => simp at h

/-- The memoized branch's loop re-sets only recorded attribute names and
preserves the attribute key sequence; the recorded name maps themselves are
not modified by the loop. -/
theorem runMemoLoop_spec (g : IRGraph) (gid : Nat) :
    ∀ (l : List Nat) (m : ModuleObj) (st : PassState) (m2 : ModuleObj)
      (st2 : PassState), runMemoLoop g gid l m st = .ok (m2, st2) →
      m2.attrs.map Prod.fst = m.attrs.map Prod.fst ∧
      (∀ k : String,
        (∀ e ∈ st.qparamNameMapForNode, ∀ pr ∈ e.2, pr.2 ≠ k) →
        alookup k m2.attrs = alookup k m.attrs) := by
  intro l
  induction l with
  | nil =>
      intro m st m2 st2 h
      unfold runMemoLoop at h
      obtain ⟨h1, _⟩ := Prod.mk.inj (Except.ok.inj h)
      rw [← h1]
      exact ⟨rfl, fun k _ => rfl⟩
  | cons nid rest ih =>
      intro m st m2 st2 h
      unfold runMemoLoop at h
      split at h
      next e hp => simp at h
      next qscheme qparamMap hp =>
        split at h
        next e hp2 => simp at h
        next qmap2 hp2 =>
          split at h
          next hp3 => simp at h
          next nameMap hp3 =>
            split at h
            next e hp4 => simp at h
            next m1 hp4 =>
              obtain ⟨e1, e2⟩ := ih m1 _ m2 st2 h
              obtain ⟨f1, f2⟩ := setRecordedQParams_spec nameMap qparamMap m m1 hp4
              refine ⟨e1.trans f1, ?_⟩
              intro k hk
              have hnm : ∀ pr ∈ nameMap, pr.2 ≠ k :=
                hk (nid, nameMap) (alookup_mem hp3)
              have hk2 : ∀ e ∈ ({ st with qschemeForGraph := qmap2 } :
                  PassState).qparamNameMapForNode, ∀ pr ∈ e.2, pr.2 ≠ k := hk
              rw [e2 k hk2, f2 k hnm]

/-- C4: once a graph is recorded in the pass's memo table
(`observer_nodes_for_graph_`), running the insertion step again takes the
re-registration branch: calibration is re-read and the recorded qparam
attribute names are re-set on the module, the graph comes back exactly
unchanged (no node is inserted), the attribute key sequence of the module
is unchanged, and every attribute not named by a recorded qparam name map
keeps its value — node structure is idempotent under repetition. -/
theorem c4_run_memoized_idempotent (st : PassState) (m : ModuleObj) (gid : Nat)
    (g : IRGraph) (self : Nat) (dyn : Bool) (fv fnId fuel : Nat)
    (obsNodes : List Nat)
    (hmemo : alookup gid st.observerNodesForGraph = some obsNodes) :
    ∀ res, runOnGraph st m gid g self dyn fv fnId fuel = .ok res →
      res.1 = g ∧
      res.2.1.attrs.map Prod.fst = m.attrs.map Prod.fst ∧
      (∀ k : String, (∀ e ∈ st.qparamNameMapForNode, ∀ pr ∈ e.2, pr.2 ≠ k) →
        alookup k res.2.1.attrs = alookup k m.attrs) := by
  intro res h
  simp only [runOnGraph, hmemo] at h
  split at h
  next m2 st2 hp =>
    have hres : res = (g, m2, st2) := (Except.ok.inj h).symm
    subst hres
    obtain ⟨e1, e2⟩ := runMemoLoop_spec g gid obsNodes m st m2 st2 hp
    exact ⟨rfl, e1, e2⟩
  next e hp => simp at h

/-- Witness for C4: on the memoized state `c4st` for graph `g10`, a repeat
run succeeds, returns the graph unchanged with an unchanged attribute key
sequence, and leaves the unrelated attribute `bias` intact. -/
theorem c4_witness :
    alookup 7 c4st.observerNodesForGraph = some [2] ∧
    ∃ res, runOnGraph c4st c4m 7 g10 0 false 100 10 5 = Except.ok res ∧
      res.1 = g10 ∧
      res.2.1.attrs.map Prod.fst = c4m.attrs.map Prod.fst ∧
      alookup "bias" res.2.1.attrs = alookup "bias" c4m.attrs := by
  refine ⟨rfl, _, rfl, rfl, ?_, ?_⟩
  · exact (c4_run_memoized_idempotent c4st c4m 7 g10 0 false 100 10 5 [2]
      rfl _ rfl).2.1
  · exact (c4_run_memoized_idempotent c4st c4m 7 g10 0 false 100 10 5 [2]
      rfl _ rfl).2.2 "bias" (by decide)

/-- Image of `replaceAllUsesWith`: identity, kind and outputs preserved,
inputs substituted. -/
theorem rawu_image {g : IRGraph} {n2 : GNode} {a b : Nat} :
    n2 ∈ replaceAllUsesWith g a b ↔
      ∃ n ∈ g, n2 = { n with inputs := n.inputs.map (substV a b) } := by
  unfold replaceAllUsesWith
  rw [List.mem_map]
  constructor
  · rintro ⟨n, hn, heq⟩
    exact ⟨n, hn, heq.symm⟩
  · rintro ⟨n, hn, heq⟩
    exact ⟨n, hn, heq.symm⟩

/-- Well-formedness is monotone in the bounds. -/
theorem GWF_mono {g : IRGraph} {fv fn fv2 fn2 : Nat} (h : GWF g fv fn)
    (h1 : fv ≤ fv2) (h2 : fn ≤ fn2) : GWF g fv2 fn2 := by
  obtain ⟨hA, hB⟩ := h
  refine ⟨?_, hB⟩
  intro n hn
  obtain ⟨b1, b2, b3, b4⟩ := hA n hn
  exact ⟨by omega, fun w hw => by have := b2 w hw; omega,
    fun w hw => by have := b3 w hw; omega, b4⟩

/-- Well-formedness restricts to any subcollection of the nodes. -/
theorem GWF_subset {g g2 : IRGraph} {fv fn : Nat} (hsub : ∀ n ∈ g2, n ∈ g)
    (h : GWF g fv fn) : GWF g2 fv fn :=
  ⟨fun n hn => h.1 n (hsub n hn),
   fun n hn m hm => h.2 n (hsub n hn) m (hsub m hm)⟩

/-- `replaceAllUsesWith` preserves well-formedness when the written value is
in bounds. -/
theorem GWF_rawu {g : IRGraph} {fv fn a b : Nat} (hb : b < fv)
    (h : GWF g fv fn) : GWF (replaceAllUsesWith g a b) fv fn := by
  obtain ⟨h1, h2⟩ := h
  constructor
  · intro n2 hn2
    obtain ⟨n, hn, rfl⟩ := rawu_image.mp hn2
    obtain ⟨b1, b2, b3, b4⟩ := h1 n hn
    refine ⟨b1, ?_, b3, b4⟩
    intro w hw
    obtain ⟨w0, hw0, rfl⟩ := List.mem_map.mp hw
    unfold substV
    split
    · exact hb
    · exact b2 w0 hw0
  · intro n2 hn2 m2 hm2 hne o ho hom
    obtain ⟨n, hn, rfl⟩ := rawu_image.mp hn2
    obtain ⟨m, hm, rfl⟩ := rawu_image.mp hm2
    exact h2 n hn m hm hne o ho hom

/-- Appending one node with fresh outputs preserves well-formedness. -/
theorem GWF_append_node {g : IRGraph} (fv : Nat) {fv2 fn2 : Nat} {p : GNode}
    (h : GWF g fv2 fn2)
    (houts : ∀ n ∈ g, ∀ o ∈ n.outputs, o < fv)
    (hp1 : p.nid < fn2) (hp2 : ∀ w ∈ p.inputs, w < fv2)
    (hp3 : ∀ w ∈ p.outputs, w < fv2) (hp4 : p.outputs.Nodup)
    (hp5 : ∀ w ∈ p.outputs, fv ≤ w) :
    GWF (g ++ [p]) fv2 fn2 := by
  obtain ⟨h1, h2⟩ := h
  constructor
  · intro n hn
    rcases List.mem_append.mp hn with h | h
    · exact h1 n h
    · rw [List.mem_singleton.mp h]
      exact ⟨hp1, hp2, hp3, hp4⟩
  · intro n hn m hm hne o ho hom
    rcases List.mem_append.mp hn with hn2 | hn2 <;>
      rcases List.mem_append.mp hm with hm2 | hm2
    · exact h2 n hn2 m hm2 hne o ho hom
    · rw [List.mem_singleton.mp hm2] at hom
      have q1 := houts n hn2 o ho
      have q2 := hp5 o hom
      omega
    · rw [List.mem_singleton.mp hn2] at ho
      have q1 := houts m hm2 o hom
      have q2 := hp5 o ho
      omega
    · exfalso
      rw [List.mem_singleton.mp hn2, List.mem_singleton.mp hm2] at hne
      exact hne rfl

/-- Destroyed-node membership projects to the original graph. -/
theorem destroy_mem {g : IRGraph} {x : Nat} {n : GNode}
    (h : n ∈ destroyNode g x) : n ∈ g :=
  (List.mem_filter.mp h).1

/-- `idqFold` preserves well-formedness: images keep their outputs, fresh
dequants get fresh singleton outputs. -/
theorem GWF_idq (q fv0 fn0 : Nat)
    (ps : List (Nat × Nat × Nat)) (G : IRGraph) (fvS fv2 fn2 : Nat)
    (hG : GWF G fv2 fn2)
    (houts : ∀ n ∈ G, ∀ o ∈ n.outputs, o < fvS)
    (hids : ∀ n ∈ G, n.nid < fn0)
    (hp : ∀ p ∈ ps, p.2.1 < fn0 ∧ fvS ≤ fv0 + p.1 ∧ fv0 + p.1 < fv2 ∧ fn0 + p.1 < fn2)
    (hq : q < fv2) :
    GWF (idqFold q fv0 fn0 ps G) fv2 fn2 := by
  have hshapehyp : ∀ a ∈ ps, ∀ b ∈ ps, a.2.1 ≠ fn0 + b.1 := by
    intro a ha b hb
    have h1 := (hp a ha).1
    omega
  constructor
  · intro n2 hn2
    have hb := idq_bounds q fv0 fn0 ps G fv2 fn2
      (fun n hn => ⟨(hG.1 n hn).1, (hG.1 n hn).2.1, (hG.1 n hn).2.2.1⟩)
      (fun p hpp => ⟨(hp p hpp).2.2.2, (hp p hpp).2.2.1⟩) hq n2 hn2
    refine ⟨hb.1, hb.2.1, hb.2.2, ?_⟩
    rcases idq_shape q fv0 fn0 ps G hshapehyp n2 hn2 with
      ⟨n, hn, _, _, _, e4, _, _⟩ | ⟨p, _, _, _, _, _, g5⟩
    · rw [e4]
      exact (hG.1 n hn).2.2.2
    · rw [g5]
      exact List.nodup_singleton _
  · intro n2 hn2 m2 hm2 hne o ho hom
    rcases idq_shape q fv0 fn0 ps G hshapehyp n2 hn2 with
      ⟨n, hn, e1, _, _, e4, _, _⟩ | ⟨p1, hp1, f1, _, _, _, f5⟩ <;>
      rcases idq_shape q fv0 fn0 ps G hshapehyp m2 hm2 with
        ⟨m, hm, d1, _, _, d4, _, _⟩ | ⟨p2, hp2, c1, _, _, _, c5⟩
    · rw [e4] at ho
      rw [d4] at hom
      refine hG.2 n hn m hm ?_ o ho hom
      rw [← e1, ← d1]
      exact hne
    · rw [e4] at ho
      rw [c5] at hom
      have q1 := houts n hn o ho
      have q2 := (hp p2 hp2).2.1
      rw [List.mem_singleton.mp hom] at q1
      omega
    · rw [f5] at ho
      rw [d4] at hom
      have q1 := houts m hm o hom
      have q2 := (hp p1 hp1).2.1
      rw [List.mem_singleton.mp ho] at q1
      omega
    · rw [f5] at ho
      rw [c5] at hom
      rw [f1, c1] at hne
      rw [List.mem_singleton.mp ho] at hom
      have := List.mem_singleton.mp hom
      omega

/-- Old-id nodes survive `idqFold` with their kind and outputs. -/
theorem idq_transfer (q fv0 fn0 : Nat)
    (ps : List (Nat × Nat × Nat)) (G : IRGraph)
    (hpid : ∀ p ∈ ps, p.2.1 < fn0)
    {n2 : GNode} (hn2 : n2 ∈ idqFold q fv0 fn0 ps G) (hlt : n2.nid < fn0) :
    ∃ n ∈ G, n.nid = n2.nid ∧ n.kind = n2.kind ∧ n.outputs = n2.outputs := by
  have hshapehyp : ∀ a ∈ ps, ∀ b ∈ ps, a.2.1 ≠ fn0 + b.1 := by
    intro a ha b hb
    have h1 := hpid a ha
    omega
  rcases idq_shape q fv0 fn0 ps G hshapehyp n2 hn2 with
    ⟨n, hn, e1, e2, _, e4, _, _⟩ | ⟨p, _, f1, _, _, _, _⟩
  · exact ⟨n, hn, e1.symm, e2.symm, e4.symm⟩
  · omega

/-- Fresh-id nodes of `idqFold` have fresh outputs. -/
theorem idq_fresh_outs (q fv0 fn0 : Nat)
    (ps : List (Nat × Nat × Nat)) (G : IRGraph) (fnS fvS : Nat)
    (hpid : ∀ p ∈ ps, p.2.1 < fn0)
    (hold : ∀ n ∈ G, n.nid < fnS → ∀ o ∈ n.outputs, o < fvS)
    (hfn : fnS ≤ fn0) (hfv : fvS ≤ fv0)
    {n2 : GNode} (hn2 : n2 ∈ idqFold q fv0 fn0 ps G) (hge : fnS ≤ n2.nid) :
    (∀ o ∈ n2.outputs, fvS ≤ o) ∨
      (∃ n ∈ G, n.nid = n2.nid ∧ n.kind = n2.kind ∧ n.outputs = n2.outputs) := by
  have hshapehyp : ∀ a ∈ ps, ∀ b ∈ ps, a.2.1 ≠ fn0 + b.1 := by
    intro a ha b hb
    have h1 := hpid a ha
    omega
  rcases idq_shape q fv0 fn0 ps G hshapehyp n2 hn2 with
    ⟨n, hn, e1, e2, _, e4, _, _⟩ | ⟨p, _, _, _, _, _, f5⟩
  · exact Or.inr ⟨n, hn, e1.symm, e2.symm, e4.symm⟩
  · left
    intro o ho
    rw [f5] at ho
    rw [List.mem_singleton.mp ho]
    omega

/-- Effect of the quantize-insertion core: exactly one new wrap entry
(`target`), grown counters, preserved well-formedness, fresh bounded
distinct inserted ids, old-id nodes keeping kind and outputs, and new-id
nodes outputting only fresh values. -/
theorem propQPCore_spec (st : PropState) (target : Nat) (ins : List Nat)
    (qpOpt : Option (CQScheme × QParamVector)) (st2 : PropState) (ids : List Nat)
    (hG : GWF st.g st.freshV st.freshN)
    (ht : target < st.freshV)
    (h : propQPCore st target ins qpOpt = some (st2, ids)) :
    st2.wraps = st.wraps ++ [target] ∧
    st.freshV ≤ st2.freshV ∧ st.freshN ≤ st2.freshN ∧
    GWF st2.g st2.freshV st2.freshN ∧
    (∀ a ∈ ids, st.freshN ≤ a ∧ a < st2.freshN) ∧
    ids.Nodup ∧
    (∀ n2 ∈ st2.g, n2.nid < st.freshN →
      ∃ n ∈ st.g, n.nid = n2.nid ∧ n.kind = n2.kind ∧ n.outputs = n2.outputs) ∧
    (∀ n2 ∈ st2.g, st.freshN ≤ n2.nid → ∀ o ∈ n2.outputs, st.freshV ≤ o) := by
  unfold propQPCore at h
  split at h
  case isFalse => simp at h
  case isTrue hins =>
  split at h
  next heq => simp at h
  next x heq =>
  obtain ⟨h1, h2⟩ := Prod.mk.inj (Option.some.inj h)
  subst h1
  subst h2
  have hK : qpK st target qpOpt =
      (usesOf (qpG2 st target qpOpt) (st.freshV + qpArgCount qpOpt)).length := rfl
  have houtsR : ∀ n ∈ replaceAllUsesWith st.g target (st.freshV + qpArgCount qpOpt),
      ∀ o ∈ n.outputs, o < st.freshV := by
    intro n hn o ho
    obtain ⟨n0, hn0, rfl⟩ := rawu_image.mp hn
    exact (hG.1 n0 hn0).2.2.1 o ho
  have hG2 : GWF (qpG2 st target qpOpt)
      (st.freshV + qpArgCount qpOpt + 1) (st.freshN + 1) := by
    unfold qpG2
    refine GWF_append_node st.freshV
      (GWF_rawu (by omega) (GWF_mono hG (by omega) (by omega))) houtsR ?_ ?_ ?_ ?_ ?_
    · show st.freshN < st.freshN + 1
      omega
    · intro w hw
      show w < st.freshV + qpArgCount qpOpt + 1
      rcases List.mem_cons.mp hw with rfl | hw2
      · omega
      · obtain ⟨i, hi, rfl⟩ := List.mem_map.mp hw2
        have := List.mem_range.mp hi
        omega
    · intro w hw
      have hw2 : w = st.freshV + qpArgCount qpOpt := List.mem_singleton.mp hw
      omega
    · exact List.nodup_singleton _
    · intro w hw
      have hw2 : w = st.freshV + qpArgCount qpOpt := List.mem_singleton.mp hw
      omega
  have hpid : ∀ p ∈ (usesOf (qpG2 st target qpOpt)
      (st.freshV + qpArgCount qpOpt)).enum, p.2.1 < st.freshN + 1 := by
    intro p hp
    obtain ⟨n, hn, hnid, _⟩ := mem_usesOf.mp (snd_mem_of_mem_enum hp)
    have hb := (hG2.1 n hn).1
    rw [← hnid]
    omega
  refine ⟨rfl, ?_, ?_, ?_, ?_, ?_, ?_, ?_⟩
  · show st.freshV ≤ st.freshV + qpArgCount qpOpt + 1 + qpK st target qpOpt
    omega
  · show st.freshN ≤ st.freshN + 1 + qpK st target qpOpt
    omega
  · show GWF (insertDeQuantForAllUse (qpG2 st target qpOpt)
        (st.freshV + qpArgCount qpOpt) (st.freshV + qpArgCount qpOpt)
        (st.freshV + qpArgCount qpOpt + 1) (st.freshN + 1))
      (st.freshV + qpArgCount qpOpt + 1 + qpK st target qpOpt)
      (st.freshN + 1 + qpK st target qpOpt)
    rw [insertDeQuantForAllUse_eq]
    refine GWF_idq _ _ _ _ _ (st.freshV + qpArgCount qpOpt + 1) _ _
      (GWF_mono hG2 (by omega) (by omega)) ?_ ?_ ?_ (by omega)
    · intro n hn o ho
      exact (hG2.1 n hn).2.2.1 o ho
    · intro n hn
      exact (hG2.1 n hn).1
    · intro p hp
      have hi := List.fst_lt_of_mem_enum hp
      exact ⟨hpid p hp, by omega, by omega, by omega⟩
  · show ∀ a ∈ st.freshN :: (List.range (qpK st target qpOpt)).map
        (fun i => st.freshN + 1 + i),
      st.freshN ≤ a ∧ a < st.freshN + 1 + qpK st target qpOpt
    intro a ha
    rcases List.mem_cons.mp ha with rfl | ha2
    · omega
    · obtain ⟨i, hi, rfl⟩ := List.mem_map.mp ha2
      have h3 := List.mem_range.mp hi
      constructor
      · show st.freshN ≤ st.freshN + 1 + i
        omega
      · show st.freshN + 1 + i < st.freshN + 1 + qpK st target qpOpt
        omega
  · show (st.freshN :: (List.range (qpK st target qpOpt)).map
        (fun i => st.freshN + 1 + i)).Nodup
    refine List.nodup_cons.mpr ⟨?_, ?_⟩
    · intro hmem
      obtain ⟨i, _, hieq⟩ := List.mem_map.mp hmem
      omega
    · refine List.Nodup.map ?_ (List.nodup_range _)
      intro a b hab
      have h4 : st.freshN + 1 + a = st.freshN + 1 + b := hab
      omega
  · show ∀ n2 ∈ insertDeQuantForAllUse (qpG2 st target qpOpt)
        (st.freshV + qpArgCount qpOpt) (st.freshV + qpArgCount qpOpt)
        (st.freshV + qpArgCount qpOpt + 1) (st.freshN + 1),
      n2.nid < st.freshN →
      ∃ n ∈ st.g, n.nid = n2.nid ∧ n.kind = n2.kind ∧ n.outputs = n2.outputs
    intro n2 hn2 hlt
    rw [insertDeQuantForAllUse_eq] at hn2
    obtain ⟨n1, hn1, e1, e2, e3⟩ := idq_transfer _ _ _ _ _ hpid hn2 (by omega)
    unfold qpG2 at hn1
    rcases List.mem_append.mp hn1 with hr | hs
    · obtain ⟨n0, hn0, rfl⟩ := rawu_image.mp hr
      exact ⟨n0, hn0, e1, e2, e3⟩
    · exfalso
      have hs2 := List.mem_singleton.mp hs
      rw [hs2] at e1
      have e1b : st.freshN = n2.nid := e1
      omega
  · show ∀ n2 ∈ insertDeQuantForAllUse (qpG2 st target qpOpt)
        (st.freshV + qpArgCount qpOpt) (st.freshV + qpArgCount qpOpt)
        (st.freshV + qpArgCount qpOpt + 1) (st.freshN + 1),
      st.freshN ≤ n2.nid → ∀ o ∈ n2.outputs, st.freshV ≤ o
    intro n2 hn2 hge
    rw [insertDeQuantForAllUse_eq] at hn2
    have hold : ∀ n ∈ qpG2 st target qpOpt, n.nid < st.freshN →
        ∀ o ∈ n.outputs, o < st.freshV := by
      intro n hn hlt o ho
      unfold qpG2 at hn
      rcases List.mem_append.mp hn with hr | hs
      · exact houtsR n hr o ho
      · exfalso
        rw [List.mem_singleton.mp hs] at hlt
        have h2 : st.freshN < st.freshN := hlt
        omega
    rcases idq_fresh_outs _ _ _ _ _ st.freshN st.freshV hpid hold (by omega) (by omega)
        hn2 hge with hfresh | ⟨n1, hn1, e1, _, e3⟩
    · exact hfresh
    · intro o ho
      unfold qpG2 at hn1
      rcases List.mem_append.mp hn1 with hr | hs
      · exfalso
        obtain ⟨n0, hn0, rfl⟩ := rawu_image.mp hr
        have hb := (hG.1 n0 hn0).1
        have e1b : n0.nid = n2.nid := e1
        omega
      · have hs2 := List.mem_singleton.mp hs
        rw [hs2] at e3
        simp only [qpQN] at e3
        rw [← e3] at ho
        have hx : o = st.freshV + qpArgCount qpOpt := List.mem_singleton.mp ho
        omega

/-- Effect of one `propagateQParams` call: one new wrap entry, which is the
original output in the tensor case and the fresh `scalar_tensor` output in
the scalar case (then only `scalar_tensor` nodes ever output it), plus the
bookkeeping facts of the core. -/
theorem propagateQParamsE_spec (st : PropState) (oo : Nat) (ins : List Nat)
    (isScalar : Bool) (qpOpt : Option (CQScheme × QParamVector))
    (st2 : PropState) (ids : List Nat)
    (hG : GWF st.g st.freshV st.freshN)
    (hoo : oo < st.freshV)
    (h : propagateQParamsE st oo ins isScalar qpOpt = some (st2, ids)) :
    ∃ t, st2.wraps = st.wraps ++ [t] ∧ t < st2.freshV ∧
    (isScalar = false → t = oo) ∧
    (isScalar = true → st.freshV ≤ t ∧
      ∀ n2 ∈ st2.g, t ∈ n2.outputs → n2.kind = NKind.aten "scalar_tensor") ∧
    st.freshV ≤ st2.freshV ∧ st.freshN ≤ st2.freshN ∧
    GWF st2.g st2.freshV st2.freshN ∧
    (∀ a ∈ ids, st.freshN ≤ a ∧ a < st2.freshN) ∧
    ids.Nodup ∧
    (∀ n2 ∈ st2.g, n2.nid < st.freshN →
      ∃ n ∈ st.g, n.nid = n2.nid ∧ n.kind = n2.kind ∧ n.outputs = n2.outputs) ∧
    (∀ n2 ∈ st2.g, st.freshN ≤ n2.nid → ∀ o ∈ n2.outputs, st.freshV ≤ o) := by
  cases isScalar with
  | false =>
      simp only [propagateQParamsE, Bool.false_eq_true, if_false] at h
      obtain ⟨s1, s2, s3, s4, s5, s6, s7, s8⟩ :=
        propQPCore_spec st oo ins qpOpt st2 ids hG hoo h
      exact ⟨oo, s1, by omega, fun _ => rfl,
        fun hx => absurd hx Bool.false_ne_true, s2, s3, s4, s5, s6, s7, s8⟩
  | true =>
      simp only [propagateQParamsE, if_true] at h
      split at h
      next st2x idsx heq =>
        obtain ⟨h1, h2⟩ := Prod.mk.inj (Option.some.inj h)
        subst h1
        subst h2
        have houtsR2 : ∀ n ∈ replaceAllUsesWith st.g oo st.freshV,
            ∀ o ∈ n.outputs, o < st.freshV := by
          intro n hn o ho
          obtain ⟨n0, hn0, rfl⟩ := rawu_image.mp hn
          exact (hG.1 n0 hn0).2.2.1 o ho
        have hG1 : GWF (replaceAllUsesWith st.g oo st.freshV ++
            [{ nid := st.freshN, kind := NKind.aten "scalar_tensor", attrName := "",
               inputs := [oo], outputs := [st.freshV] }])
            (st.freshV + 1) (st.freshN + 1) := by
          refine GWF_append_node st.freshV
            (GWF_rawu (by omega) (GWF_mono hG (by omega) (by omega))) houtsR2
            ?_ ?_ ?_ ?_ ?_
          · show st.freshN < st.freshN + 1
            omega
          · intro w hw
            have hw2 : w = oo := List.mem_singleton.mp hw
            show w < st.freshV + 1
            omega
          · intro w hw
            have hw2 : w = st.freshV := List.mem_singleton.mp hw
            show w < st.freshV + 1
            omega
          · exact List.nodup_singleton _
          · intro w hw
            have hw2 : w = st.freshV := List.mem_singleton.mp hw
            omega
        obtain ⟨s1, s2, s3, s4, s5, s6, s7, s8⟩ :=
          propQPCore_spec _ st.freshV ins qpOpt st2x idsx hG1
            (by show st.freshV < st.freshV + 1; omega) heq
        have s1b : st2x.wraps = st.wraps ++ [st.freshV] := s1
        have s2b : st.freshV + 1 ≤ st2x.freshV := s2
        have s3b : st.freshN + 1 ≤ st2x.freshN := s3
        have s4b : GWF st2x.g st2x.freshV st2x.freshN := s4
        have s5b : ∀ a ∈ idsx, st.freshN + 1 ≤ a ∧ a < st2x.freshN := s5
        have s7b : ∀ n2 ∈ st2x.g, n2.nid < st.freshN + 1 →
            ∃ n1 ∈ replaceAllUsesWith st.g oo st.freshV ++
              [{ nid := st.freshN, kind := NKind.aten "scalar_tensor",
                 attrName := "", inputs := [oo], outputs := [st.freshV] }],
              n1.nid = n2.nid ∧ n1.kind = n2.kind ∧ n1.outputs = n2.outputs := s7
        have s8b : ∀ n2 ∈ st2x.g, st.freshN + 1 ≤ n2.nid →
            ∀ o ∈ n2.outputs, st.freshV + 1 ≤ o := s8
        refine ⟨st.freshV, s1b, by omega, fun hx => absurd hx.symm Bool.false_ne_true,
          fun _ => ⟨Nat.le_refl _, ?_⟩, by omega, by omega, s4b, ?_, ?_, ?_, ?_⟩
        · -- only scalar_tensor nodes output the wrapped fresh value
          intro n2 hn2 ho
          by_cases hlt : n2.nid < st.freshN + 1
          · obtain ⟨n1, hn1, e1, e2, e3⟩ := s7b n2 hn2 hlt
            rcases List.mem_append.mp hn1 with hr | hs
            · exfalso
              obtain ⟨n0, hn0, rfl⟩ := rawu_image.mp hr
              have e3b : n0.outputs = n2.outputs := e3
              rw [← e3b] at ho
              have := (hG.1 n0 hn0).2.2.1 _ ho
              omega
            · have hs2 := List.mem_singleton.mp hs
              rw [hs2] at e2
              exact e2.symm
          · exfalso
            have := s8b n2 hn2 (by omega) _ ho
            omega
        · intro a ha
          rcases List.mem_cons.mp ha with rfl | ha2
          · constructor
            · exact Nat.le_refl _
            · omega
          · have := s5b a ha2
            omega
        · refine List.nodup_cons.mpr ⟨?_, s6⟩
          intro hmem
          have := s5b _ hmem
          omega
        · intro n2 hn2 hlt
          obtain ⟨n1, hn1, e1, e2, e3⟩ := s7b n2 hn2 (by omega)
          rcases List.mem_append.mp hn1 with hr | hs
          · obtain ⟨n0, hn0, rfl⟩ := rawu_image.mp hr
            exact ⟨n0, hn0, e1, e2, e3⟩
          · exfalso
            have hs2 := List.mem_singleton.mp hs
            rw [hs2] at e1
            have e1b : st.freshN = n2.nid := e1
            omega
        · intro n2 hn2 hge o ho
          by_cases hlt : n2.nid < st.freshN + 1
          · obtain ⟨n1, hn1, e1, e2, e3⟩ := s7b n2 hn2 hlt
            rcases List.mem_append.mp hn1 with hr | hs
            · exfalso
              obtain ⟨n0, hn0, rfl⟩ := rawu_image.mp hr
              have hb := (hG.1 n0 hn0).1
              have e1b : n0.nid = n2.nid := e1
              omega
            · have hs2 := List.mem_singleton.mp hs
              rw [hs2] at e3
              have e3b : [st.freshV] = n2.outputs := e3
              rw [← e3b] at ho
              have hx : o = st.freshV := List.mem_singleton.mp ho
              omega
          · have := s8b n2 hn2 (by omega) o ho
            omega
      next heq => simp at h

/-- The evolution contract composes. -/
theorem GTrans_comp {stA stB stC : PropState} (hAB : GTrans stA stB)
    (hBC : GTrans stB stC) (hfv : stA.freshV ≤ stB.freshV)
    (hfn : stA.freshN ≤ stB.freshN) : GTrans stA stC := by
  constructor
  · intro n2 hn2 hlt
    obtain ⟨n1, hn1, e1, e2, e3⟩ := hBC.1 n2 hn2 (by omega)
    obtain ⟨n0, hn0, d1, d2, d3⟩ := hAB.1 n1 hn1 (by rw [e1]; exact hlt)
    exact ⟨n0, hn0, d1.trans e1, d2.trans e2, d3.trans e3⟩
  · intro n2 hn2 hge o ho
    by_cases hB : stB.freshN ≤ n2.nid
    · have := hBC.2 n2 hn2 hB o ho
      omega
    · obtain ⟨n1, hn1, e1, _, e3⟩ := hBC.1 n2 hn2 (by omega)
      have := hAB.2 n1 hn1 (by rw [e1]; omega) o (by rw [e3]; exact ho)
      omega

/-- The evolution contract holds trivially on an unchanged state whose node
ids are in bounds. -/
theorem GTrans_refl (st : PropState) (h : ∀ n ∈ st.g, n.nid < st.freshN) :
    GTrans st st :=
  ⟨fun n2 hn2 _ => ⟨n2, hn2, rfl, rfl, rfl⟩,
   fun n2 hn2 hge => absurd hge (by have := h n2 hn2; omega)⟩

/-- Only-`scalar_tensor`-outputs characterizations persist along the
evolution contract. -/
theorem scalar_char_lift {w : Nat} {stA stB : PropState}
    (hw : w < stA.freshV)
    (hchar : ∀ n2 ∈ stA.g, w ∈ n2.outputs → n2.kind = NKind.aten "scalar_tensor")
    (hT : GTrans stA stB) :
    ∀ n2 ∈ stB.g, w ∈ n2.outputs → n2.kind = NKind.aten "scalar_tensor" := by
  intro n2 hn2 ho
  by_cases hlt : n2.nid < stA.freshN
  · obtain ⟨n1, hn1, _, e2, e3⟩ := hT.1 n2 hn2 hlt
    rw [← e2]
    exact hchar n1 hn1 (by rw [e3]; exact ho)
  · exfalso
    have := hT.2 n2 hn2 (by omega) w ho
    omega

/-- Concatenating id lists drawn from successive fresh ranges. -/
theorem nodup_append_ranges {l1 l2 : List Nat} {a b c : Nat}
    (h1 : ∀ x ∈ l1, a ≤ x ∧ x < b) (h2 : ∀ x ∈ l2, b ≤ x ∧ x < c)
    (hd1 : l1.Nodup) (hd2 : l2.Nodup) (hbc : b ≤ c) (hab : a ≤ b) :
    (∀ x ∈ l1 ++ l2, a ≤ x ∧ x < c) ∧ (l1 ++ l2).Nodup := by
  constructor
  · intro x hx
    rcases List.mem_append.mp hx with hx2 | hx2
    · have := h1 x hx2
      omega
    · have := h2 x hx2
      omega
  · rw [List.nodup_append]
    refine ⟨hd1, hd2, ?_⟩
    intro x hx1 hx2
    have q1 := h1 x hx1
    have q2 := h2 x hx2
    omega

/-- Effect of the guarded per-output loop: the state evolves by the
contract, the counters grow, the wrap audit stays duplicate-free and
fresh-bounded, every new wrap entry is either one of the processed outputs
or a value output only by `scalar_tensor` conversion nodes, and the
returned node ids are fresh and distinct. -/
theorem propOutputsLoop_spec (cfg : EngCfg) (nd : GNode) (useClamp : Bool)
    (qpOpt : Option (CQScheme × QParamVector)) :
    ∀ (os : List Nat) (st st5 : PropState) (ids : List Nat),
    propOutputsLoop cfg nd useClamp qpOpt os st = some (st5, ids) →
    GWF st.g st.freshV st.freshN →
    0 < st.freshV →
    st.wraps.Nodup →
    (∀ w ∈ st.wraps, w < st.freshV) →
    os.Nodup →
    (∀ o ∈ os, o < st.freshV) →
    (∀ o ∈ os, o ∉ st.wraps) →
    (useClamp = true →
      nd.inputs.getD 1 0 < st.freshV ∧ nd.inputs.getD 2 0 < st.freshV) →
    GWF st5.g st5.freshV st5.freshN ∧
    st.freshV ≤ st5.freshV ∧ st.freshN ≤ st5.freshN ∧
    0 < st5.freshV ∧
    st5.wraps.Nodup ∧
    (∀ w ∈ st5.wraps, w < st5.freshV) ∧
    (∀ w ∈ st5.wraps, w ∈ st.wraps ∨ w ∈ os ∨
      (∀ n2 ∈ st5.g, w ∈ n2.outputs → n2.kind = NKind.aten "scalar_tensor")) ∧
    (∀ a ∈ ids, st.freshN ≤ a ∧ a < st5.freshN) ∧
    ids.Nodup ∧
    GTrans st st5 := by
  intro os
  induction os with
  | nil =>
      intro st st5 ids h hG hpos hWnd hWb hosNd hosB hosW hcl
      simp only [propOutputsLoop] at h
      obtain ⟨h1, h2⟩ := Prod.mk.inj (Option.some.inj h)
      subst h1
      subst h2
      refine ⟨hG, Nat.le_refl _, Nat.le_refl _, hpos, hWnd, hWb,
        fun w hw => Or.inl hw, ?_, List.nodup_nil,
        GTrans_refl st (fun n hn => (hG.1 n hn).1)⟩
      intro a ha
      simp at ha
  | cons o rest ih =>
      intro st st5 ids h hG hpos hWnd hWb hosNd hosB hosW hcl
      have hrestNd : rest.Nodup := (List.nodup_cons.mp hosNd).2
      have honotrest : o ∉ rest := (List.nodup_cons.mp hosNd).1
      simp only [propOutputsLoop] at h
      split at h
      · -- output already quantized: skip
        obtain ⟨g1, g2, g3, g4, g5, g6, g7, g8, g9, g10⟩ :=
          ih st st5 ids h hG hpos hWnd hWb hrestNd
            (fun o2 ho2 => hosB o2 (List.mem_cons_of_mem _ ho2))
            (fun o2 ho2 => hosW o2 (List.mem_cons_of_mem _ ho2)) hcl
        refine ⟨g1, g2, g3, g4, g5, g6, ?_, g8, g9, g10⟩
        intro w hw
        rcases g7 w hw with h1 | h2 | h3
        · exact Or.inl h1
        · exact Or.inr (Or.inl (List.mem_cons_of_mem _ h2))
        · exact Or.inr (Or.inr h3)
      · -- output not yet quantized
        split at h
        next hdeq =>
          -- no dequantized inputs: skip
          obtain ⟨g1, g2, g3, g4, g5, g6, g7, g8, g9, g10⟩ :=
            ih st st5 ids h hG hpos hWnd hWb hrestNd
              (fun o2 ho2 => hosB o2 (List.mem_cons_of_mem _ ho2))
              (fun o2 ho2 => hosW o2 (List.mem_cons_of_mem _ ho2)) hcl
          refine ⟨g1, g2, g3, g4, g5, g6, ?_, g8, g9, g10⟩
          intro w hw
          rcases g7 w hw with h1 | h2 | h3
          · exact Or.inl h1
          · exact Or.inr (Or.inl (List.mem_cons_of_mem _ h2))
          · exact Or.inr (Or.inr h3)
        next ins hdeq =>
          split at h
          next heq1 => simp at h
          next st2 ids1 heq1 =>
            obtain ⟨t1, a1, a2, a3, a4, a5, a6, a7, a8, a9, a10, a11⟩ :=
              propagateQParamsE_spec st o ins false qpOpt st2 ids1 hG
                (hosB o (List.mem_cons_self o rest)) heq1
            have ht1 : t1 = o := a3 rfl
            have T1 : GTrans st st2 := ⟨a10, a11⟩
            have hW2nd : st2.wraps.Nodup := by
              rw [a1]
              refine List.nodup_append.mpr ⟨hWnd, List.nodup_singleton _, ?_⟩
              intro x hx1 hx2
              have hx2b : x = t1 := List.mem_singleton.mp hx2
              subst hx2b
              rw [ht1] at hx1
              exact hosW o (List.mem_cons_self o rest) hx1
            have hW2b : ∀ w ∈ st2.wraps, w < st2.freshV := by
              intro w hw
              rw [a1] at hw
              rcases List.mem_append.mp hw with h1 | h2
              · have := hWb w h1
                omega
              · have hq : w = t1 := List.mem_singleton.mp h2
                subst hq
                exact a2
            split at h
            next hclT =>
              -- clamp case: two further scalar propagations
              split at h
              next heq2 => simp at h
              next st3 ids2 heq2 =>
                have hcl1 := hcl hclT
                obtain ⟨t2, b1, b2, b3, b4, b5, b6, b7, b8, b9, b10, b11⟩ :=
                  propagateQParamsE_spec st2 (nd.inputs.getD 1 0) ins true none
                    st3 ids2 a7 (by omega) heq2
                have T2 : GTrans st2 st3 := ⟨b10, b11⟩
                have hW3nd : st3.wraps.Nodup := by
                  rw [b1]
                  refine List.nodup_append.mpr ⟨hW2nd, List.nodup_singleton _, ?_⟩
                  intro x hx1 hx2
                  have hx2b : x = t2 := List.mem_singleton.mp hx2
                  rw [hx2b] at hx1
                  have q1 := hW2b t2 hx1
                  have q2 := (b4 rfl).1
                  omega
                have hW3b : ∀ w ∈ st3.wraps, w < st3.freshV := by
                  intro w hw
                  rw [b1] at hw
                  rcases List.mem_append.mp hw with h1 | h2
                  · have := hW2b w h1
                    omega
                  · have hq : w = t2 := List.mem_singleton.mp h2
                    subst hq
                    exact b2
                split at h
                next heq3 => simp at h
                next st4 ids3 heq3 =>
                  obtain ⟨t3, c1, c2, c3, c4, c5, c6, c7, c8, c9, c10, c11⟩ :=
                    propagateQParamsE_spec st3 (nd.inputs.getD 2 0) ins true none
                      st4 ids3 b7 (by omega) heq3
                  have T3 : GTrans st3 st4 := ⟨c10, c11⟩
                  have hW4nd : st4.wraps.Nodup := by
                    rw [c1]
                    refine List.nodup_append.mpr ⟨hW3nd, List.nodup_singleton _, ?_⟩
                    intro x hx1 hx2
                    have hx2b : x = t3 := List.mem_singleton.mp hx2
                    rw [hx2b] at hx1
                    have q1 := hW3b t3 hx1
                    have q2 := (c4 rfl).1
                    omega
                  have hW4b : ∀ w ∈ st4.wraps, w < st4.freshV := by
                    intro w hw
                    rw [c1] at hw
                    rcases List.mem_append.mp hw with h1 | h2
                    · have := hW3b w h1
                      omega
                    · have hq : w = t3 := List.mem_singleton.mp h2
                      subst hq
                      exact c2
                  split at h
                  next heq4 => simp at h
                  next st5x ids4 heq4 =>
                    obtain ⟨h1, h2⟩ := Prod.mk.inj (Option.some.inj h)
                    subst h1
                    subst h2
                    obtain ⟨g1, g2, g3, g4, g5, g6, g7, g8, g9, g10⟩ :=
                      ih st4 st5x ids4 heq4 c7 (by omega) hW4nd hW4b hrestNd
                        (by
                          intro o2 ho2
                          have := hosB o2 (List.mem_cons_of_mem _ ho2)
                          omega)
                        (by
                          intro o2 ho2 hmem
                          rw [c1, b1, a1] at hmem
                          have ho2b := hosB o2 (List.mem_cons_of_mem _ ho2)
                          rcases List.mem_append.mp hmem with h12 | h3
                          · rcases List.mem_append.mp h12 with h01 | h2x
                            · rcases List.mem_append.mp h01 with h0 | h1x
                              · exact hosW o2 (List.mem_cons_of_mem _ ho2) h0
                              · have hq : o2 = t1 := List.mem_singleton.mp h1x
                                rw [ht1] at hq
                                rw [hq] at ho2
                                exact honotrest ho2
                            · have hq : o2 = t2 := List.mem_singleton.mp h2x
                              have := (b4 rfl).1
                              omega
                          · have hq : o2 = t3 := List.mem_singleton.mp h3
                            have := (c4 rfl).1
                            omega)
                        (by
                          intro hx
                          obtain ⟨q1, q2⟩ := hcl hx
                          constructor <;> omega)
                    have GT35 : GTrans st3 st5x := GTrans_comp T3 g10 c5 c6
                    have GT25 : GTrans st2 st5x := GTrans_comp T2 GT35 b5 b6
                    have GT05 : GTrans st st5x := GTrans_comp T1 GT25 a5 a6
                    have r12 := nodup_append_ranges a8 b8 a9 b9 b6 a6
                    have r123 :=
                      nodup_append_ranges r12.1 c8 r12.2 c9 c6 (by omega)
                    have r1234 :=
                      nodup_append_ranges r123.1 g8 r123.2 g9 g3 (by omega)
                    refine ⟨g1, by omega, by omega, g4, g5, g6, ?_,
                      r1234.1, r1234.2, GT05⟩
                    intro w hw
                    rcases g7 w hw with hw4 | hwrest | hchar
                    · rw [c1, b1, a1] at hw4
                      rcases List.mem_append.mp hw4 with h12 | h3
                      · rcases List.mem_append.mp h12 with h01 | h2x
                        · rcases List.mem_append.mp h01 with h0 | h1x
                          · exact Or.inl h0
                          · have hq : w = t1 := List.mem_singleton.mp h1x
                            rw [hq, ht1]
                            exact Or.inr (Or.inl (List.mem_cons_self o rest))
                        · have hq : w = t2 := List.mem_singleton.mp h2x
                          subst hq
                          exact Or.inr (Or.inr
                            (scalar_char_lift b2 (b4 rfl).2 GT35))
                      · have hq : w = t3 := List.mem_singleton.mp h3
                        subst hq
                        exact Or.inr (Or.inr
                          (scalar_char_lift c2 (c4 rfl).2 g10))
                    · exact Or.inr (Or.inl (List.mem_cons_of_mem _ hwrest))
                    · exact Or.inr (Or.inr hchar)
            next hclF =>
              -- non-clamp case: recurse directly
              split at h
              next heq4 => simp at h
              next st5x ids4 heq4 =>
                obtain ⟨h1, h2⟩ := Prod.mk.inj (Option.some.inj h)
                subst h1
                subst h2
                obtain ⟨g1, g2, g3, g4, g5, g6, g7, g8, g9, g10⟩ :=
                  ih st2 st5x ids4 heq4 a7 (by omega) hW2nd hW2b hrestNd
                    (by
                      intro o2 ho2
                      have := hosB o2 (List.mem_cons_of_mem _ ho2)
                      omega)
                    (by
                      intro o2 ho2 hmem
                      rw [a1] at hmem
                      rcases List.mem_append.mp hmem with h0 | h1x
                      · exact hosW o2 (List.mem_cons_of_mem _ ho2) h0
                      · have hq : o2 = t1 := List.mem_singleton.mp h1x
                        rw [ht1] at hq
                        rw [hq] at ho2
                        exact honotrest ho2)
                    (by
                      intro hx
                      obtain ⟨q1, q2⟩ := hcl hx
                      constructor <;> omega)
                have GT05 : GTrans st st5x := GTrans_comp T1 g10 a5 a6
                have r14 := nodup_append_ranges a8 g8 a9 g9 g3 a6
                refine ⟨g1, by omega, by omega, g4, g5, g6, ?_,
                  r14.1, r14.2, GT05⟩
                intro w hw
                rcases g7 w hw with hw2 | hwrest | hchar
                · rw [a1] at hw2
                  rcases List.mem_append.mp hw2 with h0 | h1x
                  · exact Or.inl h0
                  · have hq : w = t1 := List.mem_singleton.mp h1x
                    rw [hq, ht1]
                    exact Or.inr (Or.inl (List.mem_cons_self o rest))
                · exact Or.inr (Or.inl (List.mem_cons_of_mem _ hwrest))
                · exact Or.inr (Or.inr hchar)

/-- `List.getD` stays below a bound covering the elements and the
default. -/
theorem getD_lt {fv : Nat} : ∀ (l : List Nat) (i d : Nat),
    (∀ w ∈ l, w < fv) → d < fv → l.getD i d < fv := by
  intro l
  induction l with
  | nil =>
      intro i d _ hd
      simpa using hd
  | cons x xs ih =>
      intro i d hl hd
      cases i with
      | zero =>
          rw [List.getD_cons_zero]
          exact hl x (List.mem_cons_self x xs)
      | succ j =>
          rw [List.getD_cons_succ]
          exact ih j d (fun w hw => hl w (List.mem_cons_of_mem _ hw)) hd

/-- The outputs collected by the third-branch collection step come from the
scanned output list. -/
theorem collectB3_sub (cfg : EngCfg) (g : IRGraph) (qvs : List Nat) :
    ∀ (os : List Nat), ∀ o2 ∈ (collectB3 cfg g qvs os).2, o2 ∈ os := by
  intro os
  induction os with
  | nil =>
      intro o2 h
      simp [collectB3] at h
  | cons o rest ih =>
      intro o2 h
      simp only [collectB3] at h
      split at h
      · exact List.mem_cons_of_mem _ (ih o2 h)
      · split at h
        next ins heq =>
          have hb : o2 ∈ o :: (collectB3 cfg g qvs rest).2 := h
          rcases List.mem_cons.mp hb with rfl | h2
          · exact List.mem_cons_self _ _
          · exact List.mem_cons_of_mem _ (ih o2 h2)
        next heq => exact List.mem_cons_of_mem _ (ih o2 h)

/-- `removeDequantizeFromInputs` preserves well-formedness and only
rewires inputs and drops nodes: every surviving node keeps the kind and
outputs it had before. -/
theorem removeDequants_spec (fv fn : Nat) :
    ∀ (dvs : List Nat) (g g2 : IRGraph),
    removeDequants dvs g = some g2 →
    GWF g fv fn →
    0 < fv →
    GWF g2 fv fn ∧
    (∀ n2 ∈ g2, ∃ n1 ∈ g, n1.nid = n2.nid ∧ n1.kind = n2.kind ∧
      n1.outputs = n2.outputs) := by
  intro dvs
  induction dvs with
  | nil =>
      intro g g2 h hG hpos
      simp only [removeDequants] at h
      rw [← Option.some.inj h]
      exact ⟨hG, fun n2 hn2 => ⟨n2, hn2, rfl, rfl, rfl⟩⟩
  | cons dv rest ih =>
      intro g g2 h hG hpos
      simp only [removeDequants] at h
      split at h
      case isFalse => simp at h
      case isTrue huse =>
      split at h
      next dqn heq =>
        have heq2 : g.find? (fun n => n.outputs.contains dv) = some dqn := heq
        have hdqn : dqn ∈ g := List.mem_of_find?_eq_some heq2
        have hX : dqn.inputs.getD 0 0 < fv :=
          getD_lt dqn.inputs 0 0 ((hG.1 dqn hdqn).2.1) hpos
        have hG1 : GWF (destroyNode
            (replaceAllUsesWith g dv (dqn.inputs.getD 0 0)) dqn.nid) fv fn :=
          GWF_subset (fun n hn => destroy_mem hn) (GWF_rawu hX hG)
        obtain ⟨r1, r2⟩ := ih _ g2 h hG1 hpos
        refine ⟨r1, ?_⟩
        intro n2 hn2
        obtain ⟨n1, hn1, e1, e2, e3⟩ := r2 n2 hn2
        have hn1b := destroy_mem hn1
        obtain ⟨n0, hn0, rfl⟩ := rawu_image.mp hn1b
        exact ⟨n0, hn0, e1, e2, e3⟩
      next heq => simp at h

/-- Step 3 of the third branch: fresh dequantizes for every use of each
collected output preserve well-formedness, leave the wrap audit untouched,
and create only fresh, distinct node ids. -/
theorem insertDeqForOutputs_spec :
    ∀ (os : List Nat) (st st2 : PropState) (ids : List Nat),
    insertDeqForOutputs os st = (st2, ids) →
    GWF st.g st.freshV st.freshN →
    (∀ o ∈ os, o < st.freshV) →
    GWF st2.g st2.freshV st2.freshN ∧
    st.freshV ≤ st2.freshV ∧ st.freshN ≤ st2.freshN ∧
    st2.wraps = st.wraps ∧
    (∀ a ∈ ids, st.freshN ≤ a ∧ a < st2.freshN) ∧
    ids.Nodup ∧
    GTrans st st2 := by
  intro os
  induction os with
  | nil =>
      intro st st2 ids h hG hos
      simp only [insertDeqForOutputs] at h
      obtain ⟨h1, h2⟩ := Prod.mk.inj h
      rw [← h1, ← h2]
      refine ⟨hG, Nat.le_refl _, Nat.le_refl _, rfl, ?_, List.nodup_nil,
        GTrans_refl st (fun n hn => (hG.1 n hn).1)⟩
      intro a ha
      simp at ha
  | cons o rest ih =>
      intro st st2 ids h hG hos
      simp only [insertDeqForOutputs] at h
      have ho : o < st.freshV := hos o (List.mem_cons_self o rest)
      have hK : ∀ p ∈ (usesOf st.g o).enum, p.2.1 < st.freshN := by
        intro p hp
        obtain ⟨n, hn, hnid, _⟩ := mem_usesOf.mp (snd_mem_of_mem_enum hp)
        have hb := (hG.1 n hn).1
        rw [← hnid]
        omega
      have hGmid : GWF (insertDeQuantForAllUse st.g o o st.freshV st.freshN)
          (st.freshV + (usesOf st.g o).length)
          (st.freshN + (usesOf st.g o).length) := by
        rw [insertDeQuantForAllUse_eq]
        refine GWF_idq o st.freshV st.freshN (usesOf st.g o).enum st.g st.freshV
          (st.freshV + (usesOf st.g o).length)
          (st.freshN + (usesOf st.g o).length)
          (GWF_mono hG (by omega) (by omega)) ?_ ?_ ?_ (by omega)
        · intro n hn o2 ho2
          exact (hG.1 n hn).2.2.1 o2 ho2
        · intro n hn
          exact (hG.1 n hn).1
        · intro p hp
          have hi := List.fst_lt_of_mem_enum hp
          exact ⟨hK p hp, by omega, by omega, by omega⟩
      rcases hR : insertDeqForOutputs rest
          { st with g := insertDeQuantForAllUse st.g o o st.freshV st.freshN,
                    freshV := st.freshV + (usesOf st.g o).length,
                    freshN := st.freshN + (usesOf st.g o).length } with ⟨stR, idsR⟩
      rw [hR] at h
      obtain ⟨h1, h2⟩ := Prod.mk.inj h
      have h1b : stR = st2 := h1
      have h2b : (List.range (usesOf st.g o).length).map
          (fun i => st.freshN + i) ++ idsR = ids := h2
      subst h1b
      subst h2b
      obtain ⟨r1, r2, r3, r4, r5, r6, r7⟩ :=
        ih _ stR idsR hR hGmid
          (by
            intro o2 ho2
            have := hos o2 (List.mem_cons_of_mem _ ho2)
            show o2 < st.freshV + (usesOf st.g o).length
            omega)
      have r2b : st.freshV + (usesOf st.g o).length ≤ stR.freshV := r2
      have r3b : st.freshN + (usesOf st.g o).length ≤ stR.freshN := r3
      have r4b : stR.wraps = st.wraps := r4
      have r5b : ∀ a ∈ idsR,
          st.freshN + (usesOf st.g o).length ≤ a ∧ a < stR.freshN := r5
      have hmapb : ∀ x ∈ (List.range (usesOf st.g o).length).map
          (fun i => st.freshN + i),
          st.freshN ≤ x ∧ x < st.freshN + (usesOf st.g o).length := by
        intro x hx
        obtain ⟨i, hi, rfl⟩ := List.mem_map.mp hx
        have := List.mem_range.mp hi
        constructor
        · show st.freshN ≤ st.freshN + i
          omega
        · show st.freshN + i < st.freshN + (usesOf st.g o).length
          omega
      have hmapnd : ((List.range (usesOf st.g o).length).map
          (fun i => st.freshN + i)).Nodup := by
        refine List.Nodup.map ?_ (List.nodup_range _)
        intro a b hab
        have hb : st.freshN + a = st.freshN + b := hab
        omega
      have rall := nodup_append_ranges hmapb r5b hmapnd r6 r3b (by omega)
      have T0 : GTrans st
          { st with g := insertDeQuantForAllUse st.g o o st.freshV st.freshN,
                    freshV := st.freshV + (usesOf st.g o).length,
                    freshN := st.freshN + (usesOf st.g o).length } := by
        constructor
        · intro n2 hn2 hlt
          have hn2b : n2 ∈ insertDeQuantForAllUse st.g o o st.freshV st.freshN :=
            hn2
          rw [insertDeQuantForAllUse_eq] at hn2b
          exact idq_transfer o st.freshV st.freshN (usesOf st.g o).enum st.g
            hK hn2b hlt
        · intro n2 hn2 hge o2 ho2
          have hn2b : n2 ∈ insertDeQuantForAllUse st.g o o st.freshV st.freshN :=
            hn2
          rw [insertDeQuantForAllUse_eq] at hn2b
          rcases idq_fresh_outs o st.freshV st.freshN (usesOf st.g o).enum st.g
              st.freshN st.freshV hK
              (fun n hn _ o3 ho3 => (hG.1 n hn).2.2.1 o3 ho3)
              (Nat.le_refl _) (Nat.le_refl _) hn2b hge with hfresh | hold2
          · exact hfresh o2 ho2
          · exfalso
            obtain ⟨n1, hn1, e1, _, _⟩ := hold2
            have hb := (hG.1 n1 hn1).1
            have hgeb : st.freshN ≤ n2.nid := hge
            omega
      have GT : GTrans st stR :=
        GTrans_comp T0 r7
          (by
            show st.freshV ≤ st.freshV + (usesOf st.g o).length
            omega)
          (by
            show st.freshN ≤ st.freshN + (usesOf st.g o).length
            omega)
      exact ⟨r1, by omega, by omega, r4b, rall.1, rall.2, GT⟩

/-- Effect of one engine iteration on a worklist node: the state evolves by
the contract, the wrap audit stays duplicate-free and fresh-bounded, every
new wrap entry is an output of the visited node or a value output only by
`scalar_tensor` conversion nodes, and the ids handed back to the worklist
are fresh and distinct. -/
theorem propStep_spec (cfg : EngCfg) (st : PropState) (nid : Nat)
    (st2 : PropState) (newIds : List Nat)
    (hcfg : ∀ n : GNode, n.kind = NKind.aten "scalar_tensor" →
      cfg.isSIGV n = false ∧ cfg.fixedQP n = none)
    (h : propStep cfg st nid = some (st2, newIds))
    (hG : GWF st.g st.freshV st.freshN)
    (hpos : 0 < st.freshV)
    (hWnd : st.wraps.Nodup)
    (hWb : ∀ w ∈ st.wraps, w < st.freshV)
    (hguard : ∀ w ∈ st.wraps, ∀ n ∈ st.g, n.nid = nid →
      n.kind ≠ NKind.aten "scalar_tensor" → w ∉ n.outputs) :
    GWF st2.g st2.freshV st2.freshN ∧
    st.freshV ≤ st2.freshV ∧ st.freshN ≤ st2.freshN ∧
    0 < st2.freshV ∧
    st2.wraps.Nodup ∧
    (∀ w ∈ st2.wraps, w < st2.freshV) ∧
    (∀ w ∈ st2.wraps, w ∈ st.wraps ∨
      (∃ n ∈ st.g, n.nid = nid ∧ w ∈ n.outputs) ∨
      (∀ n2 ∈ st2.g, w ∈ n2.outputs → n2.kind = NKind.aten "scalar_tensor")) ∧
    (∀ a ∈ newIds, st.freshN ≤ a ∧ a < st2.freshN) ∧
    newIds.Nodup ∧
    GTrans st st2 := by
  simp only [propStep] at h
  split at h
  next heqn =>
    obtain ⟨h1, h2⟩ := Prod.mk.inj (Option.some.inj h)
    subst h1
    subst h2
    refine ⟨hG, Nat.le_refl _, Nat.le_refl _, hpos, hWnd, hWb,
      fun w hw => Or.inl hw, ?_, List.nodup_nil,
      GTrans_refl st (fun n hn => (hG.1 n hn).1)⟩
    intro a ha
    simp at ha
  next n heqn =>
    have heqn2 : st.g.find? (fun m => m.nid = nid) = some n := heqn
    have hnmem : n ∈ st.g := List.mem_of_find?_eq_some heqn2
    have hnid : n.nid = nid := by simpa using List.find?_some heqn2
    split at h
    next hif =>
      obtain ⟨h1, h2⟩ := Prod.mk.inj (Option.some.inj h)
      subst h1
      subst h2
      refine ⟨hG, Nat.le_refl _, Nat.le_refl _, hpos, hWnd, hWb,
        fun w hw => Or.inl hw, ?_, List.nodup_nil,
        GTrans_refl st (fun n2 hn2 => (hG.1 n2 hn2).1)⟩
      intro a ha
      simp at ha
    next hif =>
      split at h
      next hsigv =>
        have hkind : n.kind ≠ NKind.aten "scalar_tensor" := by
          intro hk
          have hz := (hcfg n hk).1
          rw [hz] at hsigv
          exact Bool.false_ne_true hsigv
        obtain ⟨l1, l2, l3, l4, l5, l6, l7, l8, l9, l10⟩ :=
          propOutputsLoop_spec cfg n (cfg.isClampN n) none n.outputs st st2
            newIds h hG hpos hWnd hWb ((hG.1 n hnmem).2.2.2)
            ((hG.1 n hnmem).2.2.1)
            (fun o ho hw => hguard o hw n hnmem hnid hkind ho)
            (by
              intro _
              exact ⟨getD_lt n.inputs 1 0 ((hG.1 n hnmem).2.1) hpos,
                getD_lt n.inputs 2 0 ((hG.1 n hnmem).2.1) hpos⟩)
        refine ⟨l1, l2, l3, l4, l5, l6, ?_, l8, l9, l10⟩
        intro w hw
        rcases l7 w hw with h1 | h2 | h3
        · exact Or.inl h1
        · exact Or.inr (Or.inl ⟨n, hnmem, hnid, h2⟩)
        · exact Or.inr (Or.inr h3)
      next hsigv =>
        split at h
        next qp hfx =>
          have hkind : n.kind ≠ NKind.aten "scalar_tensor" := by
            intro hk
            have hz := (hcfg n hk).2
            rw [hz] at hfx
            exact Option.noConfusion hfx
          obtain ⟨l1, l2, l3, l4, l5, l6, l7, l8, l9, l10⟩ :=
            propOutputsLoop_spec cfg n false (some qp) n.outputs st st2
              newIds h hG hpos hWnd hWb ((hG.1 n hnmem).2.2.2)
              ((hG.1 n hnmem).2.2.1)
              (fun o ho hw => hguard o hw n hnmem hnid hkind ho)
              (fun hx => absurd hx Bool.false_ne_true)
          refine ⟨l1, l2, l3, l4, l5, l6, ?_, l8, l9, l10⟩
          intro w hw
          rcases l7 w hw with h1 | h2 | h3
          · exact Or.inl h1
          · exact Or.inr (Or.inl ⟨n, hnmem, hnid, h2⟩)
          · exact Or.inr (Or.inr h3)
        next hfx =>
          split at h
          next heqrm => simp at h
          next g2 heqrm =>
            have h2 := Option.some.inj h
            obtain ⟨d1, d2⟩ :=
              removeDequants_spec st.freshV st.freshN _ st.g g2 heqrm hG hpos
            obtain ⟨e1, e2, e3, e4, e5, e6, e7⟩ :=
              insertDeqForOutputs_spec
                (collectB3 cfg st.g st.quantizedValues n.outputs).2
                { st with g := g2 } st2 newIds h2 d1
                (by
                  intro o ho
                  have hom := collectB3_sub cfg st.g st.quantizedValues
                    n.outputs o ho
                  have := (hG.1 n hnmem).2.2.1 o hom
                  show o < st.freshV
                  omega)
            have e2b : st.freshV ≤ st2.freshV := e2
            have e3b : st.freshN ≤ st2.freshN := e3
            have e4b : st2.wraps = st.wraps := e4
            have e5b : ∀ a ∈ newIds, st.freshN ≤ a ∧ a < st2.freshN := e5
            have Trm : GTrans st { st with g := g2 } := by
              constructor
              · intro n2 hn2 hlt
                exact d2 n2 hn2
              · intro n2 hn2 hge o2 ho2
                have hn2b : n2 ∈ g2 := hn2
                have hgeb : st.freshN ≤ n2.nid := hge
                have := (d1.1 n2 hn2b).1
                omega
            have GT : GTrans st st2 :=
              GTrans_comp Trm e7 (Nat.le_refl st.freshV) (Nat.le_refl st.freshN)
            refine ⟨e1, e2b, e3b, by omega, ?_, ?_, ?_, e5b, e6, GT⟩
            · rw [e4b]
              exact hWnd
            · intro w hw
              rw [e4b] at hw
              have := hWb w hw
              omega
            · intro w hw
              rw [e4b] at hw
              exact Or.inl hw

/-- The worklist run preserves the engine invariant, so the final wrap
audit is duplicate-free. -/
theorem propRun_inv (cfg : EngCfg)
    (hcfg : ∀ n : GNode, n.kind = NKind.aten "scalar_tensor" →
      cfg.isSIGV n = false ∧ cfg.fixedQP n = none) :
    ∀ (fuel : Nat) (wl : List Nat) (st stF : PropState),
    propRun cfg fuel wl st = some stF →
    PropInv wl st →
    stF.wraps.Nodup := by
  intro fuel
  induction fuel with
  | zero =>
      intro wl st stF h hI
      simp [propRun] at h
  | succ fuel ih =>
      intro wl st stF h hI
      cases wl with
      | nil =>
          simp only [propRun] at h
          rw [← Option.some.inj h]
          exact hI.1
      | cons nid rest =>
          simp only [propRun] at h
          split at h
          next heqs => simp at h
          next st2 newIds heqs =>
            obtain ⟨i1, i2, i3, i4, i5, i6, i7⟩ := hI
            have hnidrest : nid ∉ rest := (List.nodup_cons.mp i5).1
            obtain ⟨s1, s2, s3, s4, s5, s6, s7, s8, s9, s10⟩ :=
              propStep_spec cfg st nid st2 newIds hcfg heqs i4 i3 i1 i2
                (fun w hw n hn hnid2 hk =>
                  i7 w hw nid (List.mem_cons_self nid rest) n hn hnid2 hk)
            apply ih (rest ++ newIds) st2 stF h
            refine ⟨s5, s6, s4, s1, ?_, ?_, ?_⟩
            · rw [List.nodup_append]
              refine ⟨(List.nodup_cons.mp i5).2, s9, ?_⟩
              intro a ha1 ha2
              have q1 := i6 a (List.mem_cons_of_mem _ ha1)
              have q2 := (s8 a ha2).1
              omega
            · intro a ha
              rcases List.mem_append.mp ha with h1 | h2
              · have := i6 a (List.mem_cons_of_mem _ h1)
                omega
              · exact (s8 a h2).2
            · intro w hw a ha n2 hn2 hnid2 hk
              rcases s7 w hw with hwOld | hwCur | hwChar
              · rcases List.mem_append.mp ha with haR | haN
                · by_cases hlt : n2.nid < st.freshN
                  · obtain ⟨n1, hn1, e1, e2, e3⟩ := s10.1 n2 hn2 hlt
                    rw [← e3]
                    exact i7 w hwOld a (List.mem_cons_of_mem _ haR) n1 hn1
                      (by rw [e1]; exact hnid2) (by rw [e2]; exact hk)
                  · intro ho
                    have q1 := s10.2 n2 hn2 (by omega) w ho
                    have q2 := i2 w hwOld
                    omega
                · intro ho
                  have ha2 := (s8 a haN).1
                  have q1 := s10.2 n2 hn2 (by rw [hnid2]; omega) w ho
                  have q2 := i2 w hwOld
                  omega
              · obtain ⟨n0, hn0, hn0id, hwout⟩ := hwCur
                rcases List.mem_append.mp ha with haR | haN
                · by_cases hlt : n2.nid < st.freshN
                  · obtain ⟨n1, hn1, e1, e2, e3⟩ := s10.1 n2 hn2 hlt
                    rw [← e3]
                    have hne : n0.nid ≠ n1.nid := by
                      rw [hn0id, e1, hnid2]
                      intro hq
                      rw [hq] at hnidrest
                      exact hnidrest haR
                    exact i4.2 n0 hn0 n1 hn1 hne w hwout
                  · intro ho
                    have q1 := s10.2 n2 hn2 (by omega) w ho
                    have q2 := (i4.1 n0 hn0).2.2.1 w hwout
                    omega
                · intro ho
                  have ha2 := (s8 a haN).1
                  have q1 := s10.2 n2 hn2 (by rw [hnid2]; omega) w ho
                  have q2 := (i4.1 n0 hn0).2.2.1 w hwout
                  omega
              · intro ho
                exact hk (hwChar n2 hn2 ho)

/-- C9: for every Value in the graph, the propagation engine
(`propagateQuantizationOps`) quantizes it at most once per pass
invocation.  Each call of `propagateQParams` inserts exactly one quantize
node wrapping one target value and records that value in the `wraps`
audit, so the audit lists the wrapped values of all inserted quantize
nodes in insertion order; the theorem shows that on any well-formed
single-block graph (ids and values below the fresh counters, per-node
duplicate-free outputs, distinct nodes producing disjoint values, distinct
node ids), with classifiers that do not send the pass's own
`aten::scalar_tensor` conversion nodes back through a quantizing branch
(as the source classifiers do not), a completed worklist run leaves a
duplicate-free audit: no value is wrapped by two quantize nodes. -/
theorem c9_propagate_no_double_quant (cfg : EngCfg) (g0 : IRGraph)
    (fv0 fn0 fuel : Nat) (stF : PropState)
    (hcfg : ∀ n : GNode, n.kind = NKind.aten "scalar_tensor" →
      cfg.isSIGV n = false ∧ cfg.fixedQP n = none)
    (hG : GWF g0 fv0 fn0)
    (hpos : 0 < fv0)
    (hU : (g0.map (fun n => n.nid)).Nodup)
    (hrun : propRun cfg fuel (g0.map (fun n => n.nid))
      { g := g0, freshV := fv0, freshN := fn0, quantizedValues := [],
        wraps := [] } = some stF) :
    stF.wraps.Nodup := by
  apply propRun_inv cfg hcfg fuel (g0.map (fun n => n.nid)) _ stF hrun
  refine ⟨List.nodup_nil, ?_, hpos, hG, hU, ?_, ?_⟩
  · intro w hw
    have hb : w ∈ ([] : List Nat) := hw
    simp at hb
  · intro a ha
    obtain ⟨n, hn, rfl⟩ := List.mem_map.mp ha
    exact (hG.1 n hn).1
  · intro w hw
    have hb : w ∈ ([] : List Nat) := hw
    simp at hb

/-- Witness: the C9 theorem applied to the sample graph (a dequantize
feeding a pass-through `flatten`), where the engine run completes and
wraps the flatten output exactly once. -/
theorem c9_witness :
    ∃ stF, propRun c9cfg 6 (c9g.map (fun n => n.nid))
      { g := c9g, freshV := 100, freshN := 10, quantizedValues := [],
        wraps := [] } = some stF ∧ stF.wraps.Nodup := by
  refine ⟨_, rfl, ?_⟩
  exact c9_propagate_no_double_quant c9cfg c9g 100 10 6 _
    (by
      intro n hk
      constructor
      · show (n.kind == NKind.aten "flatten") = false
        rw [hk]
        decide
      · rfl)
    (by unfold GWF c9g c9d c9f; decide)
    (by decide)
    (by unfold c9g c9d c9f; decide)
    rfl

end InsertQDQ
